import Mathlib

/-!
Verification of the `serde-prc` codec (Rust sources `src/lib.rs`, `src/ser.rs`,
`src/de.rs`) against its natural-language specification.

The development is a shallow embedding: bytes are `Nat` values below 256,
byte streams are `List Nat`, Rust machine integers are `Nat`/`Int` with
explicit `% 2^w` where the source casts, fallible code returns an explicit
result type.  Structures and functions are translated from the Rust source;
each definition carries a note naming the Rust item it embeds.

Modelling conventions, fixed once here:
* `Hash40` (an external crate) is a newtype over `u64`; it is modelled as the
  raw `Nat` payload (`< 2^64` where well-formedness matters).
* The decoder's per-offset string/map-header caches (`ReferenceData.strings`,
  `ReferenceData.maps` in `de.rs`) memoize pure functions of the immutable
  blob: a cache hit returns exactly what recomputation would.  They are
  omitted from the embedding; every lookup is recomputed.
* Error values are compared by their `ErrorKind`; the `position_stack` frames
  pushed by the `tri!` macro wrap the kind without changing it and are not
  modelled.
* Rust panics (`assert!`, `unwrap`, `expect`) are modelled as a distinguished
  `panic` outcome, kept separate from typed errors.  Unbounded recursion is
  driven by fuel; fuel exhaustion also maps to `panic` (in Rust it would be a
  stack overflow, which aborts).
-/

set_option maxHeartbeats 1000000
set_option linter.unusedTactic false

namespace SerdePrc

/-! ## Byte-level primitives (little-endian, as `byteorder::LittleEndian`) -/

/-- Little-endian bytes of `n as u32` (`write_u32::<LittleEndian>`). -/
def u32le (n : Nat) : List Nat :=
  [n % 256, n / 256 % 256, n / 65536 % 256, n / 16777216 % 256]

/-- Little-endian bytes of `n as u64` (`write_u64::<LittleEndian>`). -/
def u64le (n : Nat) : List Nat :=
  [n % 256, n / 256 % 256, n / 65536 % 256, n / 16777216 % 256,
   n / 4294967296 % 256, n / 1099511627776 % 256,
   n / 281474976710656 % 256, n / 72057594037927936 % 256]

/-- Little-endian bytes of `n as u16`. -/
def u16le (n : Nat) : List Nat :=
  [n % 256, n / 256 % 256]

/-- Read a `u16` at position `p` (`read_u16::<LittleEndian>`); `none` when the
stream is too short. -/
def readU16 (l : List Nat) (p : Nat) : Option Nat := do
  let b0 ← l.get? p
  let b1 ← l.get? (p + 1)
  pure (b0 + 256 * b1)

/-- Read a `u32` at position `p` (`read_u32::<LittleEndian>`). -/
def readU32 (l : List Nat) (p : Nat) : Option Nat := do
  let b0 ← l.get? p
  let b1 ← l.get? (p + 1)
  let b2 ← l.get? (p + 2)
  let b3 ← l.get? (p + 3)
  pure (b0 + 256 * b1 + 65536 * b2 + 16777216 * b3)

/-- Read a `u64` at position `p` (`read_u64::<LittleEndian>`). -/
def readU64 (l : List Nat) (p : Nat) : Option Nat := do
  let lo ← readU32 l p
  let hi ← readU32 l (p + 4)
  pure (lo + 4294967296 * hi)

/-- Read `n` consecutive `u32` values starting at `p`. -/
def readU32Seq (l : List Nat) (p : Nat) : Nat → Option (List Nat)
  | 0 => some []
  | n + 1 => do
    let v ← readU32 l p
    let r ← readU32Seq l (p + 4) n
    pure (v :: r)

/-- Read `n` consecutive `u64` values starting at `p` (the hash table load in
`from_reader`). -/
def readU64Seq (l : List Nat) (p : Nat) : Nat → Option (List Nat)
  | 0 => some []
  | n + 1 => do
    let v ← readU64 l p
    let r ← readU64Seq l (p + 8) n
    pure (v :: r)

/-- The byte written for an `i8` value (two's complement). -/
def byteOfI8 (v : Int) : Nat := (v % 256).toNat

/-- The `i8` read back from a byte (`read_i8`). -/
def i8OfByte (b : Nat) : Int := if b < 128 then (b : Int) else (b : Int) - 256

/-- The `u16` bit pattern written for an `i16` value. -/
def wordOfI16 (v : Int) : Nat := (v % 65536).toNat

/-- The `i16` read back from a `u16` bit pattern (`read_i16`). -/
def i16OfWord (w : Nat) : Int := if w < 32768 then (w : Int) else (w : Int) - 65536

/-- The `u32` bit pattern written for an `i32` value. -/
def wordOfI32 (v : Int) : Nat := (v % 4294967296).toNat

/-- The `i32` read back from a `u32` bit pattern (`read_i32`). -/
def i32OfWord (w : Nat) : Int :=
  if w < 2147483648 then (w : Int) else (w : Int) - 4294967296

/-! ## The value model (`Value` in `lib.rs`, declared by the `decl_id!` macro)

Payload conventions: fixed-width integers are `Int`/`Nat` constrained by the
well-formedness predicate below; `f32` carries its raw IEEE-754 bit pattern
(the codec reads and writes the four payload bytes verbatim, so bit equality
is the faithful wire-level notion); `hash` carries the `Hash40` `u64` payload;
`string` carries the UTF-8 bytes of the Rust `String`; `map` is an `IndexMap`
modelled as an insertion-ordered association list with unique keys. -/

inductive Value where
  | bool (b : Bool)
  | i8 (v : Int)
  | u8 (v : Nat)
  | i16 (v : Int)
  | u16 (v : Nat)
  | i32 (v : Int)
  | u32 (v : Nat)
  | f32 (bits : Nat)
  | hash (h : Nat)
  | string (s : List Nat)
  | list (xs : List Value)
  | map (kvs : List (Nat × Value))

mutual

/-- Structural (derived `PartialEq`) equality test for `Value`; for `f32` this
is bit equality, see the payload conventions above. -/
def Value.beq : Value → Value → Bool
  | .bool a, .bool b => a == b
  | .i8 a, .i8 b => a == b
  | .u8 a, .u8 b => a == b
  | .i16 a, .i16 b => a == b
  | .u16 a, .u16 b => a == b
  | .i32 a, .i32 b => a == b
  | .u32 a, .u32 b => a == b
  | .f32 a, .f32 b => a == b
  | .hash a, .hash b => a == b
  | .string a, .string b => a == b
  | .list a, .list b => Value.beqList a b
  | .map a, .map b => Value.beqMap a b
  | _, _ => false

def Value.beqList : List Value → List Value → Bool
  | [], [] => true
  | x :: xs, y :: ys => Value.beq x y && Value.beqList xs ys
  | _, _ => false

def Value.beqMap : List (Nat × Value) → List (Nat × Value) → Bool
  | [], [] => true
  | (k, v) :: xs, (k', v') :: ys => k == k' && Value.beq v v' && Value.beqMap xs ys
  | _, _ => false

end

mutual

theorem Value.beq_iff : ∀ a b : Value, Value.beq a b = true ↔ a = b
  | .bool _, b => by cases b <;> simp [Value.beq]
  | .i8 _, b => by cases b <;> simp [Value.beq]
  | .u8 _, b => by cases b <;> simp [Value.beq]
  | .i16 _, b => by cases b <;> simp [Value.beq]
  | .u16 _, b => by cases b <;> simp [Value.beq]
  | .i32 _, b => by cases b <;> simp [Value.beq]
  | .u32 _, b => by cases b <;> simp [Value.beq]
  | .f32 _, b => by cases b <;> simp [Value.beq]
  | .hash _, b => by cases b <;> simp [Value.beq]
  | .string _, b => by cases b <;> simp [Value.beq]
  | .list xs, b => by
    cases b <;> simp [Value.beq]
    exact Value.beqList_iff xs _
  | .map kvs, b => by
    cases b <;> simp [Value.beq]
    exact Value.beqMap_iff kvs _

theorem Value.beqList_iff : ∀ a b : List Value, Value.beqList a b = true ↔ a = b
  | [], [] => by simp [Value.beqList]
  | x :: xs, y :: ys => by
    simp [Value.beqList, Value.beq_iff x y, Value.beqList_iff xs ys]
  | [], _ :: _ => by simp [Value.beqList]
  | _ :: _, [] => by simp [Value.beqList]

theorem Value.beqMap_iff : ∀ a b : List (Nat × Value), Value.beqMap a b = true ↔ a = b
  | [], [] => by simp [Value.beqMap]
  | (k, v) :: xs, (k', v') :: ys => by
    simp [Value.beqMap, Value.beq_iff v v', Value.beqMap_iff xs ys]
  | [], _ :: _ => by simp [Value.beqMap]
  | _ :: _, [] => by simp [Value.beqMap]

end

instance : DecidableEq Value := fun a b =>
  decidable_of_iff (Value.beq a b = true) (Value.beq_iff a b)

mutual

/-- All subvalues of a value: the value itself and, recursively, the subvalues
of list elements and map values (the traversal order every pass in `ser.rs`
uses).  This is a proof-side device used to state per-node conditions. -/
def Value.subs : Value → List Value
  | .list xs => .list xs :: Value.subsList xs
  | .map kvs => .map kvs :: Value.subsMap kvs
  | v => [v]

def Value.subsList : List Value → List Value
  | [] => []
  | x :: xs => Value.subs x ++ Value.subsList xs

def Value.subsMap : List (Nat × Value) → List Value
  | [] => []
  | (_, v) :: kvs => Value.subs v ++ Value.subsMap kvs

end

/-- Shallow well-formedness of one node: the payloads are representable by the
Rust types they model (`i8`/`u8`/…/`f32` ranges, `Hash40` is a `u64`, string
bytes are bytes, `IndexMap` keys are distinct `u64` values). -/
def Value.nodeWF : Value → Prop
  | .bool _ => True
  | .i8 v => -128 ≤ v ∧ v < 128
  | .u8 v => v < 256
  | .i16 v => -32768 ≤ v ∧ v < 32768
  | .u16 v => v < 65536
  | .i32 v => -2147483648 ≤ v ∧ v < 2147483648
  | .u32 v => v < 4294967296
  | .f32 bits => bits < 4294967296
  | .hash h => h < 18446744073709551616
  | .string s => ∀ b ∈ s, b < 256
  | .list _ => True
  | .map kvs => (kvs.map Prod.fst).Nodup ∧ ∀ k ∈ kvs.map Prod.fst, k < 18446744073709551616

instance : ∀ v : Value, Decidable v.nodeWF := fun v => by
  cases v <;> simp only [Value.nodeWF] <;> infer_instance

/-- Well-formedness of a whole tree: every subvalue is shallowly well-formed. -/
def Value.WF (v : Value) : Prop := ∀ u ∈ v.subs, u.nodeWF

instance : ∀ v : Value, Decidable v.WF := fun v => by
  unfold Value.WF; infer_instance

/-! ## The size function (`calculate_binary_size_of_value` in `ser.rs`)

`prim::<T>()` in the source is `1 + size_of::<T>()`: one tag byte plus the
payload. -/

mutual

/-- Exact encoded byte size of a value, tag included
(`calculate_binary_size_of_value`). -/
def calculate_binary_size_of_value : Value → Nat
  | .bool _ => 2
  | .u8 _ => 2
  | .i8 _ => 2
  | .i16 _ => 3
  | .u16 _ => 3
  | .i32 _ => 5
  | .u32 _ => 5
  | .f32 _ => 5
  | .string _ => 5
  | .hash _ => 5
  | .list values => 5 + values.length * 4 + binSizeSumList values
  | .map m => 5 + 4 + binSizeSumMap m

/-- Sum of element sizes (`values.iter().map(calculate_binary_size_of_value).sum()`). -/
def binSizeSumList : List Value → Nat
  | [] => 0
  | x :: xs => calculate_binary_size_of_value x + binSizeSumList xs

/-- Sum of map value sizes (`map.values().map(calculate_binary_size_of_value).sum()`). -/
def binSizeSumMap : List (Nat × Value) → Nat
  | [] => 0
  | (_, v) :: kvs => calculate_binary_size_of_value v + binSizeSumMap kvs

end

/-! ## Merge and the numeric accessors (`Value::as_*`, `Value::merge` in `lib.rs`)

Each `as_*` arm mirrors the source conversion exactly: `try_into().ok()` is a
value-preserving range check, while an `as` cast is modelled as the two's
complement wrap the Rust cast performs. -/

/-- `Value::as_bool`. -/
def Value.as_bool : Value → Option Bool
  | .bool b => some b
  | _ => none

/-- `Value::as_i8` (every arm is a `try_into`, i.e. value-preserving). -/
def Value.as_i8 : Value → Option Int
  | .i8 v => some v
  | .u8 v => if v < 128 then some (v : Int) else none
  | .i16 v => if -128 ≤ v ∧ v < 128 then some v else none
  | .u16 v => if v < 128 then some (v : Int) else none
  | .i32 v => if -128 ≤ v ∧ v < 128 then some v else none
  | .u32 v => if v < 128 then some (v : Int) else none
  | _ => none

/-- `Value::as_u8` (every arm is a `try_into`). -/
def Value.as_u8 : Value → Option Nat
  | .u8 v => some v
  | .i8 v => if 0 ≤ v then some v.toNat else none
  | .i16 v => if 0 ≤ v ∧ v < 256 then some v.toNat else none
  | .u16 v => if v < 256 then some v else none
  | .i32 v => if 0 ≤ v ∧ v < 256 then some v.toNat else none
  | .u32 v => if v < 256 then some v else none
  | _ => none

/-- `Value::as_i16`: `i8`/`u8` arms are widening `as` casts (value-preserving),
the rest are `try_into`. -/
def Value.as_i16 : Value → Option Int
  | .i8 v => some v
  | .u8 v => some (v : Int)
  | .i16 v => some v
  | .u16 v => if v < 32768 then some (v : Int) else none
  | .i32 v => if -32768 ≤ v ∧ v < 32768 then some v else none
  | .u32 v => if v < 32768 then some (v : Int) else none
  | _ => none

/-- `Value::as_u16`: the `i8` arm is `*v as u16`, a two's complement WRAPPING
cast (negative `i8` values become large `u16` values); `u8` is a widening
cast; the rest are `try_into`. -/
def Value.as_u16 : Value → Option Nat
  | .i8 v => some (v % 65536).toNat
  | .u8 v => some v
  | .u16 v => some v
  | .i16 v => if 0 ≤ v then some v.toNat else none
  | .i32 v => if 0 ≤ v ∧ v < 65536 then some v.toNat else none
  | .u32 v => if v < 65536 then some v else none
  | _ => none

/-- `Value::as_i32`: widening `as` casts for the smaller types, `try_into` for
`u32`. -/
def Value.as_i32 : Value → Option Int
  | .i8 v => some v
  | .u8 v => some (v : Int)
  | .i16 v => some v
  | .u16 v => some (v : Int)
  | .i32 v => some v
  | .u32 v => if v < 2147483648 then some (v : Int) else none
  | _ => none

/-- `Value::as_u32`: the `i8` and `i16` arms are `*v as u32`, two's complement
WRAPPING casts; `u8`/`u16` are widening casts; `i32` is `try_into`. -/
def Value.as_u32 : Value → Option Nat
  | .i8 v => some (v % 4294967296).toNat
  | .u8 v => some v
  | .i16 v => some (v % 4294967296).toNat
  | .u16 v => some v
  | .u32 v => some v
  | .i32 v => if 0 ≤ v then some v.toNat else none
  | _ => none

/-- `Value::as_f32` (bit pattern payload). -/
def Value.as_f32 : Value → Option Nat
  | .f32 bits => some bits
  | _ => none

/-- `Value::as_hash`. -/
def Value.as_hash : Value → Option Nat
  | .hash h => some h
  | _ => none

/-- `Value::as_str`. -/
def Value.as_str : Value → Option (List Nat)
  | .string s => some s
  | _ => none

/-- `Value::as_list`. -/
def Value.as_list : Value → Option (List Value)
  | .list l => some l
  | _ => none

/-- `Value::as_map`. -/
def Value.as_map : Value → Option (List (Nat × Value))
  | .map m => some m
  | _ => none

mutual

/-- `Value::merge`: overwrite scalar leaves of `self` with convertible leaves
of `other`; recurse into lists pairwise and into maps by key. -/
def Value.merge : Value → Value → Value
  | .bool v, other => match other.as_bool with | some o => .bool o | none => .bool v
  | .i8 v, other => match other.as_i8 with | some o => .i8 o | none => .i8 v
  | .u8 v, other => match other.as_u8 with | some o => .u8 o | none => .u8 v
  | .i16 v, other => match other.as_i16 with | some o => .i16 o | none => .i16 v
  | .u16 v, other => match other.as_u16 with | some o => .u16 o | none => .u16 v
  | .i32 v, other => match other.as_i32 with | some o => .i32 o | none => .i32 v
  | .u32 v, other => match other.as_u32 with | some o => .u32 o | none => .u32 v
  | .f32 v, other => match other.as_f32 with | some o => .f32 o | none => .f32 v
  | .hash v, other => match other.as_hash with | some o => .hash o | none => .hash v
  | .string v, other => match other.as_str with | some o => .string o | none => .string v
  | .list v, other =>
    match other.as_list with
    | some o => .list (Value.mergeList v o)
    | none => .list v
  | .map v, other =>
    match other.as_map with
    | some o => .map (Value.mergeMap v o)
    | none => .map v

/-- The `iter_mut().zip(other)` loop of the `List` arm: pairwise merge, extra
elements on either side left alone / ignored. -/
def Value.mergeList : List Value → List Value → List Value
  | [], _ => []
  | xs, [] => xs
  | x :: xs, o :: os => Value.merge x o :: Value.mergeList xs os

/-- The `Map` arm's loop: for each key of `self`, merge with `other.get(k)`
when present; keys only in `other` are ignored. -/
def Value.mergeMap : List (Nat × Value) → List (Nat × Value) → List (Nat × Value)
  | [], _ => []
  | (k, v) :: rest, other =>
    (k, match other.lookup k with
        | some o => Value.merge v o
        | none => v) :: Value.mergeMap rest other

end

/-! ## Encoder (`ser.rs`) -/

/-- Encoder-side error type (`ser::Error`); the `IO` variant cannot occur when
writing to a growable in-memory buffer and is omitted. -/
inductive SerError where
  | unsupportedKeyType (t : String)
  | unsupportedValueType (t : String)
  | custom (msg : String)
  deriving DecidableEq

/-- `IntoValueSerializer::serialize_i64`: `v.try_into()` to `i32`, a custom
error outside the `i32` range (the message is `TryFromIntError`'s display
text). -/
def IntoValueSerializer.serialize_i64 (v : Int) : Except SerError Value :=
  if -2147483648 ≤ v ∧ v < 2147483648 then .ok (.i32 v)
  else .error (.custom ("out of range integral type conversion attempted"))

/-- `IntoValueSerializer::serialize_u64`: always a `Hash`. -/
def IntoValueSerializer.serialize_u64 (v : Nat) : Except SerError Value :=
  .ok (.hash v)

/-- `IndexMap::insert` on the association-list model: an existing key keeps
its position and has its value replaced; a fresh key is appended. -/
def indexMapInsert (m : List (Nat × Value)) (k : Nat) (v : Value) : List (Nat × Value) :=
  if (m.lookup k).isSome then m.map (fun kv => if kv.1 = k then (k, v) else kv)
  else m ++ [(k, v)]

/-- `MapSerializer` state (`ser.rs`): the map built so far and the pending key
set by `serialize_key`. -/
structure MapSerializer where
  map : List (Nat × Value)
  current_key : Option Nat

/-- `SerializeMap::serialize_value` for `MapSerializer`: an error when no key
is pending, otherwise insert `(key, value)` and clear the pending key.  The
value argument has already been converted by `IntoValueSerializer`. -/
def MapSerializer.serialize_value (s : MapSerializer) (value : Value) :
    Except SerError MapSerializer :=
  match s.current_key with
  | none => .error (.custom ("attempting to serialize value with no key"))
  | some key => .ok ⟨indexMapInsert s.map key value, none⟩

/-- `IndexSet::insert` on the list model: first-seen order, duplicates keep
their original slot. -/
def idxInsert (l : List Nat) (h : Nat) : List Nat :=
  if h ∈ l then l else l ++ [h]

mutual

/-- `visit_hashes` (`ser.rs`): depth-first collection of every `Hash` payload
and every map key into the order-preserving deduplicating set. -/
def visit_hashes (lookup : List Nat) : Value → List Nat
  | .hash h => idxInsert lookup h
  | .list values => visitHashesList lookup values
  | .map values => visitHashesMap lookup values
  | _ => lookup

def visitHashesList (lookup : List Nat) : List Value → List Nat
  | [] => lookup
  | v :: vs => visitHashesList (visit_hashes lookup v) vs

def visitHashesMap (lookup : List Nat) : List (Nat × Value) → List Nat
  | [] => lookup
  | (k, v) :: kvs => visitHashesMap (visit_hashes (idxInsert lookup k) v) kvs

end

mutual

/-- `visit_strings` (`ser.rs`): append each first-seen string as
`content ++ [0]` to the reference blob and record `content ↦ offset`
(`data.len() as u32` at insertion time). -/
def visit_strings (data : List Nat) (lookup : List (List Nat × Nat)) :
    Value → List Nat × List (List Nat × Nat)
  | .string s =>
    if (lookup.lookup s).isSome then (data, lookup)
    else (data ++ s ++ [0], lookup ++ [(s, data.length % 4294967296)])
  | .list values => visitStringsList data lookup values
  | .map m => visitStringsMap data lookup m
  | _ => (data, lookup)

def visitStringsList (data : List Nat) (lookup : List (List Nat × Nat)) :
    List Value → List Nat × List (List Nat × Nat)
  | [] => (data, lookup)
  | v :: vs =>
    let (d, lk) := visit_strings data lookup v
    visitStringsList d lk vs

def visitStringsMap (data : List Nat) (lookup : List (List Nat × Nat)) :
    List (Nat × Value) → List Nat × List (List Nat × Nat)
  | [] => (data, lookup)
  | (_, v) :: kvs =>
    let (d, lk) := visit_strings data lookup v
    visitStringsMap d lk kvs

end

/-- `get_struct_key` (`ser.rs`) feeds, in order, each key and each value's
exact binary size into a `DefaultHasher` and returns `hasher.finish()`.  The
hasher's output is a deterministic pure function of that input sequence, so
the fingerprint is modelled as the input sequence itself: equal sequences give
equal Rust fingerprints.  (The real 64-bit hash may additionally collide on
distinct sequences, which would only merge more header entries; none of the
verified claims depends on the absence of such collisions.) -/
def get_struct_key (m : List (Nat × Value)) : List (Nat × Nat) :=
  m.map (fun kv => (kv.1, calculate_binary_size_of_value kv.2))

/-- The header-entry loop of `visit_structs`: for each `(key, value)` pair
write `key_index as u32` and `value_offset as u32`, with the running offset
starting at `prim::<u32>() + size_of::<u32>() = 9`; `None` when a key is
missing from the hash table (`.expect("should have cached the map key")`,
a panic in Rust). -/
def structHeaderBytes (hashes : List Nat) (wip : Nat) :
    List (Nat × Value) → Option (List Nat)
  | [] => some []
  | (k, v) :: rest => do
    let keyIndex ← hashes.indexOf? k
    let r ← structHeaderBytes hashes (wip + calculate_binary_size_of_value v) rest
    pure (u32le keyIndex ++ u32le wip ++ r)

mutual

/-- `visit_structs` (`ser.rs`): register one header per first-seen map
fingerprint; on a fingerprint hit return early WITHOUT recursing into the
map's values (exactly as the source's `return`). -/
def visit_structs (hashes : List Nat) (data : List Nat)
    (lookup : List (List (Nat × Nat) × Nat)) :
    Value → Option (List Nat × List (List (Nat × Nat) × Nat))
  | .list l => visitStructsList hashes data lookup l
  | .map m =>
    let key := get_struct_key m
    if (lookup.lookup key).isSome then some (data, lookup)
    else do
      let hdr ← structHeaderBytes hashes 9 m
      visitStructsMap hashes (data ++ hdr)
        (lookup ++ [(key, data.length % 4294967296)]) m
  | _ => some (data, lookup)

def visitStructsList (hashes : List Nat) (data : List Nat)
    (lookup : List (List (Nat × Nat) × Nat)) :
    List Value → Option (List Nat × List (List (Nat × Nat) × Nat))
  | [] => some (data, lookup)
  | v :: vs => do
    let (d, lk) ← visit_structs hashes data lookup v
    visitStructsList hashes d lk vs

def visitStructsMap (hashes : List Nat) (data : List Nat)
    (lookup : List (List (Nat × Nat) × Nat)) :
    List (Nat × Value) → Option (List Nat × List (List (Nat × Nat) × Nat))
  | [] => some (data, lookup)
  | (_, v) :: kvs => do
    let (d, lk) ← visit_structs hashes data lookup v
    visitStructsMap hashes d lk kvs

end

/-- The element-offset loop of `write_value`'s `List` arm: `wip_offset` starts
at `prim::<u32>() + len * 4` and each element's offset is written before
adding its exact binary size. -/
def listOffsetBytes (wip : Nat) : List Value → List Nat
  | [] => []
  | x :: xs => u32le wip ++ listOffsetBytes (wip + calculate_binary_size_of_value x) xs

mutual

/-- `write_value` (`ser.rs`): the final tagged serialization pass.  `None`
models the three `.expect(...)` panics (hash / string / struct lookup
failures); writing to the in-memory buffer itself cannot fail. -/
def write_value (hashes : List Nat) (strings : List (List Nat × Nat))
    (structs : List (List (Nat × Nat) × Nat)) : Value → Option (List Nat)
  | .bool v => some [1, if v then 1 else 0]
  | .i8 v => some [2, byteOfI8 v]
  | .u8 v => some [3, v % 256]
  | .i16 v => some (4 :: u16le (wordOfI16 v))
  | .u16 v => some (5 :: u16le v)
  | .i32 v => some (6 :: u32le (wordOfI32 v))
  | .u32 v => some (7 :: u32le v)
  | .f32 bits => some (8 :: u32le bits)
  | .hash v => do
    let idx ← hashes.indexOf? v
    pure (9 :: u32le idx)
  | .string v => do
    let off ← strings.lookup v
    pure (10 :: u32le off)
  | .list v => do
    let body ← writeValueList hashes strings structs v
    pure ((11 :: u32le v.length) ++ listOffsetBytes (5 + v.length * 4) v ++ body)
  | .map m => do
    let off ← structs.lookup (get_struct_key m)
    let body ← writeValueMap hashes strings structs m
    pure ((12 :: u32le m.length) ++ u32le off ++ body)

def writeValueList (hashes : List Nat) (strings : List (List Nat × Nat))
    (structs : List (List (Nat × Nat) × Nat)) : List Value → Option (List Nat)
  | [] => some []
  | v :: vs => do
    let b ← write_value hashes strings structs v
    let r ← writeValueList hashes strings structs vs
    pure (b ++ r)

def writeValueMap (hashes : List Nat) (strings : List (List Nat × Nat))
    (structs : List (List (Nat × Nat) × Nat)) : List (Nat × Value) → Option (List Nat)
  | [] => some []
  | (_, v) :: kvs => do
    let b ← write_value hashes strings structs v
    let r ← writeValueMap hashes strings structs kvs
    pure (b ++ r)

end

/-- The fixed 8-byte magic signature `b"paracobn"`. -/
def magicBytes : List Nat := [112, 97, 114, 97, 99, 111, 98, 110]

/-- The hash-table section: each collected hash written as 8 bytes LE. -/
def hashTableBytes (hashes : List Nat) : List Nat := hashes.flatMap u64le

/-- `ser::write` (`ser.rs`), specialized to a `Value` input:
`Value::serialize(IntoValueSerializer)` is the identity conversion on the
value model (each `Value` arm calls the exactly corresponding
`serialize_*` back into the same constructor), so `write` takes the `Value`
directly.  Runs the three planning passes, then emits
magic ++ hash-table length ++ blob length ++ hash table ++ blob ++ value. -/
def write (value : Value) : Option (List Nat) := do
  let hash_lookup := visit_hashes [] value
  let (reference_data, string_lookup) := visit_strings [] [] value
  let (reference_data2, struct_lookup) ← visit_structs hash_lookup reference_data [] value
  let body ← write_value hash_lookup string_lookup struct_lookup value
  pure (magicBytes ++ u32le (8 * hash_lookup.length) ++ u32le reference_data2.length
      ++ hashTableBytes hash_lookup ++ reference_data2 ++ body)

/-- `to_vec` (`ser.rs`): `write` into a fresh in-memory buffer. -/
def to_vec (value : Value) : Option (List Nat) := write value

/-! ## Decoder (`de.rs`) -/

/-- Decoder-side error kinds (`de::ErrorKind`).  The `Error` wrapper's
`position_stack` frames decorate the kind without changing it and are not
modelled; `ioError` stands for any underlying read/seek failure. -/
inductive DErrorKind where
  | invalidParamId (b : Nat)
  | hashOutOfBounds (i : Nat)
  | stringRefOutOfBounds (i : Nat)
  | stringNotAscii (i : Nat)
  | mapRefOutOfBounds (start : Nat) (num_elements : Nat)
  | ioError
  | custom (msg : String)
  deriving DecidableEq

/-- Result of a decoder step: a typed error (`de::Error`), a Rust panic /
abort, or success. -/
inductive DResult (α : Type) where
  | ok (v : α)
  | err (e : DErrorKind)
  | panic
  deriving DecidableEq

instance : Monad DResult where
  pure := .ok
  bind := fun r f =>
    match r with
    | .ok v => f v
    | .err e => .err e
    | .panic => .panic

/-- The immutable context of one top-level decode: the whole input stream,
the hash table, the reference blob and the blob's configured file offset
(`ReferenceData.file_offset`). -/
structure DecodeEnv where
  stream : List Nat
  hashes : List Nat
  refRaw : List Nat
  fileOffset : Nat
  deriving DecidableEq

/-- `ParamFileReader::get_string` (`de.rs`): bounds-check the offset, scan to
the first NUL, require every byte strictly ASCII.  The memoization cache is
omitted (see the module conventions). -/
def ParamFileReader.get_string (env : DecodeEnv) (offset : Nat) : DResult (List Nat) :=
  if offset ≥ env.refRaw.length then .err (.stringRefOutOfBounds offset)
  else
    let data := env.refRaw.drop offset
    match data.findIdx? (fun b => b == 0) with
    | none => .err (.stringRefOutOfBounds (env.fileOffset + offset))
    | some len =>
      let s := data.take len
      match s.findIdx? (fun b => decide (128 ≤ b)) with
      | some pos => .err (.stringNotAscii (env.fileOffset + offset + pos))
      | none => .ok s

/-- The entry loop of `get_map`: after the bounds check the slice reads cannot
fail (an out-of-range slice would be a Rust panic, hence `.panic`); a hash
index beyond the table is the `HashOutOfBounds` error. -/
def getMapEntries (env : DecodeEnv) (offset dataStart : Nat) : Nat → Nat → DResult (List (Nat × Nat))
  | _, 0 => .ok []
  | index, remaining + 1 =>
    match readU32 env.refRaw (offset + index * 8), readU32 env.refRaw (offset + index * 8 + 4) with
    | some hashIndex, some dataOffset =>
      match env.hashes.get? hashIndex with
      | none => .err (.hashOutOfBounds hashIndex)
      | some h => do
        let rest ← getMapEntries env offset dataStart (index + 1) remaining
        pure ((h, dataStart + dataOffset) :: rest)
    | _, _ => .panic

/-- `ParamFileReader::get_map` (`de.rs`): bounds-check `offset + len * 8`
against the blob, then read `len` `(hash-index, relative-offset)` pairs,
resolving each hash index and adding `data_start` to each relative offset.
The memoization cache is omitted (a hit replays the same pairs). -/
def ParamFileReader.get_map (env : DecodeEnv) (offset len dataStart : Nat) :
    DResult (List (Nat × Nat)) :=
  if offset + len * 8 > env.refRaw.length then
    .err (.mapRefOutOfBounds (env.fileOffset + offset) len)
  else getMapEntries env offset dataStart 0 len

/-- `MapDeserializer` cursor state (`de.rs`): the resolved
`(key, absolute value offset)` pairs, the next entry index `current`, and
`current_key`, the index of the key most recently handed out. -/
structure MapDe where
  keys : List (Nat × Nat)
  current : Nat
  current_key : Nat
  deriving DecidableEq

/-- `MapAccess::next_key_seed` for `MapDeserializer`: `None` once all keys are
handed out; otherwise produce the current key and advance.  Decoding into the
generic value model passes `fields = None`, so the key seed is
`MapKeyDeserializer::Hash(key)`, whose `deserialize_u64` hands the `Hash40`
payload straight to the visitor. -/
def MapDe.next_key (m : MapDe) : Option (Nat × MapDe) :=
  if m.current ≥ m.keys.length then none
  else
    match m.keys.get? m.current with
    | none => none
    | some (k, _) => some (k, { m with current_key := m.current, current := m.current + 1 })

/-- A hexadecimal digit's value (`char::to_digit(16)` inside
`from_str_radix`). -/
def parseHexDigit (c : Nat) : Option Nat :=
  if 48 ≤ c ∧ c ≤ 57 then some (c - 48)
  else if 97 ≤ c ∧ c ≤ 102 then some (c - 87)
  else if 65 ≤ c ∧ c ≤ 70 then some (c - 55)
  else none

/-- The digit-accumulation loop of `u64::from_str_radix(_, 16)`.  The real
loop also checks `u64` overflow; the only call site passes exactly ten hex
digits (at most `2^40 - 1`), where overflow is impossible. -/
def hexFold : List Nat → Nat → Option Nat
  | [], acc => some acc
  | c :: r, acc => do
    let d ← parseHexDigit c
    hexFold r (16 * acc + d)

/-- Value of a nonempty all-hex-digit string (empty input is
`InvalidDigit`). -/
def hexDigitsVal : List Nat → Option Nat
  | [] => none
  | cs => hexFold cs 0

/-- `u64::from_str_radix(s, 16)`: an optional leading `+` is accepted; a
leading `-` folds the digits with `checked_sub` from zero, so it succeeds
exactly when every digit is zero. -/
def from_str_radix_u64_hex (cs : List Nat) : Option Nat :=
  match cs with
  | [] => none
  | c :: _ =>
    if c = 43 then hexDigitsVal cs.tail
    else if c = 45 then
      match hexDigitsVal cs.tail with
      | some 0 => some 0
      | _ => none
    else hexDigitsVal cs

/-- `ValueVisitor::visit_str` (`de.rs`): a 12-byte string of the shape
`0x` + 10 hex digits is reinterpreted as a `Hash`; anything else stays a
`String`. -/
def ValueVisitor.visit_str (s : List Nat) : Value :=
  if s.length = 12 ∧ s.take 2 = [48, 120] then
    match from_str_radix_u64_hex (s.drop 2) with
    | some v => .hash v
    | none => .string s
  else .string s

/-- `ValueVisitor::visit_i64` (`de.rs`): `v.try_into()` to `i32`, custom error
outside the range. -/
def ValueVisitor.visit_i64 (v : Int) : Except DErrorKind Value :=
  if -2147483648 ≤ v ∧ v < 2147483648 then .ok (.i32 v)
  else .error (.custom ("out of range integral type conversion attempted"))

/-- `ValueVisitor::visit_u64` (`de.rs`): always a `Hash`. -/
def ValueVisitor.visit_u64 (v : Nat) : Except DErrorKind Value :=
  .ok (.hash v)

/-- `IndexMap` construction in `ValueVisitor::visit_map`: insert the decoded
entries in order. -/
def buildIndexMap (entries : List (Nat × Value)) : List (Nat × Value) :=
  entries.foldl (fun acc kv => indexMapInsert acc kv.1 kv.2) []

/-- The header parse of `deserialize_any`'s `List` arm: `base_position` is the
stream position of the type tag (`stream_position()` after the tag read,
minus one); the 4-byte count is at `base + 1`, the relative offsets follow,
and each absolute offset is `base + relative`. -/
def list_element_offsets (stream : List Nat) (basePosition : Nat) : Option (Nat × List Nat) := do
  let count ← readU32 stream (basePosition + 1)
  let rels ← readU32Seq stream (basePosition + 5) count
  pure (count, rels.map (fun r => basePosition + r))

mutual

/-- `Deserializer::deserialize_any` driven by `ValueVisitor` (the
`Value::deserialize` path), returning the decoded value together with the
stream position after the parse.  Fuel exhaustion models unbounded recursion
(a stack-overflow abort in Rust). -/
def deserialize_any (fuel : Nat) (env : DecodeEnv) (pos : Nat) : DResult (Value × Nat) :=
  match fuel with
  | 0 => .panic
  | f + 1 =>
    match env.stream.get? pos with
    | none => .err .ioError
    | some tag =>
      match tag with
      | 1 =>
        match env.stream.get? (pos + 1) with
        | none => .err .ioError
        | some b => .ok (.bool (b != 0), pos + 2)
      | 2 =>
        match env.stream.get? (pos + 1) with
        | none => .err .ioError
        | some b => .ok (.i8 (i8OfByte b), pos + 2)
      | 3 =>
        match env.stream.get? (pos + 1) with
        | none => .err .ioError
        | some b => .ok (.u8 b, pos + 2)
      | 4 =>
        match readU16 env.stream (pos + 1) with
        | none => .err .ioError
        | some w => .ok (.i16 (i16OfWord w), pos + 3)
      | 5 =>
        match readU16 env.stream (pos + 1) with
        | none => .err .ioError
        | some w => .ok (.u16 w, pos + 3)
      | 6 =>
        match readU32 env.stream (pos + 1) with
        | none => .err .ioError
        | some w => .ok (.i32 (i32OfWord w), pos + 5)
      | 7 =>
        match readU32 env.stream (pos + 1) with
        | none => .err .ioError
        | some w => .ok (.u32 w, pos + 5)
      | 8 =>
        match readU32 env.stream (pos + 1) with
        | none => .err .ioError
        | some w => .ok (.f32 w, pos + 5)
      | 9 =>
        match readU32 env.stream (pos + 1) with
        | none => .err .ioError
        | some index =>
          match env.hashes.get? index with
          | none => .err (.hashOutOfBounds index)
          | some h => .ok (.hash h, pos + 5)
      | 10 =>
        match readU32 env.stream (pos + 1) with
        | none => .err .ioError
        | some refOffset => do
          let s ← ParamFileReader.get_string env refOffset
          pure (ValueVisitor.visit_str s, pos + 5)
      | 11 =>
        match list_element_offsets env.stream pos with
        | none => .err .ioError
        | some (count, offsets) => do
          let (vs, p) ← deserializeSeqBody f env offsets offsets.length (pos + 5 + 4 * count)
          pure (.list vs, p)
      | 12 =>
        match readU32 env.stream (pos + 1), readU32 env.stream (pos + 5) with
        | some numElements, some refPosition => do
          let keys ← ParamFileReader.get_map env refPosition numElements pos
          let (entries, p) ← deserializeMapBody f env keys numElements keys.length (pos + 9)
          pure (.map (buildIndexMap entries), p)
        | _, _ => .err .ioError
      | other => .err (.invalidParamId other)
termination_by structural fuel

/-- The `SeqAccess` consumption loop plus the catch-up of `deserialize_any`'s
`List` arm: consume `limit` elements (the visitor's `next_element` calls),
then, when fewer than the declared count were consumed, seek to the last
element's offset and parse and discard it (`offsets.last().unwrap()` panics
on an empty list). -/
def deserializeSeqBody (fuel : Nat) (env : DecodeEnv) (offsets : List Nat)
    (limit : Nat) (afterHeader : Nat) : DResult (List Value × Nat) :=
  match fuel with
  | 0 => .panic
  | f + 1 => do
    let (vs, p) ← deserializeListSteps f env (offsets.take limit) afterHeader
    if (offsets.take limit).length < offsets.length then
      match offsets.getLast? with
      | some off => do
        let (_, p') ← deserialize_any f env off
        pure (vs, p')
      | none => .panic
    else pure (vs, p)
termination_by structural fuel

/-- `SeqAccess::next_element_seed` iterated: seek to each element's absolute
offset and parse it there. -/
def deserializeListSteps (fuel : Nat) (env : DecodeEnv) (offsets : List Nat)
    (p : Nat) : DResult (List Value × Nat) :=
  match fuel with
  | 0 => .panic
  | f + 1 =>
    match offsets with
    | [] => .ok ([], p)
    | off :: rest => do
      let (v, p') ← deserialize_any f env off
      let (vs, q) ← deserializeListSteps f env rest p'
      pure (v :: vs, q)
termination_by structural fuel

/-- `MapAccess::next_value_seed` for `MapDeserializer`: a logical-usage error
when no key was handed out since the last value (`current_key == current`);
otherwise seek to the pending entry's value offset, parse there, and mark the
entry done. -/
def MapDe.next_value (fuel : Nat) (env : DecodeEnv) (m : MapDe) :
    DResult ((Value × Nat) × MapDe) :=
  match fuel with
  | 0 => .panic
  | f + 1 =>
    if m.current_key = m.current then
      .err (.custom ("logical error requesting value before key"))
    else
      match m.keys.get? m.current_key with
      | none => .panic
      | some (_, off) => do
        let (v, p) ← deserialize_any f env off
        pure ((v, p), { m with current_key := m.current })
termination_by structural fuel

/-- The `MapAccess` consumption loop (`next_entry` = `next_key` then
`next_value`), at most `steps` entries. -/
def deserializeMapSteps (fuel : Nat) (env : DecodeEnv) (steps : Nat) (m : MapDe)
    (p : Nat) : DResult (List (Nat × Value) × Nat × MapDe) :=
  match fuel with
  | 0 => .panic
  | f + 1 =>
    match steps with
    | 0 => .ok ([], p, m)
    | s + 1 =>
      match m.next_key with
      | none => .ok ([], p, m)
      | some (k, m1) => do
        let ((v, p1), m2) ← MapDe.next_value f env m1
        let (rest, q, m3) ← deserializeMapSteps f env s m2 p1
        pure ((k, v) :: rest, q, m3)
termination_by structural fuel

/-- `ValueDeserializer::deserialize_map` after the header reads: run the
visitor's consumption loop, then, when the consumer stopped before
`num_elements` entries, seek to the LAST entry's value offset and parse and
discard it to restore the cursor (`keys.last().unwrap()` panics on an empty
key list). -/
def deserializeMapBody (fuel : Nat) (env : DecodeEnv) (keys : List (Nat × Nat))
    (numElements : Nat) (limit : Nat) (afterHeader : Nat) :
    DResult (List (Nat × Value) × Nat) :=
  match fuel with
  | 0 => .panic
  | f + 1 => do
    let (entries, p, m) ← deserializeMapSteps f env limit ⟨keys, 0, 0⟩ afterHeader
    if m.current < numElements then
      match keys.getLast? with
      | some kv => do
        let (_, p') ← deserialize_any f env kv.2
        pure (entries, p')
      | none => .panic
    else pure (entries, p)
termination_by structural fuel

end

/-- `from_reader` (`lib.rs`) over an in-memory slice (`from_slice`),
specialized to `T = Value`: the magic signature and the header-length reads
are `assert!`/`unwrap` — a mismatch or short read terminates the program
(`.panic`), it is not a typed error.  After loading the hash table and the
reference blob, the blob's `file_offset` is set to `8 + hash_data_size` and
the top-level value is decoded at position
`16 + hash_data_size + ref_data_size`. -/
def from_slice (bytes : List Nat) : DResult Value :=
  if bytes.take 8 ≠ magicBytes then .panic
  else
    match readU32 bytes 8 with
    | none => .panic
    | some hashDataSize =>
      if hashDataSize % 8 ≠ 0 then .panic
      else
        match readU32 bytes 12 with
        | none => .panic
        | some refDataSize =>
          match readU64Seq bytes 16 (hashDataSize / 8) with
          | none => .panic
          | some hashes =>
            if bytes.length < 16 + hashDataSize + refDataSize then .panic
            else
              let env : DecodeEnv :=
                ⟨bytes, hashes, (bytes.drop (16 + hashDataSize)).take refDataSize,
                 8 + hashDataSize⟩
              match deserialize_any (2 * bytes.length + 8) env
                  (16 + hashDataSize + refDataSize) with
              | .ok (v, _) => .ok v
              | .err e => .err e
              | .panic => .panic

/-! ## Byte-slice infrastructure for the correctness proofs -/

/-- `s` occupies positions `p, p+1, …` of `l`. -/
def sliceEq (l : List Nat) (p : Nat) (s : List Nat) : Prop :=
  (l.drop p).take s.length = s

theorem sliceEq_nil (l : List Nat) (p : Nat) : sliceEq l p [] := rfl

theorem sliceEq_iff {l : List Nat} {p : Nat} {s : List Nat} :
    sliceEq l p s ↔ ∀ i < s.length, l.get? (p + i) = s.get? i := by
  unfold sliceEq
  constructor
  · intro h i hi
    have h' := congrArg (fun t => t[i]?) h
    simp only [List.getElem?_take, List.getElem?_drop, if_pos hi] at h'
    rw [List.get?_eq_getElem?, List.get?_eq_getElem?, h']
  · intro h
    apply List.ext_getElem?
    intro i
    rw [List.getElem?_take, List.getElem?_drop]
    by_cases hi : i < s.length
    · rw [if_pos hi, ← List.get?_eq_getElem?, ← List.get?_eq_getElem?, h i hi]
    · rw [if_neg hi, eq_comm]
      exact List.getElem?_eq_none (by omega)

theorem sliceEq_get? {l : List Nat} {p : Nat} {s : List Nat}
    (h : sliceEq l p s) {i : Nat} (hi : i < s.length) :
    l.get? (p + i) = s.get? i :=
  sliceEq_iff.mp h i hi

theorem sliceEq_length_le {l : List Nat} {p : Nat} {s : List Nat}
    (h : sliceEq l p s) : p + s.length ≤ l.length ∨ s = [] := by
  rcases s with _ | ⟨a, s⟩
  · exact Or.inr rfl
  · left
    have h0 := sliceEq_get? h (i := s.length) (by simp)
    have hlt : s.length < (a :: s).length := by simp
    simp only [List.get?_eq_getElem?] at h0
    rw [List.getElem?_eq_getElem hlt] at h0
    obtain ⟨hbound, -⟩ := List.getElem?_eq_some_iff.mp h0
    simp only [List.length_cons]
    omega

theorem sliceEq_append {l : List Nat} {p : Nat} {a b : List Nat} :
    sliceEq l p (a ++ b) ↔ sliceEq l p a ∧ sliceEq l (p + a.length) b := by
  simp only [sliceEq_iff]
  constructor
  · intro h
    constructor
    · intro i hi
      have := h i (by rw [List.length_append]; omega)
      rwa [List.get?_eq_getElem?, List.get?_eq_getElem?,
        List.getElem?_append_left hi, ← List.get?_eq_getElem?,
        ← List.get?_eq_getElem?] at this
    · intro i hi
      have := h (a.length + i) (by rw [List.length_append]; omega)
      rw [show p + (a.length + i) = p + a.length + i by omega] at this
      rwa [List.get?_eq_getElem? (a ++ b), List.getElem?_append_right (by omega),
        Nat.add_sub_cancel_left, ← List.get?_eq_getElem?] at this
  · rintro ⟨h1, h2⟩ i hi
    rw [List.length_append] at hi
    by_cases hia : i < a.length
    · rw [List.get?_eq_getElem? (a ++ b), List.getElem?_append_left hia,
        ← List.get?_eq_getElem?]
      exact h1 i hia
    · have := h2 (i - a.length) (by omega)
      rw [show p + a.length + (i - a.length) = p + i by omega] at this
      rwa [List.get?_eq_getElem? (a ++ b), List.getElem?_append_right (by omega),
        ← List.get?_eq_getElem?]
  
theorem sliceEq_cons {l : List Nat} {p : Nat} {a : Nat} {s : List Nat} :
    sliceEq l p (a :: s) ↔ l.get? p = some a ∧ sliceEq l (p + 1) s := by
  have h : a :: s = [a] ++ s := rfl
  rw [h, sliceEq_append]
  simp only [List.length_cons, List.length_nil, sliceEq_iff]
  constructor
  · rintro ⟨h1, h2⟩
    refine ⟨?_, h2⟩
    simpa using h1 0 (by omega)
  · rintro ⟨h1, h2⟩
    refine ⟨?_, h2⟩
    intro i hi
    have : i = 0 := by simpa using hi
    subst this
    simpa using h1

theorem sliceEq_append_stable {l r : List Nat} {p : Nat} {s : List Nat}
    (h : sliceEq l p s) : sliceEq (l ++ r) p s := by
  rcases sliceEq_length_le h with hle | hnil
  · rw [sliceEq_iff] at h ⊢
    intro i hi
    rw [List.get?_eq_getElem?, List.getElem?_append_left (by omega),
      ← List.get?_eq_getElem?]
    exact h i hi
  · subst hnil; exact sliceEq_nil _ _

theorem u32le_length (n : Nat) : (u32le n).length = 4 := rfl

theorem u16le_length (n : Nat) : (u16le n).length = 2 := rfl

theorem u64le_length (n : Nat) : (u64le n).length = 8 := rfl

theorem readU32_of_sliceEq {l : List Nat} {p n : Nat}
    (h : sliceEq l p (u32le n)) : readU32 l p = some (n % 4294967296) := by
  unfold u32le at h
  rw [sliceEq_cons] at h
  obtain ⟨h0, h⟩ := h
  rw [sliceEq_cons] at h
  obtain ⟨h1, h⟩ := h
  rw [sliceEq_cons] at h
  obtain ⟨h2, h⟩ := h
  rw [sliceEq_cons] at h
  obtain ⟨h3, _⟩ := h
  rw [show p + 1 + 1 = p + 2 by omega] at h2
  rw [show p + 1 + 1 + 1 = p + 3 by omega] at h3
  unfold readU32
  rw [h0, h1, h2, h3]
  show some _ = some _
  rw [Option.some.injEq]
  omega

theorem readU16_of_sliceEq {l : List Nat} {p n : Nat}
    (h : sliceEq l p (u16le n)) : readU16 l p = some (n % 65536) := by
  unfold u16le at h
  rw [sliceEq_cons] at h
  obtain ⟨h0, h⟩ := h
  rw [sliceEq_cons] at h
  obtain ⟨h1, _⟩ := h
  unfold readU16
  rw [h0, h1]
  show some _ = some _
  rw [Option.some.injEq]
  omega

theorem readU64_of_sliceEq {l : List Nat} {p n : Nat}
    (h : sliceEq l p (u64le n)) : readU64 l p = some (n % 18446744073709551616) := by
  have hsplit : u64le n = u32le (n % 4294967296) ++ u32le (n / 4294967296) := by
    unfold u64le u32le
    simp only [List.cons_append, List.nil_append, List.cons.injEq, and_true,
      Nat.div_div_eq_div_mul]
    and_intros <;> omega
  rw [hsplit, sliceEq_append] at h
  obtain ⟨hlo, hhi⟩ := h
  rw [u32le_length] at hhi
  unfold readU64
  rw [readU32_of_sliceEq hlo, readU32_of_sliceEq hhi]
  show some _ = some _
  rw [Option.some.injEq]
  omega

theorem byteOfI8_lt (v : Int) : byteOfI8 v < 256 := by
  unfold byteOfI8
  omega

theorem i8OfByte_byteOfI8 {v : Int} (h1 : -128 ≤ v) (h2 : v < 128) :
    i8OfByte (byteOfI8 v) = v := by
  unfold i8OfByte byteOfI8
  split <;> omega

theorem wordOfI16_lt (v : Int) : wordOfI16 v < 65536 := by
  unfold wordOfI16
  omega

theorem i16OfWord_wordOfI16 {v : Int} (h1 : -32768 ≤ v) (h2 : v < 32768) :
    i16OfWord (wordOfI16 v) = v := by
  unfold i16OfWord wordOfI16
  split <;> omega

theorem wordOfI32_lt (v : Int) : wordOfI32 v < 4294967296 := by
  unfold wordOfI32
  omega

theorem i32OfWord_wordOfI32 {v : Int} (h1 : -2147483648 ≤ v) (h2 : v < 2147483648) :
    i32OfWord (wordOfI32 v) = v := by
  unfold i32OfWord wordOfI32
  split <;> omega


/-! ## `DResult` monad laws and fuel monotonicity of the decoder -/

theorem DResult.bind_ok {α β : Type} (v : α) (f : α → DResult β) :
    (DResult.ok v >>= f) = f v := rfl

theorem DResult.bind_err {α β : Type} (e : DErrorKind) (f : α → DResult β) :
    (DResult.err e >>= f) = DResult.err e := rfl

theorem DResult.bind_panic {α β : Type} (f : α → DResult β) :
    (DResult.panic >>= f) = (DResult.panic : DResult β) := rfl

theorem DResult.pure_eq {α : Type} (v : α) : (pure v : DResult α) = DResult.ok v := rfl

/-- Transfer a `bind` result along monotone refinements of both stages. -/
theorem DResult.bind_mono_aux {α β : Type} {x x' : DResult α}
    {k k' : α → DResult β} {r : DResult β}
    (hx : ∀ s, x = s → s ≠ .panic → x' = s)
    (hk : ∀ v s, k v = s → s ≠ .panic → k' v = s)
    (heq : x >>= k = r) (hne : r ≠ .panic) : x' >>= k' = r := by
  cases hxv : x with
  | panic => rw [hxv, DResult.bind_panic] at heq; exact absurd heq.symm hne
  | err e =>
    rw [hxv, DResult.bind_err] at heq
    rw [hx _ hxv (by simp), DResult.bind_err]
    exact heq
  | ok v =>
    rw [hxv, DResult.bind_ok] at heq
    rw [hx _ hxv (by simp), DResult.bind_ok]
    exact hk v r heq hne

mutual

/-- More fuel never changes a non-panicking decode result. -/
theorem deserialize_any_mono : ∀ (fuel fuel' : Nat), fuel ≤ fuel' →
    ∀ (env : DecodeEnv) (pos : Nat) (r : DResult (Value × Nat)),
    deserialize_any fuel env pos = r → r ≠ .panic → deserialize_any fuel' env pos = r
  | 0, _, _, env, pos, r, heq, hne => by
    rw [deserialize_any.eq_def] at heq
    exact absurd heq.symm hne
  | f + 1, fuel', hle, env, pos, r, heq, hne => by
    obtain ⟨g, rfl⟩ : ∃ g, fuel' = g + 1 := ⟨fuel' - 1, by omega⟩
    have hfg : f ≤ g := by omega
    rw [deserialize_any.eq_def] at heq ⊢
    simp only at heq ⊢
    cases hget : env.stream.get? pos with
    | none => (try rw [hget] at heq); (try rw [hget]); exact heq
    | some tag =>
      (try rw [hget] at heq); (try rw [hget])
      by_cases h11 : tag = 11
      · subst h11
        simp only at heq ⊢
        cases hlo : list_element_offsets env.stream pos with
        | none => (try rw [hlo] at heq); (try rw [hlo]); exact heq
        | some co =>
          (try rw [hlo] at heq); (try rw [hlo])
          simp only at heq ⊢
          refine DResult.bind_mono_aux ?_ ?_ heq hne
          · exact fun s hs hnp => deserializeSeqBody_mono f g hfg env co.2 co.2.length
              (pos + 5 + 4 * co.1) s hs hnp
          · intro v s hs hnp
            exact hs
      · by_cases h12 : tag = 12
        · subst h12
          simp only at heq ⊢
          cases hr1 : readU32 env.stream (pos + 1) with
          | none => (try rw [hr1] at heq); (try rw [hr1]); exact heq
          | some numElements =>
            (try rw [hr1] at heq); (try rw [hr1])
            cases hr2 : readU32 env.stream (pos + 5) with
            | none => (try rw [hr2] at heq); (try rw [hr2]); exact heq
            | some refPosition =>
              (try rw [hr2] at heq); (try rw [hr2])
              simp only at heq ⊢
              refine DResult.bind_mono_aux ?_ ?_ heq hne
              · exact fun s hs hnp => hs ▸ rfl
              · intro keys s hs hnp
                refine DResult.bind_mono_aux ?_ ?_ hs hnp
                · exact fun s' hs' hnp' => deserializeMapBody_mono f g hfg env keys
                    numElements keys.length (pos + 9) s' hs' hnp'
                · intro v s' hs' hnp'
                  exact hs'
        · -- every other tag's branch is fuel-free: the expressions coincide
          match tag, h11, h12 with
          | 0, _, _ => exact heq
          | 1, _, _ => exact heq
          | 2, _, _ => exact heq
          | 3, _, _ => exact heq
          | 4, _, _ => exact heq
          | 5, _, _ => exact heq
          | 6, _, _ => exact heq
          | 7, _, _ => exact heq
          | 8, _, _ => exact heq
          | 9, _, _ => exact heq
          | 10, _, _ => exact heq
          | 11, h, _ => exact absurd rfl h
          | 12, _, h => exact absurd rfl h
          | n + 13, _, _ => exact heq

theorem deserializeSeqBody_mono : ∀ (fuel fuel' : Nat), fuel ≤ fuel' →
    ∀ (env : DecodeEnv) (offsets : List Nat) (limit afterHeader : Nat)
      (r : DResult (List Value × Nat)),
    deserializeSeqBody fuel env offsets limit afterHeader = r → r ≠ .panic →
    deserializeSeqBody fuel' env offsets limit afterHeader = r
  | 0, _, _, env, offsets, limit, afterHeader, r, heq, hne => by
    rw [deserializeSeqBody.eq_def] at heq
    exact absurd heq.symm hne
  | f + 1, fuel', hle, env, offsets, limit, afterHeader, r, heq, hne => by
    obtain ⟨g, rfl⟩ : ∃ g, fuel' = g + 1 := ⟨fuel' - 1, by omega⟩
    have hfg : f ≤ g := by omega
    rw [deserializeSeqBody.eq_def] at heq ⊢
    simp only at heq ⊢
    refine DResult.bind_mono_aux ?_ ?_ heq hne
    · exact fun s hs hnp => deserializeListSteps_mono f g hfg env (offsets.take limit)
        afterHeader s hs hnp
    · intro vp s hs hnp
      by_cases hcond : (offsets.take limit).length < offsets.length
      · rw [if_pos hcond] at hs ⊢
        cases hlast : offsets.getLast? with
        | none => (try rw [hlast] at hs); (try rw [hlast]); exact hs
        | some off =>
          (try rw [hlast] at hs); (try rw [hlast])
          refine DResult.bind_mono_aux ?_ ?_ hs hnp
          · exact fun s' hs' hnp' => deserialize_any_mono f g hfg env off s' hs' hnp'
          · intro v s' hs' _
            exact hs'
      · rw [if_neg hcond] at hs ⊢
        exact hs

theorem deserializeListSteps_mono : ∀ (fuel fuel' : Nat), fuel ≤ fuel' →
    ∀ (env : DecodeEnv) (offsets : List Nat) (p : Nat) (r : DResult (List Value × Nat)),
    deserializeListSteps fuel env offsets p = r → r ≠ .panic →
    deserializeListSteps fuel' env offsets p = r
  | 0, _, _, env, offsets, p, r, heq, hne => by
    rw [deserializeListSteps.eq_def] at heq
    exact absurd heq.symm hne
  | f + 1, fuel', hle, env, offsets, p, r, heq, hne => by
    obtain ⟨g, rfl⟩ : ∃ g, fuel' = g + 1 := ⟨fuel' - 1, by omega⟩
    have hfg : f ≤ g := by omega
    rw [deserializeListSteps.eq_def] at heq ⊢
    cases offsets with
    | nil => exact heq
    | cons off rest =>
      simp only at heq ⊢
      refine DResult.bind_mono_aux ?_ ?_ heq hne
      · exact fun s hs hnp => deserialize_any_mono f g hfg env off s hs hnp
      · intro vp s hs hnp
        refine DResult.bind_mono_aux ?_ ?_ hs hnp
        · exact fun s' hs' hnp' => deserializeListSteps_mono f g hfg env rest vp.2 s' hs' hnp'
        · intro vq s' hs' _
          exact hs'

theorem MapDe_next_value_mono : ∀ (fuel fuel' : Nat), fuel ≤ fuel' →
    ∀ (env : DecodeEnv) (m : MapDe) (r : DResult ((Value × Nat) × MapDe)),
    MapDe.next_value fuel env m = r → r ≠ .panic → MapDe.next_value fuel' env m = r
  | 0, _, _, env, m, r, heq, hne => by
    rw [MapDe.next_value.eq_def] at heq
    exact absurd heq.symm hne
  | f + 1, fuel', hle, env, m, r, heq, hne => by
    obtain ⟨g, rfl⟩ : ∃ g, fuel' = g + 1 := ⟨fuel' - 1, by omega⟩
    have hfg : f ≤ g := by omega
    rw [MapDe.next_value.eq_def] at heq ⊢
    simp only at heq ⊢
    by_cases hck : m.current_key = m.current
    · rw [if_pos hck] at heq ⊢; exact heq
    · rw [if_neg hck] at heq ⊢
      cases hkv : m.keys.get? m.current_key with
      | none => (try rw [hkv] at heq); (try rw [hkv]); exact heq
      | some kv =>
        (try rw [hkv] at heq); (try rw [hkv])
        simp only at heq ⊢
        refine DResult.bind_mono_aux ?_ ?_ heq hne
        · exact fun s hs hnp => deserialize_any_mono f g hfg env kv.2 s hs hnp
        · intro v s hs _
          exact hs

theorem deserializeMapSteps_mono : ∀ (fuel fuel' : Nat), fuel ≤ fuel' →
    ∀ (env : DecodeEnv) (steps : Nat) (m : MapDe) (p : Nat)
      (r : DResult (List (Nat × Value) × Nat × MapDe)),
    deserializeMapSteps fuel env steps m p = r → r ≠ .panic →
    deserializeMapSteps fuel' env steps m p = r
  | 0, _, _, env, steps, m, p, r, heq, hne => by
    rw [deserializeMapSteps.eq_def] at heq
    exact absurd heq.symm hne
  | f + 1, fuel', hle, env, steps, m, p, r, heq, hne => by
    obtain ⟨g, rfl⟩ : ∃ g, fuel' = g + 1 := ⟨fuel' - 1, by omega⟩
    have hfg : f ≤ g := by omega
    rw [deserializeMapSteps.eq_def] at heq ⊢
    cases steps with
    | zero => exact heq
    | succ s =>
      simp only at heq ⊢
      cases hnk : m.next_key with
      | none => (try rw [hnk] at heq); (try rw [hnk]); exact heq
      | some km =>
        (try rw [hnk] at heq); (try rw [hnk])
        simp only at heq ⊢
        refine DResult.bind_mono_aux ?_ ?_ heq hne
        · exact fun s' hs' hnp' => MapDe_next_value_mono f g hfg env km.2 s' hs' hnp'
        · intro vm s' hs' hnp'
          refine DResult.bind_mono_aux ?_ ?_ hs' hnp'
          · exact fun s'' hs'' hnp'' => deserializeMapSteps_mono f g hfg env s vm.2 vm.1.2
              s'' hs'' hnp''
          · intro w s'' hs'' _
            exact hs''

theorem deserializeMapBody_mono : ∀ (fuel fuel' : Nat), fuel ≤ fuel' →
    ∀ (env : DecodeEnv) (keys : List (Nat × Nat)) (numElements limit afterHeader : Nat)
      (r : DResult (List (Nat × Value) × Nat)),
    deserializeMapBody fuel env keys numElements limit afterHeader = r → r ≠ .panic →
    deserializeMapBody fuel' env keys numElements limit afterHeader = r
  | 0, _, _, env, keys, numElements, limit, afterHeader, r, heq, hne => by
    rw [deserializeMapBody.eq_def] at heq
    exact absurd heq.symm hne
  | f + 1, fuel', hle, env, keys, numElements, limit, afterHeader, r, heq, hne => by
    obtain ⟨g, rfl⟩ : ∃ g, fuel' = g + 1 := ⟨fuel' - 1, by omega⟩
    have hfg : f ≤ g := by omega
    rw [deserializeMapBody.eq_def] at heq ⊢
    simp only at heq ⊢
    refine DResult.bind_mono_aux ?_ ?_ heq hne
    · exact fun s hs hnp => deserializeMapSteps_mono f g hfg env limit ⟨keys, 0, 0⟩
        afterHeader s hs hnp
    · intro epm s hs hnp
      by_cases hcond : epm.2.2.current < numElements
      · rw [if_pos hcond] at hs ⊢
        cases hlast : keys.getLast? with
        | none => (try rw [hlast] at hs); (try rw [hlast]); exact hs
        | some kv =>
          (try rw [hlast] at hs); (try rw [hlast])
          refine DResult.bind_mono_aux ?_ ?_ hs hnp
          · exact fun s' hs' hnp' => deserialize_any_mono f g hfg env kv.2 s' hs' hnp'
          · intro v s' hs' _
            exact hs'
      · rw [if_neg hcond] at hs ⊢
        exact hs

end


/-! ## Length of the encoded form -/

theorem listOffsetBytes_length (w : Nat) (xs : List Value) :
    (listOffsetBytes w xs).length = 4 * xs.length := by
  induction xs generalizing w with
  | nil => rfl
  | cons x xs ih =>
    rw [listOffsetBytes]
    simp only [List.length_append, List.length_cons, ih, u32le_length]
    omega

mutual

/-- A successful `write_value` emits exactly
`calculate_binary_size_of_value` bytes. -/
theorem write_value_length : ∀ (hashes : List Nat) (strings : List (List Nat × Nat))
    (structs : List (List (Nat × Nat) × Nat)) (v : Value) (bs : List Nat),
    write_value hashes strings structs v = some bs →
    bs.length = calculate_binary_size_of_value v
  | hs, ss, ts, .bool v, bs, h => by
    rw [write_value] at h
    cases h
    rfl
  | hs, ss, ts, .i8 v, bs, h => by
    rw [write_value] at h
    cases h
    rfl
  | hs, ss, ts, .u8 v, bs, h => by
    rw [write_value] at h
    cases h
    rfl
  | hs, ss, ts, .i16 v, bs, h => by
    rw [write_value] at h
    cases h
    rfl
  | hs, ss, ts, .u16 v, bs, h => by
    rw [write_value] at h
    cases h
    rfl
  | hs, ss, ts, .i32 v, bs, h => by
    rw [write_value] at h
    cases h
    rfl
  | hs, ss, ts, .u32 v, bs, h => by
    rw [write_value] at h
    cases h
    rfl
  | hs, ss, ts, .f32 v, bs, h => by
    rw [write_value] at h
    cases h
    rfl
  | hs, ss, ts, .hash v, bs, h => by
    rw [write_value] at h
    cases hidx : hs.indexOf? v with
    | none => rw [hidx] at h; cases h
    | some idx =>
      rw [hidx] at h
      cases h
      rfl
  | hs, ss, ts, .string v, bs, h => by
    rw [write_value] at h
    cases hoff : ss.lookup v with
    | none => rw [hoff] at h; cases h
    | some off =>
      rw [hoff] at h
      cases h
      rfl
  | hs, ss, ts, .list v, bs, h => by
    rw [write_value] at h
    cases hbody : writeValueList hs ss ts v with
    | none => rw [hbody] at h; cases h
    | some body =>
      rw [hbody] at h
      cases h
      have := writeValueList_length hs ss ts v body hbody
      simp only [List.length_append, List.length_cons, u32le_length,
        listOffsetBytes_length, this, calculate_binary_size_of_value]
      omega
  | hs, ss, ts, .map m, bs, h => by
    rw [write_value] at h
    cases hoff : ts.lookup (get_struct_key m) with
    | none => rw [hoff] at h; cases h
    | some off =>
      rw [hoff] at h
      cases hbody : writeValueMap hs ss ts m with
      | none => rw [hbody] at h; cases h
      | some body =>
        rw [hbody] at h
        cases h
        have := writeValueMap_length hs ss ts m body hbody
        simp only [List.length_append, List.length_cons, u32le_length, this,
          calculate_binary_size_of_value]
        try omega

theorem writeValueList_length : ∀ (hashes : List Nat) (strings : List (List Nat × Nat))
    (structs : List (List (Nat × Nat) × Nat)) (xs : List Value) (bs : List Nat),
    writeValueList hashes strings structs xs = some bs →
    bs.length = binSizeSumList xs
  | hs, ss, ts, [], bs, h => by
    rw [writeValueList] at h
    cases h
    rfl
  | hs, ss, ts, v :: vs, bs, h => by
    rw [writeValueList] at h
    cases hb : write_value hs ss ts v with
    | none => rw [hb] at h; cases h
    | some b =>
      rw [hb] at h
      cases hr : writeValueList hs ss ts vs with
      | none => rw [hr] at h; cases h
      | some r =>
        rw [hr] at h
        cases h
        have h1 := write_value_length hs ss ts v b hb
        have h2 := writeValueList_length hs ss ts vs r hr
        simp only [List.length_append, h1, h2, binSizeSumList]

theorem writeValueMap_length : ∀ (hashes : List Nat) (strings : List (List Nat × Nat))
    (structs : List (List (Nat × Nat) × Nat)) (kvs : List (Nat × Value)) (bs : List Nat),
    writeValueMap hashes strings structs kvs = some bs →
    bs.length = binSizeSumMap kvs
  | hs, ss, ts, [], bs, h => by
    rw [writeValueMap] at h
    cases h
    rfl
  | hs, ss, ts, (k, v) :: kvs, bs, h => by
    rw [writeValueMap] at h
    cases hb : write_value hs ss ts v with
    | none => rw [hb] at h; cases h
    | some b =>
      rw [hb] at h
      cases hr : writeValueMap hs ss ts kvs with
      | none => rw [hr] at h; cases h
      | some r =>
        rw [hr] at h
        cases h
        have h1 := write_value_length hs ss ts v b hb
        have h2 := writeValueMap_length hs ss ts kvs r hr
        simp only [List.length_append, h1, h2, binSizeSumMap]

end


/-! ## Helper lemmas about lookups, indices and slices -/

theorem indexOf?_spec {l : List Nat} {a : Nat} {i : Nat}
    (h : l.indexOf? a = some i) : l.get? i = some a ∧ i < l.length := by
  induction l generalizing i with
  | nil => simp [List.indexOf?_nil] at h
  | cons x xs ih =>
    rw [List.indexOf?_cons] at h
    by_cases hx : x = a
    · subst hx
      simp only [beq_self_eq_true, if_pos] at h
      cases h
      simp
    · rw [if_neg (by simpa using hx)] at h
      cases hj : xs.indexOf? a with
      | none => rw [hj] at h; simp at h
      | some j =>
        rw [hj] at h
        simp only [Option.map] at h
        cases h
        obtain ⟨h1, h2⟩ := ih hj
        constructor
        · simpa using h1
        · simp only [List.length_cons]; omega

theorem indexOf?_isSome_of_mem {l : List Nat} {a : Nat} (h : a ∈ l) :
    (l.indexOf? a).isSome := by
  induction l with
  | nil => simp at h
  | cons x xs ih =>
    rw [List.indexOf?_cons]
    by_cases hx : x = a
    · simp [hx]
    · rw [if_neg (by simpa using hx)]
      rcases List.mem_cons.mp h with h' | h'
    
      · exact absurd h'.symm hx
      · have := ih h'
        cases hj : xs.indexOf? a with
        | none => rw [hj] at this; simp at this
        | some j => simp

theorem lookup_mem {α : Type} [BEq α] [LawfulBEq α] {ps : List (α × Nat)} {a : α} {b : Nat}
    (h : ps.lookup a = some b) : (a, b) ∈ ps := by
  induction ps with
  | nil => simp [List.lookup] at h
  | cons p ps ih =>
    obtain ⟨k, v⟩ := p
    rw [List.lookup] at h
    cases hk : a == k with
    | true =>
      rw [hk] at h
      simp only at h
      cases h
      have : a = k := by simpa using hk
      subst this
      exact List.mem_cons_self _ _
    | false =>
      rw [hk] at h
      simp only at h
      exact List.mem_cons_of_mem _ (ih h)

theorem lookup_append_left {α : Type} [BEq α] {ps qs : List (α × Nat)} {a : α} {b : Nat}
    (h : ps.lookup a = some b) : (ps ++ qs).lookup a = some b := by
  induction ps with
  | nil => simp [List.lookup] at h
  | cons p ps ih =>
    obtain ⟨k, v⟩ := p
    rw [List.lookup] at h
    rw [List.cons_append, List.lookup]
    cases hk : a == k with
    | true => rw [hk] at h; exact h
    | false => rw [hk] at h; exact ih h

theorem lookup_append_none {α : Type} [BEq α] {ps qs : List (α × Nat)} {a : α}
    (h : ps.lookup a = none) : (ps ++ qs).lookup a = qs.lookup a := by
  induction ps with
  | nil => simp
  | cons p ps ih =>
    obtain ⟨k, v⟩ := p
    rw [List.lookup] at h
    rw [List.cons_append, List.lookup]
    cases hk : a == k with
    | true => rw [hk] at h; simp only at h; cases h
    | false => rw [hk] at h; exact ih h

theorem lookup_snoc_self {α : Type} [BEq α] [LawfulBEq α] {ps : List (α × Nat)} {a : α} {b : Nat}
    (h : ps.lookup a = none) : (ps ++ [(a, b)]).lookup a = some b := by
  rw [lookup_append_none h, List.lookup]
  have : (a == a) = true := by simp
  rw [this]

theorem get?_append_stable {l r : List Nat} {p : Nat} {x : Nat}
    (h : l.get? p = some x) : (l ++ r).get? p = some x := by
  have hp : p < l.length := by
    rw [List.get?_eq_getElem?] at h
    exact (List.getElem?_eq_some_iff.mp h).1
  rw [List.get?_eq_getElem?, List.getElem?_append_left hp, ← List.get?_eq_getElem?]
  exact h

theorem readU32_append_stable {l r : List Nat} {p : Nat} {x : Nat}
    (h : readU32 l p = some x) : readU32 (l ++ r) p = some x := by
  unfold readU32 at h ⊢
  cases h0 : l.get? p with
  | none => rw [h0] at h; cases h
  | some b0 =>
    rw [h0] at h
    cases h1 : l.get? (p + 1) with
    | none => rw [h1] at h; cases h
    | some b1 =>
      rw [h1] at h
      cases h2 : l.get? (p + 2) with
      | none => rw [h2] at h; cases h
      | some b2 =>
        rw [h2] at h
        cases h3 : l.get? (p + 3) with
        | none => rw [h3] at h; cases h
        | some b3 =>
          rw [h3] at h
          rw [get?_append_stable h0, get?_append_stable h1, get?_append_stable h2,
            get?_append_stable h3]
          exact h

theorem sliceEq_trans {blob hdr s : List Nat} {off q : Nat}
    (h1 : sliceEq blob off hdr) (h2 : sliceEq hdr q s) : sliceEq blob (off + q) s := by
  rcases sliceEq_length_le h2 with hle | hnil
  · rw [sliceEq_iff] at h1 h2 ⊢
    intro i hi
    rw [show off + q + i = off + (q + i) by omega, h1 (q + i) (by omega), h2 i hi]
  · subst hnil; exact sliceEq_nil _ _

theorem sliceEq_shift {a r s : List Nat} {p : Nat}
    (h : sliceEq r p s) : sliceEq (a ++ r) (a.length + p) s := by
  rw [sliceEq_iff] at h ⊢
  intro i hi
  rw [List.get?_eq_getElem?, show a.length + p + i = a.length + (p + i) by omega]
  rw [List.getElem?_append_right (by omega), Nat.add_sub_cancel_left,
    ← List.get?_eq_getElem?]
  exact h i hi

theorem sliceEq_refl (l : List Nat) : sliceEq l 0 l := by
  unfold sliceEq
  rw [List.drop_zero, List.take_length]

/-! ## Subvalue lemmas -/

theorem subs_self : ∀ v : Value, v ∈ v.subs := by
  intro v
  cases v <;> simp [Value.subs]

theorem mem_subsList_iff : ∀ (xs : List Value) (u : Value),
    u ∈ Value.subsList xs ↔ ∃ x ∈ xs, u ∈ x.subs := by
  intro xs u
  induction xs with
  | nil => simp [Value.subsList]
  | cons x xs ih =>
    rw [Value.subsList]
    simp only [List.mem_append, ih, List.mem_cons]
    constructor
    · rintro (h | ⟨y, hy, hu⟩)
      · exact ⟨x, Or.inl rfl, h⟩
      · exact ⟨y, Or.inr hy, hu⟩
    · rintro ⟨y, hy | hy, hu⟩
      · subst hy; exact Or.inl hu
      · exact Or.inr ⟨y, hy, hu⟩

theorem mem_subsMap_iff : ∀ (kvs : List (Nat × Value)) (u : Value),
    u ∈ Value.subsMap kvs ↔ ∃ kv ∈ kvs, u ∈ (kv.2 : Value).subs := by
  intro kvs u
  induction kvs with
  | nil => simp [Value.subsMap]
  | cons kv kvs ih =>
    obtain ⟨k, v⟩ := kv
    rw [Value.subsMap]
    simp only [List.mem_append, ih, List.mem_cons]
    constructor
    · rintro (h | ⟨y, hy, hu⟩)
      · exact ⟨(k, v), Or.inl rfl, h⟩
      · exact ⟨y, Or.inr hy, hu⟩
    · rintro ⟨y, hy | hy, hu⟩
      · subst hy; exact Or.inl hu
      · exact Or.inr ⟨y, hy, hu⟩

mutual

theorem subs_trans : ∀ (v w u : Value), w ∈ v.subs → u ∈ w.subs → u ∈ v.subs
  | .list xs, w, u, hw, hu => by
    rw [Value.subs] at hw ⊢
    rcases List.mem_cons.mp hw with h | h
    · subst h
      rw [Value.subs] at hu
      exact hu
    · exact List.mem_cons_of_mem _ (subsList_trans xs w u h hu)
  | .map kvs, w, u, hw, hu => by
    rw [Value.subs] at hw ⊢
    rcases List.mem_cons.mp hw with h | h
    · subst h
      rw [Value.subs] at hu
      exact hu
    · exact List.mem_cons_of_mem _ (subsMap_trans kvs w u h hu)
  | .bool b, w, u, hw, hu => by
    have hw' : w ∈ [Value.bool b] := hw
    have : w = .bool b := by simpa using hw'
    subst this
    exact hu
  | .i8 x, w, u, hw, hu => by
    have hw' : w ∈ [Value.i8 x] := hw
    have : w = .i8 x := by simpa using hw'
    subst this
    exact hu
  | .u8 x, w, u, hw, hu => by
    have hw' : w ∈ [Value.u8 x] := hw
    have : w = .u8 x := by simpa using hw'
    subst this
    exact hu
  | .i16 x, w, u, hw, hu => by
    have hw' : w ∈ [Value.i16 x] := hw
    have : w = .i16 x := by simpa using hw'
    subst this
    exact hu
  | .u16 x, w, u, hw, hu => by
    have hw' : w ∈ [Value.u16 x] := hw
    have : w = .u16 x := by simpa using hw'
    subst this
    exact hu
  | .i32 x, w, u, hw, hu => by
    have hw' : w ∈ [Value.i32 x] := hw
    have : w = .i32 x := by simpa using hw'
    subst this
    exact hu
  | .u32 x, w, u, hw, hu => by
    have hw' : w ∈ [Value.u32 x] := hw
    have : w = .u32 x := by simpa using hw'
    subst this
    exact hu
  | .f32 x, w, u, hw, hu => by
    have hw' : w ∈ [Value.f32 x] := hw
    have : w = .f32 x := by simpa using hw'
    subst this
    exact hu
  | .hash x, w, u, hw, hu => by
    have hw' : w ∈ [Value.hash x] := hw
    have : w = .hash x := by simpa using hw'
    subst this
    exact hu
  | .string x, w, u, hw, hu => by
    have hw' : w ∈ [Value.string x] := hw
    have : w = .string x := by simpa using hw'
    subst this
    exact hu

theorem subsList_trans : ∀ (xs : List Value) (w u : Value),
    w ∈ Value.subsList xs → u ∈ w.subs → u ∈ Value.subsList xs
  | x :: xs, w, u, hw, hu => by
    rw [Value.subsList] at hw ⊢
    rcases List.mem_append.mp hw with h | h
    · exact List.mem_append.mpr (Or.inl (subs_trans x w u h hu))
    · exact List.mem_append.mpr (Or.inr (subsList_trans xs w u h hu))

theorem subsMap_trans : ∀ (kvs : List (Nat × Value)) (w u : Value),
    w ∈ Value.subsMap kvs → u ∈ w.subs → u ∈ Value.subsMap kvs
  | (k, v) :: kvs, w, u, hw, hu => by
    rw [Value.subsMap] at hw ⊢
    rcases List.mem_append.mp hw with h | h
    · exact List.mem_append.mpr (Or.inl (subs_trans v w u h hu))
    · exact List.mem_append.mpr (Or.inr (subsMap_trans kvs w u h hu))

end


/-! ## Fuel bookkeeping

Rust runs the recursion on the call stack; the embedding drives it with fuel.
`fuelNeed` is an upper bound on the fuel a successful decode of one encoded
value consumes, mirroring the call structure of the decoder. -/

mutual

def fuelNeed : Value → Nat
  | .list xs => 2 + fuelNeedSeq xs
  | .map kvs => 2 + fuelNeedEntries kvs
  | _ => 1

def fuelNeedSeq : List Value → Nat
  | [] => 1
  | x :: xs => 1 + max (fuelNeed x) (fuelNeedSeq xs)

def fuelNeedEntries : List (Nat × Value) → Nat
  | [] => 1
  | (_, v) :: kvs => 1 + max (1 + fuelNeed v) (fuelNeedEntries kvs)

end

theorem fuelNeed_pos : ∀ v : Value, 1 ≤ fuelNeed v := by
  intro v
  cases v <;> simp [fuelNeed] <;> omega

theorem binSizeSumMap_ge (kvs : List (Nat × Value)) :
    2 * kvs.length ≤ binSizeSumMap kvs := by
  induction kvs with
  | nil => simp [binSizeSumMap]
  | cons kv kvs ih =>
    obtain ⟨k, v⟩ := kv
    rw [binSizeSumMap]
    have h2 : 2 ≤ calculate_binary_size_of_value v := by
      cases v <;> simp [calculate_binary_size_of_value] <;> omega
    simp only [List.length_cons]
    omega

mutual

theorem fuelNeed_le : ∀ v : Value, fuelNeed v + 7 ≤ 4 * calculate_binary_size_of_value v
  | .bool b => by simp [fuelNeed, calculate_binary_size_of_value]
  | .i8 v => by simp [fuelNeed, calculate_binary_size_of_value]
  | .u8 v => by simp [fuelNeed, calculate_binary_size_of_value]
  | .i16 v => by simp [fuelNeed, calculate_binary_size_of_value]
  | .u16 v => by simp [fuelNeed, calculate_binary_size_of_value]
  | .i32 v => by simp [fuelNeed, calculate_binary_size_of_value]
  | .u32 v => by simp [fuelNeed, calculate_binary_size_of_value]
  | .f32 v => by simp [fuelNeed, calculate_binary_size_of_value]
  | .hash v => by simp [fuelNeed, calculate_binary_size_of_value]
  | .string v => by simp [fuelNeed, calculate_binary_size_of_value]
  | .list xs => by
    have h := fuelNeedSeq_le xs
    rw [fuelNeed, calculate_binary_size_of_value]
    omega
  | .map kvs => by
    have h := fuelNeedEntries_le kvs
    have h2 := binSizeSumMap_ge kvs
    rw [fuelNeed, calculate_binary_size_of_value]
    omega

theorem fuelNeedSeq_le : ∀ xs : List Value,
    fuelNeedSeq xs ≤ 1 + xs.length + 4 * binSizeSumList xs
  | [] => by simp [fuelNeedSeq, binSizeSumList]
  | x :: xs => by
    have h1 := fuelNeed_le x
    have h2 := fuelNeedSeq_le xs
    have h3 : 2 ≤ calculate_binary_size_of_value x := by
      cases x <;> simp [calculate_binary_size_of_value] <;> omega
    rw [fuelNeedSeq, binSizeSumList]
    simp only [List.length_cons]
    omega

theorem fuelNeedEntries_le : ∀ kvs : List (Nat × Value),
    fuelNeedEntries kvs + 5 * kvs.length ≤ 1 + 4 * binSizeSumMap kvs
  | [] => by simp [fuelNeedEntries, binSizeSumMap]
  | (k, v) :: kvs => by
    have h1 := fuelNeed_le v
    have h2 := fuelNeedEntries_le kvs
    have h3 : 2 ≤ calculate_binary_size_of_value v := by
      cases v <;> simp [calculate_binary_size_of_value] <;> omega
    rw [fuelNeedEntries, binSizeSumMap]
    simp only [List.length_cons]
    omega

end

/-! ## Environment invariants relating the encoder's tables to the blob -/

/-- Every string-lookup entry points at its own NUL-terminated bytes in the
blob. -/
def GoodStrings (blob : List Nat) (sl : List (List Nat × Nat)) : Prop :=
  ∀ e ∈ sl, sliceEq blob e.2 (e.1 ++ [0])

/-- The relative value offset the encoder plans (and the decoder reads) for
entry `i` of a map header: 9 bytes of inline map form, then the sizes of the
preceding values. -/
def hdrValueOffset (fp : List (Nat × Nat)) (i : Nat) : Nat :=
  9 + ((fp.take i).map Prod.snd).sum

/-- One registered header entry: its 8-byte records sit in the blob, each
holding a resolvable hash index and the planned relative value offset. -/
def GoodStructEntry (blob hl : List Nat) (fp : List (Nat × Nat)) (off : Nat) : Prop :=
  off + 8 * fp.length ≤ blob.length ∧
  ∀ i, i < fp.length →
    (∃ idx, readU32 blob (off + 8 * i) = some idx ∧
      hl.get? idx = (fp.get? i).map Prod.fst) ∧
    readU32 blob (off + 8 * i + 4) = some (hdrValueOffset fp i)

/-- Every struct-lookup entry is a registered header. -/
def GoodStructs (blob hl : List Nat) (tl : List (List (Nat × Nat) × Nat)) : Prop :=
  ∀ e ∈ tl, GoodStructEntry blob hl e.1 e.2

theorem GoodStrings_append {blob r : List Nat} {sl : List (List Nat × Nat)}
    (h : GoodStrings blob sl) : GoodStrings (blob ++ r) sl :=
  fun e he => sliceEq_append_stable (h e he)

theorem GoodStructEntry_append {blob r hl : List Nat} {fp : List (Nat × Nat)} {off : Nat}
    (h : GoodStructEntry blob hl fp off) : GoodStructEntry (blob ++ r) hl fp off := by
  obtain ⟨hb, hrd⟩ := h
  refine ⟨by simp only [List.length_append]; omega, ?_⟩
  intro i hi
  obtain ⟨⟨idx, hidx, hget⟩, hoff⟩ := hrd i hi
  exact ⟨⟨idx, readU32_append_stable hidx, hget⟩, readU32_append_stable hoff⟩

theorem GoodStructs_append {blob r hl : List Nat} {tl : List (List (Nat × Nat) × Nat)}
    (h : GoodStructs blob hl tl) : GoodStructs (blob ++ r) hl tl :=
  fun e he => GoodStructEntry_append (h e he)

theorem structHeaderBytes_length : ∀ (hl : List Nat) (wip : Nat)
    (m : List (Nat × Value)) (hdr : List Nat),
    structHeaderBytes hl wip m = some hdr → hdr.length = 8 * m.length := by
  intro hl wip m
  induction m generalizing wip with
  | nil =>
    intro hdr h
    rw [structHeaderBytes] at h
    cases h
    rfl
  | cons kv rest ih =>
    obtain ⟨k, v⟩ := kv
    intro hdr h
    rw [structHeaderBytes] at h
    cases hidx : hl.indexOf? k with
    | none => rw [hidx] at h; cases h
    | some idx =>
      rw [hidx] at h
      cases hr : structHeaderBytes hl (wip + calculate_binary_size_of_value v) rest with
      | none => rw [hr] at h; cases h
      | some r =>
        rw [hr] at h
        cases h
        have := ih (wip + calculate_binary_size_of_value v) r hr
        simp only [List.length_append, List.length_cons, u32le_length, this]
        omega

/-- Per-entry content of a freshly built header: entry `i` holds the `u32`
index of key `i` and the running offset `wip + `(sizes of the previous
values). -/
theorem structHeaderBytes_get : ∀ (hl : List Nat) (wip : Nat)
    (m : List (Nat × Value)) (hdr : List Nat),
    structHeaderBytes hl wip m = some hdr →
    ∀ i, i < m.length →
      ∃ idx, hl.indexOf? ((m.get? i).map Prod.fst).iget = some idx ∧
        sliceEq hdr (8 * i)
          (u32le idx ++
            u32le (wip + (((m.take i).map (fun kv => calculate_binary_size_of_value kv.2)).sum))) := by
  intro hl wip m
  induction m generalizing wip with
  | nil =>
    intro hdr h i hi
    simp at hi
  | cons kv rest ih =>
    obtain ⟨k, v⟩ := kv
    intro hdr h i hi
    rw [structHeaderBytes] at h
    cases hidx : hl.indexOf? k with
    | none => rw [hidx] at h; cases h
    | some idx =>
      rw [hidx] at h
      cases hr : structHeaderBytes hl (wip + calculate_binary_size_of_value v) rest with
      | none => rw [hr] at h; cases h
      | some r =>
        rw [hr] at h
        cases h
        cases i with
        | zero =>
          refine ⟨idx, by simpa using hidx, ?_⟩
          simp only [Nat.mul_zero, List.take_zero, List.map_nil, List.sum_nil, Nat.add_zero]
          have h2 := sliceEq_append_stable (r := r) (sliceEq_refl (u32le idx ++ u32le wip))
          simpa using h2
        | succ j =>
          have hj : j < rest.length := by
            simp only [List.length_cons] at hi
            omega
          obtain ⟨idx', hidx', hslice⟩ := ih (wip + calculate_binary_size_of_value v) r hr j hj
          refine ⟨idx', by simpa using hidx', ?_⟩
          have hshift := sliceEq_shift (a := u32le idx ++ u32le wip) hslice
          have hlen : (u32le idx ++ u32le wip).length = 8 := by
            simp [u32le_length]
          rw [hlen] at hshift
          rw [show (8 : Nat) + 8 * j = 8 * (j + 1) by omega] at hshift
          have harith : wip + calculate_binary_size_of_value v +
              ((rest.take j).map (fun kv => calculate_binary_size_of_value kv.2)).sum =
              wip + (((((k, v) :: rest).take (j + 1)).map
                (fun kv => calculate_binary_size_of_value kv.2)).sum) := by
            simp only [List.take_succ_cons, List.map_cons, List.sum_cons]
            omega
          rw [harith] at hshift
          simpa using hshift


theorem binSizeSumMap_eq_sum (m : List (Nat × Value)) :
    binSizeSumMap m = (m.map (fun kv => calculate_binary_size_of_value kv.2)).sum := by
  induction m with
  | nil => rfl
  | cons kv rest ih =>
    obtain ⟨k, v⟩ := kv
    rw [binSizeSumMap, ih]
    simp

theorem binSizeSumList_eq_sum (xs : List Value) :
    binSizeSumList xs = (xs.map calculate_binary_size_of_value).sum := by
  induction xs with
  | nil => rfl
  | cons x rest ih =>
    rw [binSizeSumList, ih]
    simp

theorem take_map_sum_le (m : List (Nat × Value)) (i : Nat)
    (f : Nat × Value → Nat) :
    ((m.take i).map f).sum ≤ (m.map f).sum := by
  conv_rhs => rw [← List.take_append_drop i m]
  rw [List.map_append, List.sum_append]
  omega

/-- A freshly written header at `off` satisfies the registered-entry
invariant. -/
theorem GoodStructEntry_establish {blob hl hdr : List Nat} {m : List (Nat × Value)}
    {off : Nat}
    (hhdr : structHeaderBytes hl 9 m = some hdr)
    (hslice : sliceEq blob off hdr)
    (hoffle : off ≤ blob.length)
    (hhl : hl.length ≤ 4294967296)
    (hsz : 9 + binSizeSumMap m < 4294967296) :
    GoodStructEntry blob hl (get_struct_key m) off := by
  have hlen := structHeaderBytes_length hl 9 m hdr hhdr
  constructor
  · rcases sliceEq_length_le hslice with h | h
    · rw [show (get_struct_key m).length = m.length by simp [get_struct_key]]
      omega
    · rw [h] at hlen
      rw [show (get_struct_key m).length = m.length by simp [get_struct_key]]
      simp only [List.length_nil] at hlen
      omega
  · intro i hi
    rw [show (get_struct_key m).length = m.length by simp [get_struct_key]] at hi
    obtain ⟨idx, hidx, hsl⟩ := structHeaderBytes_get hl 9 m hdr hhdr i hi
    have hcomb := sliceEq_trans hslice hsl
    rw [sliceEq_append] at hcomb
    obtain ⟨hc1, hc2⟩ := hcomb
    have hr1 := readU32_of_sliceEq hc1
    rw [u32le_length] at hc2
    have hr2 := readU32_of_sliceEq hc2
    obtain ⟨hget, hbound⟩ := indexOf?_spec hidx
    constructor
    · refine ⟨idx % 4294967296, ?_, ?_⟩
      · rw [← hr1]
      · rw [Nat.mod_eq_of_lt (by omega)]
        rw [hget]
        cases hmv : m.get? i with
        | none =>
          rw [List.get?_eq_getElem?, List.getElem?_eq_none_iff] at hmv
          omega
        | some kv =>
          rw [List.get?_eq_getElem?] at hmv
          simp only [get_struct_key, List.get?_eq_getElem?, List.getElem?_map, hmv]
          simp
    · have harith : 9 + ((m.take i).map (fun kv => calculate_binary_size_of_value kv.2)).sum =
          hdrValueOffset (get_struct_key m) i := by
        simp only [hdrValueOffset, get_struct_key, List.map_take, List.map_map]
        have hfun : (Prod.snd ∘ fun kv : Nat × Value => (kv.1, calculate_binary_size_of_value kv.2)) =
            fun kv : Nat × Value => calculate_binary_size_of_value kv.2 := by
          funext kv
          rfl
        rw [hfun]
      rw [hr2]
      have hle := take_map_sum_le m i (fun kv => calculate_binary_size_of_value kv.2)
      rw [binSizeSumMap_eq_sum] at hsz
      rw [← harith, Nat.mod_eq_of_lt (by omega)]


/-! ## Sources of collected hashes -/

/-- `h` occurs among `l` either as a `Hash` payload or as a map key. -/
def hashSrc (h : Nat) (l : List Value) : Prop :=
  Value.hash h ∈ l ∨ ∃ kvs, Value.map kvs ∈ l ∧ h ∈ kvs.map Prod.fst

theorem hashSrc_mono {h : Nat} {l l' : List Value} (hsub : ∀ x ∈ l, x ∈ l')
    (hs : hashSrc h l) : hashSrc h l' := by
  rcases hs with hs | ⟨kvs, hk, hm⟩
  · exact Or.inl (hsub _ hs)
  · exact Or.inr ⟨kvs, hsub _ hk, hm⟩

theorem idxInsert_cases {acc : List Nat} {x h : Nat} (hm : h ∈ idxInsert acc x) :
    h ∈ acc ∨ h = x := by
  unfold idxInsert at hm
  by_cases hx : x ∈ acc
  · rw [if_pos hx] at hm; exact Or.inl hm
  · rw [if_neg hx] at hm
    rcases List.mem_append.mp hm with hm | hm
    · exact Or.inl hm
    · right; simpa using hm

mutual

theorem visit_hashes_src : ∀ (acc : List Nat) (v : Value) (h : Nat),
    h ∈ visit_hashes acc v → h ∈ acc ∨ hashSrc h v.subs
  | acc, .hash x, h, hm => by
    rcases idxInsert_cases (hm : h ∈ idxInsert acc x) with hm | hm
    · exact Or.inl hm
    · subst hm
      exact Or.inr (Or.inl (subs_self _))
  | acc, .list xs, h, hm => by
    rcases visitHashesList_src acc xs h hm with hm | hm
    · exact Or.inl hm
    · right
      rw [Value.subs]
      exact hashSrc_mono (fun x hx => List.mem_cons_of_mem _ hx) hm
  | acc, .map kvs, h, hm => by
    rcases visitHashesMap_src acc kvs h hm with hm | hm | hm
    · exact Or.inl hm
    · exact Or.inr (Or.inr ⟨kvs, subs_self _, hm⟩)
    · right
      rw [Value.subs]
      exact hashSrc_mono (fun x hx => List.mem_cons_of_mem _ hx) hm
  | acc, .bool b, h, hm => Or.inl hm
  | acc, .i8 x, h, hm => Or.inl hm
  | acc, .u8 x, h, hm => Or.inl hm
  | acc, .i16 x, h, hm => Or.inl hm
  | acc, .u16 x, h, hm => Or.inl hm
  | acc, .i32 x, h, hm => Or.inl hm
  | acc, .u32 x, h, hm => Or.inl hm
  | acc, .f32 x, h, hm => Or.inl hm
  | acc, .string x, h, hm => Or.inl hm

theorem visitHashesList_src : ∀ (acc : List Nat) (xs : List Value) (h : Nat),
    h ∈ visitHashesList acc xs → h ∈ acc ∨ hashSrc h (Value.subsList xs)
  | acc, [], h, hm => Or.inl hm
  | acc, v :: vs, h, hm => by
    rcases visitHashesList_src (visit_hashes acc v) vs h hm with hm | hm
    · rcases visit_hashes_src acc v h hm with hm | hm
      · exact Or.inl hm
      · right
        rw [Value.subsList]
        exact hashSrc_mono (fun x hx => List.mem_append.mpr (Or.inl hx)) hm
    · right
      rw [Value.subsList]
      exact hashSrc_mono (fun x hx => List.mem_append.mpr (Or.inr hx)) hm

theorem visitHashesMap_src : ∀ (acc : List Nat) (kvs : List (Nat × Value)) (h : Nat),
    h ∈ visitHashesMap acc kvs →
    h ∈ acc ∨ h ∈ kvs.map Prod.fst ∨ hashSrc h (Value.subsMap kvs)
  | acc, [], h, hm => Or.inl hm
  | acc, (k, v) :: kvs, h, hm => by
    rcases visitHashesMap_src (visit_hashes (idxInsert acc k) v) kvs h hm with hm | hm | hm
    · rcases visit_hashes_src (idxInsert acc k) v h hm with hm | hm
      · rcases idxInsert_cases hm with hm | hm
        · exact Or.inl hm
        · subst hm
          right; left
          simp
      · right; right
        rw [Value.subsMap]
        exact hashSrc_mono (fun x hx => List.mem_append.mpr (Or.inl hx)) hm
    · right; left
      simp only [List.map_cons, List.mem_cons]
      exact Or.inr hm
    · right; right
      rw [Value.subsMap]
      exact hashSrc_mono (fun x hx => List.mem_append.mpr (Or.inr hx)) hm

end

/-- Every hash collected from a well-formed tree fits in a `u64`. -/
theorem visit_hashes_lt {v : Value} (hwf : Value.WF v) :
    ∀ h ∈ visit_hashes [] v, h < 18446744073709551616 := by
  intro h hm
  rcases visit_hashes_src [] v h hm with hc | hc | ⟨kvs, hk, hkey⟩
  · simp at hc
  · have := hwf _ hc
    exact this
  · have := hwf _ hk
    exact this.2 h hkey

/-! ## The string-collection pass builds a good string table -/

theorem mem_string_subs_scalar {s : List Nat} {u : Value}
    (h : Value.string s ∈ [u]) (hne : ∀ t, u ≠ Value.string t) : False := by
  have : Value.string s = u := by simpa using h
  exact hne s this.symm

mutual

theorem visit_strings_spec : ∀ (v : Value) (data : List Nat)
    (lookup : List (List Nat × Nat)) (d' : List Nat) (l' : List (List Nat × Nat)),
    visit_strings data lookup v = (d', l') →
    d'.length < 4294967296 →
    (∃ Δ, d' = data ++ Δ) ∧ (∃ Λ, l' = lookup ++ Λ) ∧
    (GoodStrings data lookup → GoodStrings d' l') ∧
    (∀ s, Value.string s ∈ v.subs → (l'.lookup s).isSome = true)
  | .string s0, data, lookup, d', l', h, hB => by
    rw [visit_strings] at h
    by_cases hhit : (lookup.lookup s0).isSome
    · rw [if_pos hhit] at h
      cases h
      refine ⟨⟨[], by simp⟩, ⟨[], by simp⟩, fun g => g, ?_⟩
      intro s hs
      have : Value.string s ∈ [Value.string s0] := hs
      have heq : s = s0 := by simpa using this
      subst heq
      exact hhit
    · rw [if_neg hhit] at h
      cases h
      have hnone : lookup.lookup s0 = none := Option.not_isSome_iff_eq_none.mp hhit
      have hdlen : data.length < 4294967296 := by
        simp only [List.length_append] at hB
        omega
      refine ⟨⟨s0 ++ [0], by rw [List.append_assoc]⟩, ⟨[(s0, data.length % 4294967296)], rfl⟩,
        ?_, ?_⟩
      · intro hg e he
        rcases List.mem_append.mp he with he | he
        · have := hg e he
          rw [List.append_assoc]
          exact sliceEq_append_stable this
        · have heq : e = (s0, data.length % 4294967296) := by simpa using he
          subst heq
          simp only [Nat.mod_eq_of_lt hdlen]
          rw [List.append_assoc]
          have := sliceEq_shift (a := data) (sliceEq_refl (s0 ++ [0]))
          simpa using this
      · intro s hs
        have : Value.string s ∈ [Value.string s0] := hs
        have heq : s = s0 := by simpa using this
        subst heq
        rw [lookup_snoc_self hnone]
        rfl
  | .list xs, data, lookup, d', l', h, hB => by
    rw [visit_strings] at h
    obtain ⟨⟨Δ, hΔ⟩, hΛ, hg, hmem⟩ := visitStringsList_spec xs data lookup d' l' h hB
    refine ⟨⟨Δ, hΔ⟩, hΛ, hg, ?_⟩
    intro s hs
    rw [Value.subs] at hs
    rcases List.mem_cons.mp hs with hs | hs
    · cases hs
    · exact hmem s hs
  | .map kvs, data, lookup, d', l', h, hB => by
    rw [visit_strings] at h
    obtain ⟨⟨Δ, hΔ⟩, hΛ, hg, hmem⟩ := visitStringsMap_spec kvs data lookup d' l' h hB
    refine ⟨⟨Δ, hΔ⟩, hΛ, hg, ?_⟩
    intro s hs
    rw [Value.subs] at hs
    rcases List.mem_cons.mp hs with hs | hs
    · cases hs
    · exact hmem s hs
  | .bool b, data, lookup, d', l', h, hB => by
    have h' : (data, lookup) = (d', l') := h
    cases h'
    exact ⟨⟨[], by simp⟩, ⟨[], by simp⟩, fun g => g,
      fun s hs => absurd hs (by intro hh; exact mem_string_subs_scalar hh (by intro t ht; cases ht))⟩
  | .i8 x, data, lookup, d', l', h, hB => by
    have h' : (data, lookup) = (d', l') := h
    cases h'
    exact ⟨⟨[], by simp⟩, ⟨[], by simp⟩, fun g => g,
      fun s hs => absurd hs (by intro hh; exact mem_string_subs_scalar hh (by intro t ht; cases ht))⟩
  | .u8 x, data, lookup, d', l', h, hB => by
    have h' : (data, lookup) = (d', l') := h
    cases h'
    exact ⟨⟨[], by simp⟩, ⟨[], by simp⟩, fun g => g,
      fun s hs => absurd hs (by intro hh; exact mem_string_subs_scalar hh (by intro t ht; cases ht))⟩
  | .i16 x, data, lookup, d', l', h, hB => by
    have h' : (data, lookup) = (d', l') := h
    cases h'
    exact ⟨⟨[], by simp⟩, ⟨[], by simp⟩, fun g => g,
      fun s hs => absurd hs (by intro hh; exact mem_string_subs_scalar hh (by intro t ht; cases ht))⟩
  | .u16 x, data, lookup, d', l', h, hB => by
    have h' : (data, lookup) = (d', l') := h
    cases h'
    exact ⟨⟨[], by simp⟩, ⟨[], by simp⟩, fun g => g,
      fun s hs => absurd hs (by intro hh; exact mem_string_subs_scalar hh (by intro t ht; cases ht))⟩
  | .i32 x, data, lookup, d', l', h, hB => by
    have h' : (data, lookup) = (d', l') := h
    cases h'
    exact ⟨⟨[], by simp⟩, ⟨[], by simp⟩, fun g => g,
      fun s hs => absurd hs (by intro hh; exact mem_string_subs_scalar hh (by intro t ht; cases ht))⟩
  | .u32 x, data, lookup, d', l', h, hB => by
    have h' : (data, lookup) = (d', l') := h
    cases h'
    exact ⟨⟨[], by simp⟩, ⟨[], by simp⟩, fun g => g,
      fun s hs => absurd hs (by intro hh; exact mem_string_subs_scalar hh (by intro t ht; cases ht))⟩
  | .f32 x, data, lookup, d', l', h, hB => by
    have h' : (data, lookup) = (d', l') := h
    cases h'
    exact ⟨⟨[], by simp⟩, ⟨[], by simp⟩, fun g => g,
      fun s hs => absurd hs (by intro hh; exact mem_string_subs_scalar hh (by intro t ht; cases ht))⟩
  | .hash x, data, lookup, d', l', h, hB => by
    have h' : (data, lookup) = (d', l') := h
    cases h'
    exact ⟨⟨[], by simp⟩, ⟨[], by simp⟩, fun g => g,
      fun s hs => absurd hs (by intro hh; exact mem_string_subs_scalar hh (by intro t ht; cases ht))⟩

theorem visitStringsList_spec : ∀ (xs : List Value) (data : List Nat)
    (lookup : List (List Nat × Nat)) (d' : List Nat) (l' : List (List Nat × Nat)),
    visitStringsList data lookup xs = (d', l') →
    d'.length < 4294967296 →
    (∃ Δ, d' = data ++ Δ) ∧ (∃ Λ, l' = lookup ++ Λ) ∧
    (GoodStrings data lookup → GoodStrings d' l') ∧
    (∀ s, Value.string s ∈ Value.subsList xs → (l'.lookup s).isSome = true)
  | [], data, lookup, d', l', h, hB => by
    have h' : (data, lookup) = (d', l') := h
    cases h'
    exact ⟨⟨[], by simp⟩, ⟨[], by simp⟩, fun g => g, by intro s hs; simp [Value.subsList] at hs⟩
  | v :: vs, data, lookup, d', l', h, hB => by
    rw [visitStringsList] at h
    rcases hmid : visit_strings data lookup v with ⟨d1, l1⟩
    rw [hmid] at h
    obtain ⟨⟨Δ2, hΔ2⟩, ⟨Λ2, hΛ2⟩, hg2, hmem2⟩ := visitStringsList_spec vs d1 l1 d' l' h hB
    have hd1 : d1.length < 4294967296 := by
      subst hΔ2
      simp only [List.length_append] at hB
      omega
    obtain ⟨⟨Δ1, hΔ1⟩, ⟨Λ1, hΛ1⟩, hg1, hmem1⟩ := visit_strings_spec v data lookup d1 l1 hmid hd1
    refine ⟨⟨Δ1 ++ Δ2, by rw [hΔ2, hΔ1, List.append_assoc]⟩,
      ⟨Λ1 ++ Λ2, by rw [hΛ2, hΛ1, List.append_assoc]⟩,
      fun g => hg2 (hg1 g), ?_⟩
    intro s hs
    rw [Value.subsList] at hs
    rcases List.mem_append.mp hs with hs | hs
    · have h1 := hmem1 s hs
      cases hlk : l1.lookup s with
      | none => rw [hlk] at h1; cases h1
      | some off =>
        rw [hΛ2, lookup_append_left hlk]
        rfl
    · exact hmem2 s hs

theorem visitStringsMap_spec : ∀ (kvs : List (Nat × Value)) (data : List Nat)
    (lookup : List (List Nat × Nat)) (d' : List Nat) (l' : List (List Nat × Nat)),
    visitStringsMap data lookup kvs = (d', l') →
    d'.length < 4294967296 →
    (∃ Δ, d' = data ++ Δ) ∧ (∃ Λ, l' = lookup ++ Λ) ∧
    (GoodStrings data lookup → GoodStrings d' l') ∧
    (∀ s, Value.string s ∈ Value.subsMap kvs → (l'.lookup s).isSome = true)
  | [], data, lookup, d', l', h, hB => by
    have h' : (data, lookup) = (d', l') := h
    cases h'
    exact ⟨⟨[], by simp⟩, ⟨[], by simp⟩, fun g => g, by intro s hs; simp [Value.subsMap] at hs⟩
  | (k, v) :: kvs, data, lookup, d', l', h, hB => by
    rw [visitStringsMap] at h
    rcases hmid : visit_strings data lookup v with ⟨d1, l1⟩
    rw [hmid] at h
    obtain ⟨⟨Δ2, hΔ2⟩, ⟨Λ2, hΛ2⟩, hg2, hmem2⟩ := visitStringsMap_spec kvs d1 l1 d' l' h hB
    have hd1 : d1.length < 4294967296 := by
      subst hΔ2
      simp only [List.length_append] at hB
      omega
    obtain ⟨⟨Δ1, hΔ1⟩, ⟨Λ1, hΛ1⟩, hg1, hmem1⟩ := visit_strings_spec v data lookup d1 l1 hmid hd1
    refine ⟨⟨Δ1 ++ Δ2, by rw [hΔ2, hΔ1, List.append_assoc]⟩,
      ⟨Λ1 ++ Λ2, by rw [hΛ2, hΛ1, List.append_assoc]⟩,
      fun g => hg2 (hg1 g), ?_⟩
    intro s hs
    rw [Value.subsMap] at hs
    rcases List.mem_append.mp hs with hs | hs
    · have h1 := hmem1 s hs
      cases hlk : l1.lookup s with
      | none => rw [hlk] at h1; cases h1
      | some off =>
        rw [hΛ2, lookup_append_left hlk]
        rfl
    · exact hmem2 s hs

end


/-! ## The header-collection pass builds a good struct table -/

mutual

theorem visit_structs_spec : ∀ (v : Value) (hl data : List Nat)
    (lookup : List (List (Nat × Nat) × Nat)) (d' : List Nat)
    (l' : List (List (Nat × Nat) × Nat)),
    visit_structs hl data lookup v = some (d', l') →
    d'.length < 4294967296 →
    hl.length ≤ 4294967296 →
    (∀ m', Value.map m' ∈ v.subs → calculate_binary_size_of_value (Value.map m') < 4294967296) →
    (∃ Δ, d' = data ++ Δ) ∧ (∃ Λ, l' = lookup ++ Λ) ∧
    (GoodStructs data hl lookup → GoodStructs d' hl l')
  | .list xs, hl, data, lookup, d', l', h, hB, hhl, hM => by
    rw [visit_structs] at h
    exact visitStructsList_spec xs hl data lookup d' l' h hB hhl
      (fun m' hm' => hM m' (by rw [Value.subs]; exact List.mem_cons_of_mem _ hm'))
  | .map m, hl, data, lookup, d', l', h, hB, hhl, hM => by
    rw [visit_structs] at h
    by_cases hhit : (lookup.lookup (get_struct_key m)).isSome
    · rw [if_pos hhit] at h
      have h' : some (data, lookup) = some (d', l') := h
      cases h'
      exact ⟨⟨[], by simp⟩, ⟨[], by simp⟩, fun g => g⟩
    · rw [if_neg hhit] at h
      cases hhdr : structHeaderBytes hl 9 m with
      | none => rw [hhdr] at h; cases h
      | some hdr =>
        rw [hhdr] at h
        have h2 : visitStructsMap hl (data ++ hdr)
            (lookup ++ [(get_struct_key m, data.length % 4294967296)]) m = some (d', l') := h
        obtain ⟨⟨Δ2, hΔ2⟩, ⟨Λ2, hΛ2⟩, hg2⟩ := visitStructsMap_spec m hl (data ++ hdr)
          (lookup ++ [(get_struct_key m, data.length % 4294967296)]) d' l' h2 hB hhl
          (fun m' hm' => hM m' (by
            rw [Value.subs]
            exact List.mem_cons_of_mem _ hm'))
        have hdlen : data.length < 4294967296 := by
          subst hΔ2
          simp only [List.length_append] at hB
          omega
        refine ⟨⟨hdr ++ Δ2, by rw [hΔ2, List.append_assoc]⟩,
          ⟨(get_struct_key m, data.length % 4294967296) :: Λ2, by
            rw [hΛ2, List.append_assoc]
            rfl⟩, ?_⟩
        intro hg
        apply hg2
        intro e he
        rcases List.mem_append.mp he with he | he
        · exact GoodStructEntry_append (hg e he)
        · have heq : e = (get_struct_key m, data.length % 4294967296) := by simpa using he
          subst heq
          simp only [Nat.mod_eq_of_lt hdlen]
          have hsz : 9 + binSizeSumMap m < 4294967296 := by
            have := hM m (subs_self _)
            rw [calculate_binary_size_of_value] at this
            omega
          have hslice : sliceEq (data ++ hdr) data.length hdr := by
            have := sliceEq_shift (a := data) (sliceEq_refl hdr)
            simpa using this
          exact GoodStructEntry_establish hhdr hslice (by simp) hhl hsz
  | .bool b, hl, data, lookup, d', l', h, hB, hhl, hM => by
    have h' : some (data, lookup) = some (d', l') := h
    cases h'
    exact ⟨⟨[], by simp⟩, ⟨[], by simp⟩, fun g => g⟩
  | .i8 x, hl, data, lookup, d', l', h, hB, hhl, hM => by
    have h' : some (data, lookup) = some (d', l') := h
    cases h'
    exact ⟨⟨[], by simp⟩, ⟨[], by simp⟩, fun g => g⟩
  | .u8 x, hl, data, lookup, d', l', h, hB, hhl, hM => by
    have h' : some (data, lookup) = some (d', l') := h
    cases h'
    exact ⟨⟨[], by simp⟩, ⟨[], by simp⟩, fun g => g⟩
  | .i16 x, hl, data, lookup, d', l', h, hB, hhl, hM => by
    have h' : some (data, lookup) = some (d', l') := h
    cases h'
    exact ⟨⟨[], by simp⟩, ⟨[], by simp⟩, fun g => g⟩
  | .u16 x, hl, data, lookup, d', l', h, hB, hhl, hM => by
    have h' : some (data, lookup) = some (d', l') := h
    cases h'
    exact ⟨⟨[], by simp⟩, ⟨[], by simp⟩, fun g => g⟩
  | .i32 x, hl, data, lookup, d', l', h, hB, hhl, hM => by
    have h' : some (data, lookup) = some (d', l') := h
    cases h'
    exact ⟨⟨[], by simp⟩, ⟨[], by simp⟩, fun g => g⟩
  | .u32 x, hl, data, lookup, d', l', h, hB, hhl, hM => by
    have h' : some (data, lookup) = some (d', l') := h
    cases h'
    exact ⟨⟨[], by simp⟩, ⟨[], by simp⟩, fun g => g⟩
  | .f32 x, hl, data, lookup, d', l', h, hB, hhl, hM => by
    have h' : some (data, lookup) = some (d', l') := h
    cases h'
    exact ⟨⟨[], by simp⟩, ⟨[], by simp⟩, fun g => g⟩
  | .hash x, hl, data, lookup, d', l', h, hB, hhl, hM => by
    have h' : some (data, lookup) = some (d', l') := h
    cases h'
    exact ⟨⟨[], by simp⟩, ⟨[], by simp⟩, fun g => g⟩
  | .string x, hl, data, lookup, d', l', h, hB, hhl, hM => by
    have h' : some (data, lookup) = some (d', l') := h
    cases h'
    exact ⟨⟨[], by simp⟩, ⟨[], by simp⟩, fun g => g⟩

theorem visitStructsList_spec : ∀ (xs : List Value) (hl data : List Nat)
    (lookup : List (List (Nat × Nat) × Nat)) (d' : List Nat)
    (l' : List (List (Nat × Nat) × Nat)),
    visitStructsList hl data lookup xs = some (d', l') →
    d'.length < 4294967296 →
    hl.length ≤ 4294967296 →
    (∀ m', Value.map m' ∈ Value.subsList xs →
      calculate_binary_size_of_value (Value.map m') < 4294967296) →
    (∃ Δ, d' = data ++ Δ) ∧ (∃ Λ, l' = lookup ++ Λ) ∧
    (GoodStructs data hl lookup → GoodStructs d' hl l')
  | [], hl, data, lookup, d', l', h, hB, hhl, hM => by
    have h' : some (data, lookup) = some (d', l') := h
    cases h'
    exact ⟨⟨[], by simp⟩, ⟨[], by simp⟩, fun g => g⟩
  | v :: vs, hl, data, lookup, d', l', h, hB, hhl, hM => by
    rw [visitStructsList] at h
    cases hmid : visit_structs hl data lookup v with
    | none => rw [hmid] at h; cases h
    | some dl =>
      rw [hmid] at h
      obtain ⟨d1, l1⟩ := dl
      have h2 : visitStructsList hl d1 l1 vs = some (d', l') := h
      obtain ⟨⟨Δ2, hΔ2⟩, ⟨Λ2, hΛ2⟩, hg2⟩ := visitStructsList_spec vs hl d1 l1 d' l' h2 hB hhl
        (fun m' hm' => hM m' (by rw [Value.subsList]; exact List.mem_append.mpr (Or.inr hm')))
      have hd1 : d1.length < 4294967296 := by
        subst hΔ2
        simp only [List.length_append] at hB
        omega
      obtain ⟨⟨Δ1, hΔ1⟩, ⟨Λ1, hΛ1⟩, hg1⟩ := visit_structs_spec v hl data lookup d1 l1 hmid hd1
        hhl (fun m' hm' => hM m' (by rw [Value.subsList]; exact List.mem_append.mpr (Or.inl hm')))
      exact ⟨⟨Δ1 ++ Δ2, by rw [hΔ2, hΔ1, List.append_assoc]⟩,
        ⟨Λ1 ++ Λ2, by rw [hΛ2, hΛ1, List.append_assoc]⟩,
        fun g => hg2 (hg1 g)⟩

theorem visitStructsMap_spec : ∀ (kvs : List (Nat × Value)) (hl data : List Nat)
    (lookup : List (List (Nat × Nat) × Nat)) (d' : List Nat)
    (l' : List (List (Nat × Nat) × Nat)),
    visitStructsMap hl data lookup kvs = some (d', l') →
    d'.length < 4294967296 →
    hl.length ≤ 4294967296 →
    (∀ m', Value.map m' ∈ Value.subsMap kvs →
      calculate_binary_size_of_value (Value.map m') < 4294967296) →
    (∃ Δ, d' = data ++ Δ) ∧ (∃ Λ, l' = lookup ++ Λ) ∧
    (GoodStructs data hl lookup → GoodStructs d' hl l')
  | [], hl, data, lookup, d', l', h, hB, hhl, hM => by
    have h' : some (data, lookup) = some (d', l') := h
    cases h'
    exact ⟨⟨[], by simp⟩, ⟨[], by simp⟩, fun g => g⟩
  | (k, v) :: kvs, hl, data, lookup, d', l', h, hB, hhl, hM => by
    rw [visitStructsMap] at h
    cases hmid : visit_structs hl data lookup v with
    | none => rw [hmid] at h; cases h
    | some dl =>
      rw [hmid] at h
      obtain ⟨d1, l1⟩ := dl
      have h2 : visitStructsMap hl d1 l1 kvs = some (d', l') := h
      obtain ⟨⟨Δ2, hΔ2⟩, ⟨Λ2, hΛ2⟩, hg2⟩ := visitStructsMap_spec kvs hl d1 l1 d' l' h2 hB hhl
        (fun m' hm' => hM m' (by rw [Value.subsMap]; exact List.mem_append.mpr (Or.inr hm')))
      have hd1 : d1.length < 4294967296 := by
        subst hΔ2
        simp only [List.length_append] at hB
        omega
      obtain ⟨⟨Δ1, hΔ1⟩, ⟨Λ1, hΛ1⟩, hg1⟩ := visit_structs_spec v hl data lookup d1 l1 hmid hd1
        hhl (fun m' hm' => hM m' (by rw [Value.subsMap]; exact List.mem_append.mpr (Or.inl hm')))
      exact ⟨⟨Δ1 ++ Δ2, by rw [hΔ2, hΔ1, List.append_assoc]⟩,
        ⟨Λ1 ++ Λ2, by rw [hΛ2, hΛ1, List.append_assoc]⟩,
        fun g => hg2 (hg1 g)⟩

end


/-! ## Decode-side helpers for the round-trip proof -/

/-- The excluded string shape: `0x` followed by ten characters that
`u64::from_str_radix(_, 16)` accepts (`ValueVisitor::visit_str` turns these
into `Hash` values). -/
def hashLike (s : List Nat) : Prop :=
  s.length = 12 ∧ s.take 2 = [48, 120] ∧ (from_str_radix_u64_hex (s.drop 2)).isSome = true

instance : ∀ s, Decidable (hashLike s) := fun s => by
  unfold hashLike
  infer_instance

/-- Conditions under which one stored string round-trips: strictly ASCII,
free of interior NUL bytes, and not of the hash-like shape. -/
def stringOk (s : List Nat) : Prop :=
  (∀ b ∈ s, 0 < b ∧ b < 128) ∧ ¬ hashLike s

instance : ∀ s, Decidable (stringOk s) := fun s => by
  unfold stringOk
  infer_instance

theorem visit_str_of_not_hashLike {s : List Nat} (h : ¬ hashLike s) :
    ValueVisitor.visit_str s = .string s := by
  rw [ValueVisitor.visit_str]
  by_cases hc : s.length = 12 ∧ s.take 2 = [48, 120]
  · rw [if_pos hc]
    cases hp : from_str_radix_u64_hex (s.drop 2) with
    | none => rfl
    | some v =>
      exact absurd ⟨hc.1, hc.2, by rw [hp]; rfl⟩ h
  · rw [if_neg hc]

theorem findIdx?_first_zero : ∀ (s l : List Nat),
    l.take (s.length + 1) = s ++ [0] → (∀ b ∈ s, b ≠ 0) →
    l.findIdx? (fun b => b == 0) = some s.length := by
  intro s
  induction s with
  | nil =>
    intro l hpre hnz
    cases l with
    | nil => simp at hpre
    | cons a l' =>
      simp only [List.length_nil, Nat.zero_add, List.take_succ_cons, List.take_zero,
        List.nil_append] at hpre
      have ha : a = 0 := by simpa using hpre
      subst ha
      simp
  | cons b s' ih =>
    intro l hpre hnz
    cases l with
    | nil => simp at hpre
    | cons a l' =>
      simp only [List.length_cons, List.take_succ_cons, List.cons_append,
        List.cons.injEq] at hpre
      obtain ⟨hab, hpre'⟩ := hpre
      subst hab
      rw [List.findIdx?_cons]
      have hbne : (a == 0) = false := by
        simpa using hnz a (List.mem_cons_self _ _)
      rw [hbne]
      simp only [Bool.false_eq_true, if_false]
      rw [List.findIdx?_succ]
      rw [ih l' hpre' (fun x hx => hnz x (List.mem_cons_of_mem _ hx))]
      simp

theorem findIdx?_none_of_all {p : Nat → Bool} (s : List Nat)
    (h : ∀ b ∈ s, p b = false) : s.findIdx? p = none :=
  List.findIdx?_eq_none_iff.mpr h

/-- Fetching a registered string succeeds and returns exactly its bytes. -/
theorem get_string_correct {env : DecodeEnv} {s : List Nat} {off : Nat}
    (hslice : sliceEq env.refRaw off (s ++ [0]))
    (hok : ∀ b ∈ s, 0 < b ∧ b < 128) :
    ParamFileReader.get_string env off = .ok s := by
  have hbound : off + (s ++ [0]).length ≤ env.refRaw.length := by
    rcases sliceEq_length_le hslice with h | h
    · exact h
    · simp at h
  rw [ParamFileReader.get_string]
  rw [if_neg (by
    simp only [List.length_append, List.length_cons, List.length_nil] at hbound
    omega)]
  have htake : (env.refRaw.drop off).take (s.length + 1) = s ++ [0] := by
    have h2 := hslice
    unfold sliceEq at h2
    simpa using h2
  have hfz := findIdx?_first_zero s (env.refRaw.drop off) htake
    (fun b hb => by have := hok b hb; omega)
  have hs : (env.refRaw.drop off).take s.length = s := by
    have h2 := congrArg (List.take s.length) htake
    rwa [List.take_take, Nat.min_def, if_pos (by omega),
      List.take_append_of_le_length le_rfl, List.take_length] at h2
  have hna : List.findIdx? (fun b => decide (128 ≤ b)) s = none :=
    findIdx?_none_of_all s (fun b hb => by
      have h1 := hok b hb
      simp only [decide_eq_false_iff_not]
      omega)
  simp only [hfz, hs, hna]

/-- The absolute map entries the decoder derives from a registered header:
key `i` paired with `base + 9 + `(sizes of the previous values). -/
def hdrEntries (base w : Nat) : List (Nat × Nat) → List (Nat × Nat)
  | [] => []
  | (k, sz) :: rest => (k, base + w) :: hdrEntries base (w + sz) rest

theorem hdrValueOffset_zero (fp : List (Nat × Nat)) : hdrValueOffset fp 0 = 9 := by
  simp [hdrValueOffset]

theorem hdrValueOffset_succ {fp : List (Nat × Nat)} {i : Nat} {kv : Nat × Nat}
    (h : fp.get? i = some kv) :
    hdrValueOffset fp (i + 1) = hdrValueOffset fp i + kv.2 := by
  have h' : fp[i]? = some kv := by rwa [List.get?_eq_getElem?] at h
  unfold hdrValueOffset
  rw [List.take_succ, h']
  simp only [Option.toList_some, List.map_append, List.sum_append, List.map_cons,
    List.map_nil, List.sum_cons, List.sum_nil]
  omega

theorem getMapEntries_correct : ∀ (rem i : Nat) (env : DecodeEnv) (off base : Nat)
    (fp : List (Nat × Nat)),
    GoodStructEntry env.refRaw env.hashes fp off →
    i + rem = fp.length →
    getMapEntries env off base i rem = .ok (hdrEntries base (hdrValueOffset fp i) (fp.drop i)) := by
  intro rem
  induction rem with
  | zero =>
    intro i env off base fp hgse hlen
    rw [getMapEntries, List.drop_of_length_le (by omega), hdrEntries]
  | succ r ih =>
    intro i env off base fp hgse hlen
    have hi : i < fp.length := by omega
    obtain ⟨⟨idx, hidx, hget⟩, hoff⟩ := hgse.2 i hi
    rw [getMapEntries]
    rw [show off + i * 8 = off + 8 * i by ring]
    rw [hidx, hoff]
    cases hfp : fp.get? i with
    | none =>
      rw [List.get?_eq_getElem?, List.getElem?_eq_none_iff] at hfp
      omega
    | some kv =>
      rw [hfp] at hget
      simp only [Option.map_some'] at hget
      simp only [hget]
      rw [ih (i + 1) env off base fp hgse (by omega)]
      rw [DResult.bind_ok]
      have hdrop : fp.drop i = kv :: fp.drop (i + 1) := by
        have h0 : (fp.drop i).get? 0 = some kv := by
          rw [List.get?_eq_getElem?, List.getElem?_drop, ← List.get?_eq_getElem?]
          simpa using hfp
        cases hd : fp.drop i with
        | nil => rw [hd] at h0; cases h0
        | cons a rest =>
          rw [hd] at h0
          have ha : a = kv := by simpa using h0
          subst ha
          have hrest : rest = fp.drop (i + 1) := by
            have ht := congrArg List.tail hd
            simp only [List.tail_cons] at ht
            rw [← ht, List.tail_drop]
          rw [hrest]
      rw [hdrop, hdrValueOffset_succ hfp, hdrEntries]
      rfl

/-- Fetching a registered header resolves every entry. -/
theorem get_map_correct {env : DecodeEnv} {fp : List (Nat × Nat)} {off : Nat}
    (base : Nat) (hgse : GoodStructEntry env.refRaw env.hashes fp off) :
    ParamFileReader.get_map env off fp.length base = .ok (hdrEntries base 9 fp) := by
  rw [ParamFileReader.get_map]
  rw [if_neg (by have := hgse.1; omega)]
  have h := getMapEntries_correct fp.length 0 env off base fp hgse (by omega)
  rw [List.drop_zero, hdrValueOffset_zero] at h
  exact h

/-- The absolute element offsets of an encoded list, starting at `start`. -/
def listAbsOffsets (start : Nat) : List Value → List Nat
  | [] => []
  | x :: xs => start :: listAbsOffsets (start + calculate_binary_size_of_value x) xs

theorem listAbsOffsets_length (start : Nat) (xs : List Value) :
    (listAbsOffsets start xs).length = xs.length := by
  induction xs generalizing start with
  | nil => rfl
  | cons x xs ih =>
    rw [listAbsOffsets]
    simp only [List.length_cons, ih]

theorem listAbsOffsets_map_add : ∀ (xs : List Value) (a w : Nat),
    (listAbsOffsets w xs).map (a + ·) = listAbsOffsets (a + w) xs := by
  intro xs
  induction xs with
  | nil => intro a w; rfl
  | cons x xs ih =>
    intro a w
    rw [listAbsOffsets, listAbsOffsets]
    simp only [List.map_cons]
    rw [ih a (w + calculate_binary_size_of_value x)]
    rw [show a + (w + calculate_binary_size_of_value x) =
      a + w + calculate_binary_size_of_value x by omega]

/-- Reading back the offset table written by `write_value`'s `List` arm. -/
theorem readU32Seq_listOffsetBytes : ∀ (xs : List Value) (stream : List Nat)
    (p w : Nat),
    sliceEq stream p (listOffsetBytes w xs) →
    w + binSizeSumList xs < 4294967296 →
    readU32Seq stream p xs.length = some (listAbsOffsets w xs) := by
  intro xs
  induction xs with
  | nil =>
    intro stream p w hslice hb
    rfl
  | cons x xs ih =>
    intro stream p w hslice hb
    rw [listOffsetBytes] at hslice
    rw [sliceEq_append] at hslice
    obtain ⟨h1, h2⟩ := hslice
    rw [u32le_length] at h2
    have hr := readU32_of_sliceEq h1
    have hb' : w + calculate_binary_size_of_value x + binSizeSumList xs < 4294967296 := by
      rw [binSizeSumList] at hb
      omega
    have ihr := ih stream (p + 4) (w + calculate_binary_size_of_value x) h2 hb'
    have hw : w % 4294967296 = w := by
      rw [binSizeSumList] at hb
      omega
    rw [hw] at hr
    rw [show (x :: xs).length = xs.length + 1 by simp]
    rw [readU32Seq]
    rw [hr, ihr]
    rw [listAbsOffsets]
    rfl

/-- The absolute value offsets of an encoded map body, starting at `start`. -/
def mapAbsEntries (start : Nat) : List (Nat × Value) → List (Nat × Nat)
  | [] => []
  | (k, v) :: kvs => (k, start) :: mapAbsEntries (start + calculate_binary_size_of_value v) kvs

/-- `hdrEntries` over a map fingerprint coincides with the contiguous value
layout that `write_value` emits. -/
theorem hdrEntries_get_struct_key : ∀ (kvs : List (Nat × Value)) (base w : Nat),
    hdrEntries base w (get_struct_key kvs) =
      mapAbsEntries (base + w) kvs := by
  intro kvs
  induction kvs with
  | nil => intro base w; rfl
  | cons kv kvs ih =>
    obtain ⟨k, v⟩ := kv
    intro base w
    rw [get_struct_key]
    simp only [List.map_cons]
    rw [hdrEntries, mapAbsEntries]
    rw [show base + w + calculate_binary_size_of_value v =
      base + (w + calculate_binary_size_of_value v) by omega]
    rw [show (List.map (fun kv => (kv.1, calculate_binary_size_of_value kv.2)) kvs) =
      get_struct_key kvs from rfl]
    rw [ih base (w + calculate_binary_size_of_value v)]

theorem indexMapInsert_fresh {m : List (Nat × Value)} {k : Nat} {v : Value}
    (h : m.lookup k = none) : indexMapInsert m k v = m ++ [(k, v)] := by
  rw [indexMapInsert, h]
  rfl

theorem lookup_none_of_not_mem {m : List (Nat × Value)} {k : Nat}
    (h : k ∉ m.map Prod.fst) : m.lookup k = none := by
  induction m with
  | nil => rfl
  | cons kv rest ih =>
    obtain ⟨k', v'⟩ := kv
    rw [List.lookup]
    have hne : k ≠ k' := by
      intro he
      exact h (by simp [he])
    have : (k == k') = false := by simpa using hne
    rw [this]
    exact ih (fun hm => h (by simp at hm ⊢; exact Or.inr hm))

/-- Rebuilding a duplicate-free entry list through `IndexMap::insert` returns
the list itself. -/
theorem buildIndexMap_eq {kvs : List (Nat × Value)}
    (h : (kvs.map Prod.fst).Nodup) : buildIndexMap kvs = kvs := by
  suffices haux : ∀ (rest acc : List (Nat × Value)),
      (rest.map Prod.fst).Nodup →
      (∀ k ∈ rest.map Prod.fst, k ∉ acc.map Prod.fst) →
      rest.foldl (fun acc kv => indexMapInsert acc kv.1 kv.2) acc = acc ++ rest by
    have := haux kvs [] h (by simp)
    simpa [buildIndexMap] using this
  intro rest
  induction rest with
  | nil => intro acc hn hd; simp
  | cons kv rest ih =>
    obtain ⟨k, v⟩ := kv
    intro acc hn hd
    simp only [List.map_cons] at hn hd
    simp only [List.foldl_cons]
    rw [indexMapInsert_fresh (lookup_none_of_not_mem (hd k (List.mem_cons_self _ _)))]
    rw [ih (acc ++ [(k, v)]) hn.of_cons ?_]
    · rw [List.append_assoc]
      rfl
    · intro k' hk'
      simp only [List.map_append, List.mem_append, List.map_cons, List.map_nil,
        List.mem_singleton]
      rintro (hc | hc)
      · exact hd k' (List.mem_cons_of_mem _ hk') hc
      · rw [List.nodup_cons] at hn
        exact hn.1 (hc ▸ hk')


/-- `mapAbsEntries` has one entry per map entry. -/
theorem mapAbsEntries_length : ∀ (kvs : List (Nat × Value)) (start : Nat),
    (mapAbsEntries start kvs).length = kvs.length := by
  intro kvs
  induction kvs with
  | nil => intro start; rfl
  | cons kv kvs ih =>
    obtain ⟨k, v⟩ := kv
    intro start
    rw [mapAbsEntries]
    simp only [List.length_cons, ih]

mutual

/-- Decoding inverts encoding, value by value: if `write_value` emitted `bs`
for `v` against tables consistent with the decode environment, and `bs` sits
at `pos` of the stream, `deserialize_any` returns exactly `v` and stops at
`pos + `(binary size of `v`). -/
theorem deserialize_any_correct : ∀ (v : Value) (fuel : Nat) (env : DecodeEnv)
    (sl : List (List Nat × Nat)) (tl : List (List (Nat × Nat) × Nat))
    (pos : Nat) (bs : List Nat),
    env.hashes.length ≤ 4294967296 →
    env.refRaw.length < 4294967296 →
    GoodStrings env.refRaw sl →
    GoodStructs env.refRaw env.hashes tl →
    write_value env.hashes sl tl v = some bs →
    sliceEq env.stream pos bs →
    (∀ u ∈ v.subs, u.nodeWF) →
    (∀ s, Value.string s ∈ v.subs → stringOk s) →
    (∀ u ∈ v.subs, calculate_binary_size_of_value u < 4294967296) →
    fuelNeed v ≤ fuel →
    deserialize_any fuel env pos = .ok (v, pos + calculate_binary_size_of_value v)
  | .bool b, fuel, env, sl, tl, pos, bs, hhl, hrb, hGS, hGT, hw, hsl, hwf, hstr, hsz, hfuel => by
    obtain ⟨f, rfl⟩ : ∃ f, fuel = f + 1 := ⟨fuel - 1, by
      have := fuelNeed_pos (Value.bool b); omega⟩
    rw [write_value] at hw
    have hbs := hw
    simp only [Option.some.injEq] at hbs
    subst hbs
    rw [sliceEq_cons] at hsl
    obtain ⟨h0, hsl⟩ := hsl
    rw [sliceEq_cons] at hsl
    obtain ⟨h1, -⟩ := hsl
    rw [deserialize_any.eq_def]
    simp only [h0, h1, calculate_binary_size_of_value]
    cases b <;> rfl
  | .i8 x, fuel, env, sl, tl, pos, bs, hhl, hrb, hGS, hGT, hw, hsl, hwf, hstr, hsz, hfuel => by
    obtain ⟨f, rfl⟩ : ∃ f, fuel = f + 1 := ⟨fuel - 1, by
      have := fuelNeed_pos (Value.i8 x); omega⟩
    rw [write_value] at hw
    have hbs := hw
    simp only [Option.some.injEq] at hbs
    subst hbs
    rw [sliceEq_cons] at hsl
    obtain ⟨h0, hsl⟩ := hsl
    rw [sliceEq_cons] at hsl
    obtain ⟨h1, -⟩ := hsl
    obtain ⟨hlo, hhi⟩ := hwf _ (subs_self (Value.i8 x))
    rw [deserialize_any.eq_def]
    simp only [h0, h1, calculate_binary_size_of_value, i8OfByte_byteOfI8 hlo hhi]
  | .u8 x, fuel, env, sl, tl, pos, bs, hhl, hrb, hGS, hGT, hw, hsl, hwf, hstr, hsz, hfuel => by
    obtain ⟨f, rfl⟩ : ∃ f, fuel = f + 1 := ⟨fuel - 1, by
      have := fuelNeed_pos (Value.u8 x); omega⟩
    rw [write_value] at hw
    have hbs := hw
    simp only [Option.some.injEq] at hbs
    subst hbs
    rw [sliceEq_cons] at hsl
    obtain ⟨h0, hsl⟩ := hsl
    rw [sliceEq_cons] at hsl
    obtain ⟨h1, -⟩ := hsl
    have hlt : x < 256 := hwf _ (subs_self (Value.u8 x))
    rw [deserialize_any.eq_def]
    simp only [h0, h1, calculate_binary_size_of_value, Nat.mod_eq_of_lt hlt]
  | .i16 x, fuel, env, sl, tl, pos, bs, hhl, hrb, hGS, hGT, hw, hsl, hwf, hstr, hsz, hfuel => by
    obtain ⟨f, rfl⟩ : ∃ f, fuel = f + 1 := ⟨fuel - 1, by
      have := fuelNeed_pos (Value.i16 x); omega⟩
    rw [write_value] at hw
    have hbs := hw
    simp only [Option.some.injEq] at hbs
    subst hbs
    rw [sliceEq_cons] at hsl
    obtain ⟨h0, hsl⟩ := hsl
    have hr := readU16_of_sliceEq hsl
    rw [Nat.mod_eq_of_lt (wordOfI16_lt x)] at hr
    obtain ⟨hlo, hhi⟩ := hwf _ (subs_self (Value.i16 x))
    rw [deserialize_any.eq_def]
    simp only [h0, hr, calculate_binary_size_of_value, i16OfWord_wordOfI16 hlo hhi]
  | .u16 x, fuel, env, sl, tl, pos, bs, hhl, hrb, hGS, hGT, hw, hsl, hwf, hstr, hsz, hfuel => by
    obtain ⟨f, rfl⟩ : ∃ f, fuel = f + 1 := ⟨fuel - 1, by
      have := fuelNeed_pos (Value.u16 x); omega⟩
    rw [write_value] at hw
    have hbs := hw
    simp only [Option.some.injEq] at hbs
    subst hbs
    rw [sliceEq_cons] at hsl
    obtain ⟨h0, hsl⟩ := hsl
    have hr := readU16_of_sliceEq hsl
    have hlt : x < 65536 := hwf _ (subs_self (Value.u16 x))
    rw [Nat.mod_eq_of_lt hlt] at hr
    rw [deserialize_any.eq_def]
    simp only [h0, hr, calculate_binary_size_of_value]
  | .i32 x, fuel, env, sl, tl, pos, bs, hhl, hrb, hGS, hGT, hw, hsl, hwf, hstr, hsz, hfuel => by
    obtain ⟨f, rfl⟩ : ∃ f, fuel = f + 1 := ⟨fuel - 1, by
      have := fuelNeed_pos (Value.i32 x); omega⟩
    rw [write_value] at hw
    have hbs := hw
    simp only [Option.some.injEq] at hbs
    subst hbs
    rw [sliceEq_cons] at hsl
    obtain ⟨h0, hsl⟩ := hsl
    have hr := readU32_of_sliceEq hsl
    rw [Nat.mod_eq_of_lt (wordOfI32_lt x)] at hr
    obtain ⟨hlo, hhi⟩ := hwf _ (subs_self (Value.i32 x))
    rw [deserialize_any.eq_def]
    simp only [h0, hr, calculate_binary_size_of_value, i32OfWord_wordOfI32 hlo hhi]
  | .u32 x, fuel, env, sl, tl, pos, bs, hhl, hrb, hGS, hGT, hw, hsl, hwf, hstr, hsz, hfuel => by
    obtain ⟨f, rfl⟩ : ∃ f, fuel = f + 1 := ⟨fuel - 1, by
      have := fuelNeed_pos (Value.u32 x); omega⟩
    rw [write_value] at hw
    have hbs := hw
    simp only [Option.some.injEq] at hbs
    subst hbs
    rw [sliceEq_cons] at hsl
    obtain ⟨h0, hsl⟩ := hsl
    have hr := readU32_of_sliceEq hsl
    have hlt : x < 4294967296 := hwf _ (subs_self (Value.u32 x))
    rw [Nat.mod_eq_of_lt hlt] at hr
    rw [deserialize_any.eq_def]
    simp only [h0, hr, calculate_binary_size_of_value]
  | .f32 x, fuel, env, sl, tl, pos, bs, hhl, hrb, hGS, hGT, hw, hsl, hwf, hstr, hsz, hfuel => by
    obtain ⟨f, rfl⟩ : ∃ f, fuel = f + 1 := ⟨fuel - 1, by
      have := fuelNeed_pos (Value.f32 x); omega⟩
    rw [write_value] at hw
    have hbs := hw
    simp only [Option.some.injEq] at hbs
    subst hbs
    rw [sliceEq_cons] at hsl
    obtain ⟨h0, hsl⟩ := hsl
    have hr := readU32_of_sliceEq hsl
    have hlt : x < 4294967296 := hwf _ (subs_self (Value.f32 x))
    rw [Nat.mod_eq_of_lt hlt] at hr
    rw [deserialize_any.eq_def]
    simp only [h0, hr, calculate_binary_size_of_value]
  | .hash x, fuel, env, sl, tl, pos, bs, hhl, hrb, hGS, hGT, hw, hsl, hwf, hstr, hsz, hfuel => by
    obtain ⟨f, rfl⟩ : ∃ f, fuel = f + 1 := ⟨fuel - 1, by
      have := fuelNeed_pos (Value.hash x); omega⟩
    rw [write_value] at hw
    cases hidx : env.hashes.indexOf? x with
    | none => rw [hidx] at hw; cases hw
    | some idx =>
      rw [hidx] at hw
      have hw2 : some (9 :: u32le idx) = some bs := hw
      simp only [Option.some.injEq] at hw2
      subst hw2
      obtain ⟨hget, hlt⟩ := indexOf?_spec hidx
      rw [sliceEq_cons] at hsl
      obtain ⟨h0, hsl⟩ := hsl
      have hr := readU32_of_sliceEq hsl
      rw [Nat.mod_eq_of_lt (by omega)] at hr
      rw [deserialize_any.eq_def]
      simp only [h0, hr, hget, calculate_binary_size_of_value]
  | .string s, fuel, env, sl, tl, pos, bs, hhl, hrb, hGS, hGT, hw, hsl, hwf, hstr, hsz, hfuel => by
    obtain ⟨f, rfl⟩ : ∃ f, fuel = f + 1 := ⟨fuel - 1, by
      have := fuelNeed_pos (Value.string s); omega⟩
    rw [write_value] at hw
    cases hoff : sl.lookup s with
    | none => rw [hoff] at hw; cases hw
    | some off =>
      rw [hoff] at hw
      have hw2 : some (10 :: u32le off) = some bs := hw
      simp only [Option.some.injEq] at hw2
      subst hw2
      have hok := hstr s (subs_self (Value.string s))
      have hent := hGS _ (lookup_mem hoff)
      have hlt : off < env.refRaw.length := by
        rcases sliceEq_length_le hent with h | h
        · simp only [List.length_append, List.length_cons, List.length_nil] at h
          omega
        · simp at h
      rw [sliceEq_cons] at hsl
      obtain ⟨h0, hsl⟩ := hsl
      have hr := readU32_of_sliceEq hsl
      rw [Nat.mod_eq_of_lt (by omega)] at hr
      have hgs := get_string_correct hent hok.1
      rw [deserialize_any.eq_def]
      simp only [h0, hr, hgs, calculate_binary_size_of_value, DResult.bind_ok,
        visit_str_of_not_hashLike hok.2]
      rfl
  | .list xs, fuel, env, sl, tl, pos, bs, hhl, hrb, hGS, hGT, hw, hsl, hwf, hstr, hsz, hfuel => by
    have hfuel2 : 2 + fuelNeedSeq xs ≤ fuel := hfuel
    obtain ⟨f, rfl⟩ : ∃ f, fuel = f + 1 := ⟨fuel - 1, by omega⟩
    obtain ⟨g, rfl⟩ : ∃ g, f = g + 1 := ⟨f - 1, by omega⟩
    rw [write_value] at hw
    cases hbody : writeValueList env.hashes sl tl xs with
    | none => rw [hbody] at hw; cases hw
    | some body =>
      rw [hbody] at hw
      have hw2 : some ((11 :: u32le xs.length) ++ listOffsetBytes (5 + xs.length * 4) xs
          ++ body) = some bs := hw
      simp only [Option.some.injEq] at hw2
      subst hw2
      have hself : calculate_binary_size_of_value (.list xs) < 4294967296 :=
        hsz _ (subs_self _)
      rw [calculate_binary_size_of_value] at hself
      rw [sliceEq_append] at hsl
      obtain ⟨hsl1, hslBody⟩ := hsl
      rw [sliceEq_append] at hsl1
      obtain ⟨hslHdr, hslOffs⟩ := hsl1
      simp only [List.length_cons, u32le_length] at hslOffs
      rw [show pos + (4 + 1) = pos + 5 by omega] at hslOffs
      simp only [List.length_append, List.length_cons, u32le_length,
        listOffsetBytes_length] at hslBody
      rw [show pos + (4 + 1 + 4 * xs.length) = pos + (5 + xs.length * 4) by omega] at hslBody
      rw [sliceEq_cons] at hslHdr
      obtain ⟨h0, hslCount⟩ := hslHdr
      have hcount := readU32_of_sliceEq hslCount
      rw [Nat.mod_eq_of_lt (by omega)] at hcount
      have hrels := readU32Seq_listOffsetBytes xs env.stream (pos + 5) (5 + xs.length * 4)
        hslOffs (by omega)
      have hleo : list_element_offsets env.stream pos =
          some (xs.length, listAbsOffsets (pos + 5 + 4 * xs.length) xs) := by
        rw [list_element_offsets]
        simp only [hcount, hrels, Option.bind_eq_bind, Option.some_bind, Option.pure_def,
          Option.some.injEq, Prod.mk.injEq, listAbsOffsets_map_add, true_and]
        rw [show pos + (5 + xs.length * 4) = pos + 5 + 4 * xs.length by omega]
      rw [show pos + (5 + xs.length * 4) = pos + 5 + 4 * xs.length by omega] at hslBody
      have hrun := deserializeListSteps_correct xs g env sl tl
        (pos + 5 + 4 * xs.length) body hhl hrb hGS hGT hbody hslBody
        (fun u hu => hwf u (by rw [Value.subs]; exact List.mem_cons_of_mem _ hu))
        (fun s hs => hstr s (by rw [Value.subs]; exact List.mem_cons_of_mem _ hs))
        (fun u hu => hsz u (by rw [Value.subs]; exact List.mem_cons_of_mem _ hu))
        (by omega)
      rw [deserialize_any.eq_def]
      simp only [h0, hleo]
      rw [deserializeSeqBody.eq_def]
      simp only [List.take_length, lt_self_iff_false, if_false, hrun, DResult.bind_ok]
      rw [calculate_binary_size_of_value]
      rw [show pos + 5 + 4 * xs.length + binSizeSumList xs =
        pos + (5 + xs.length * 4 + binSizeSumList xs) by omega]
      rfl
  | .map kvs, fuel, env, sl, tl, pos, bs, hhl, hrb, hGS, hGT, hw, hsl, hwf, hstr, hsz, hfuel => by
    have hfuel2 : 2 + fuelNeedEntries kvs ≤ fuel := hfuel
    obtain ⟨f, rfl⟩ : ∃ f, fuel = f + 1 := ⟨fuel - 1, by omega⟩
    obtain ⟨g, rfl⟩ : ∃ g, f = g + 1 := ⟨f - 1, by omega⟩
    rw [write_value] at hw
    cases hoff : tl.lookup (get_struct_key kvs) with
    | none => rw [hoff] at hw; cases hw
    | some off =>
      rw [hoff] at hw
      cases hbody : writeValueMap env.hashes sl tl kvs with
      | none => rw [hbody] at hw; cases hw
      | some body =>
        rw [hbody] at hw
        have hw2 : some ((12 :: u32le kvs.length) ++ u32le off ++ body) = some bs := hw
        simp only [Option.some.injEq] at hw2
        subst hw2
        have hself : calculate_binary_size_of_value (.map kvs) < 4294967296 :=
          hsz _ (subs_self _)
        rw [calculate_binary_size_of_value] at hself
        have hge := binSizeSumMap_ge kvs
        have hGSE := hGT _ (lookup_mem hoff)
        have hfpl : (get_struct_key kvs).length = kvs.length := by
          rw [get_struct_key]; exact List.length_map _ _
        have hofflt : off < 4294967296 := by
          have h1 := hGSE.1
          omega
        rw [sliceEq_append] at hsl
        obtain ⟨hsl1, hslBody⟩ := hsl
        rw [sliceEq_append] at hsl1
        obtain ⟨hslHdr, hslOff⟩ := hsl1
        simp only [List.length_cons, u32le_length, List.length_append] at hslOff hslBody
        rw [show pos + (4 + 1) = pos + 5 by omega] at hslOff
        rw [show pos + (4 + 1 + 4) = pos + 9 by omega] at hslBody
        rw [sliceEq_cons] at hslHdr
        obtain ⟨h0, hslCount⟩ := hslHdr
        have hcount := readU32_of_sliceEq hslCount
        rw [Nat.mod_eq_of_lt (by omega)] at hcount
        have hoffr := readU32_of_sliceEq hslOff
        rw [Nat.mod_eq_of_lt hofflt] at hoffr
        have hgm := get_map_correct pos hGSE
        rw [hfpl, hdrEntries_get_struct_key] at hgm
        have hkl : (mapAbsEntries (pos + 9) kvs).length = kvs.length :=
          mapAbsEntries_length kvs (pos + 9)
        have hrun := deserializeMapSteps_correct kvs g env sl tl
          (mapAbsEntries (pos + 9) kvs) 0 (pos + 9) body hhl hrb hGS hGT hbody hslBody
          (by rw [List.drop_zero]) (by omega)
          (fun u hu => hwf u (by rw [Value.subs]; exact List.mem_cons_of_mem _ hu))
          (fun s hs => hstr s (by rw [Value.subs]; exact List.mem_cons_of_mem _ hs))
          (fun u hu => hsz u (by rw [Value.subs]; exact List.mem_cons_of_mem _ hu))
          (by omega)
        rw [hkl] at hrun
        rw [deserialize_any.eq_def]
        simp only [h0, hcount, hoffr, hgm, DResult.bind_ok, hkl]
        rw [deserializeMapBody.eq_def]
        simp only [hkl, hrun, DResult.bind_ok, DResult.pure_eq, lt_self_iff_false, if_false]
        have hnod : (Value.map kvs).nodeWF := hwf _ (subs_self (Value.map kvs))
        rw [buildIndexMap_eq hnod.1]
        rw [calculate_binary_size_of_value]
        rw [show pos + 9 + binSizeSumMap kvs = pos + (5 + 4 + binSizeSumMap kvs) by omega]

/-- The `SeqAccess` loop decodes a written element sequence in order, leaving
the cursor after the last element's bytes. -/
theorem deserializeListSteps_correct : ∀ (xs : List Value) (fuel : Nat) (env : DecodeEnv)
    (sl : List (List Nat × Nat)) (tl : List (List (Nat × Nat) × Nat))
    (start : Nat) (bs : List Nat),
    env.hashes.length ≤ 4294967296 →
    env.refRaw.length < 4294967296 →
    GoodStrings env.refRaw sl →
    GoodStructs env.refRaw env.hashes tl →
    writeValueList env.hashes sl tl xs = some bs →
    sliceEq env.stream start bs →
    (∀ u ∈ Value.subsList xs, u.nodeWF) →
    (∀ s, Value.string s ∈ Value.subsList xs → stringOk s) →
    (∀ u ∈ Value.subsList xs, calculate_binary_size_of_value u < 4294967296) →
    fuelNeedSeq xs ≤ fuel →
    deserializeListSteps fuel env (listAbsOffsets start xs) start =
      .ok (xs, start + binSizeSumList xs)
  | [], fuel, env, sl, tl, start, bs, hhl, hrb, hGS, hGT, hw, hsl, hwf, hstr, hsz, hfuel => by
    have hfuel2 : 1 ≤ fuel := hfuel
    obtain ⟨f, rfl⟩ : ∃ f, fuel = f + 1 := ⟨fuel - 1, by omega⟩
    rw [deserializeListSteps.eq_def]
    simp [binSizeSumList, listAbsOffsets]
  | x :: xs, fuel, env, sl, tl, start, bs, hhl, hrb, hGS, hGT, hw, hsl, hwf, hstr, hsz, hfuel => by
    have hfuel2 : 1 + max (fuelNeed x) (fuelNeedSeq xs) ≤ fuel := hfuel
    obtain ⟨f, rfl⟩ : ∃ f, fuel = f + 1 := ⟨fuel - 1, by omega⟩
    rw [writeValueList] at hw
    cases hb : write_value env.hashes sl tl x with
    | none => rw [hb] at hw; cases hw
    | some b =>
      rw [hb] at hw
      cases hr : writeValueList env.hashes sl tl xs with
      | none => rw [hr] at hw; cases hw
      | some r =>
        rw [hr] at hw
        have hw2 : some (b ++ r) = some bs := hw
        simp only [Option.some.injEq] at hw2
        subst hw2
        rw [sliceEq_append] at hsl
        obtain ⟨hslB, hslR⟩ := hsl
        rw [write_value_length env.hashes sl tl x b hb] at hslR
        have hany := deserialize_any_correct x f env sl tl start b hhl hrb hGS hGT hb hslB
          (fun u hu => hwf u (by rw [Value.subsList]; exact List.mem_append_left _ hu))
          (fun s hs => hstr s (by rw [Value.subsList]; exact List.mem_append_left _ hs))
          (fun u hu => hsz u (by rw [Value.subsList]; exact List.mem_append_left _ hu))
          (by omega)
        have hrec := deserializeListSteps_correct xs f env sl tl
          (start + calculate_binary_size_of_value x) r hhl hrb hGS hGT hr hslR
          (fun u hu => hwf u (by rw [Value.subsList]; exact List.mem_append_right _ hu))
          (fun s hs => hstr s (by rw [Value.subsList]; exact List.mem_append_right _ hs))
          (fun u hu => hsz u (by rw [Value.subsList]; exact List.mem_append_right _ hu))
          (by omega)
        rw [listAbsOffsets]
        rw [deserializeListSteps.eq_def]
        simp only [hany, DResult.bind_ok, hrec]
        rw [binSizeSumList]
        rw [show start + (calculate_binary_size_of_value x + binSizeSumList xs) =
          start + calculate_binary_size_of_value x + binSizeSumList xs by omega]
        rfl

/-- The `MapAccess` loop (`next_key` then `next_value`, `steps` times) decodes
a written entry sequence in order against the resolved key table. -/
theorem deserializeMapSteps_correct : ∀ (kvs : List (Nat × Value)) (fuel : Nat)
    (env : DecodeEnv)
    (sl : List (List Nat × Nat)) (tl : List (List (Nat × Nat) × Nat))
    (keys : List (Nat × Nat)) (c start : Nat) (bs : List Nat),
    env.hashes.length ≤ 4294967296 →
    env.refRaw.length < 4294967296 →
    GoodStrings env.refRaw sl →
    GoodStructs env.refRaw env.hashes tl →
    writeValueMap env.hashes sl tl kvs = some bs →
    sliceEq env.stream start bs →
    keys.drop c = mapAbsEntries start kvs →
    c + kvs.length = keys.length →
    (∀ u ∈ Value.subsMap kvs, u.nodeWF) →
    (∀ s, Value.string s ∈ Value.subsMap kvs → stringOk s) →
    (∀ u ∈ Value.subsMap kvs, calculate_binary_size_of_value u < 4294967296) →
    fuelNeedEntries kvs ≤ fuel →
    deserializeMapSteps fuel env kvs.length ⟨keys, c, c⟩ start =
      .ok (kvs, start + binSizeSumMap kvs, ⟨keys, keys.length, keys.length⟩)
  | [], fuel, env, sl, tl, keys, c, start, bs, hhl, hrb, hGS, hGT, hw, hsl, hdrop, hlen,
      hwf, hstr, hsz, hfuel => by
    have hfuel2 : 1 ≤ fuel := hfuel
    obtain ⟨f, rfl⟩ : ∃ f, fuel = f + 1 := ⟨fuel - 1, by omega⟩
    simp only [List.length_nil] at hlen ⊢
    rw [deserializeMapSteps.eq_def]
    simp only [binSizeSumMap, Nat.add_zero]
    rw [show c = keys.length by omega]
  | (k, v) :: kvs, fuel, env, sl, tl, keys, c, start, bs, hhl, hrb, hGS, hGT, hw, hsl,
      hdrop, hlen, hwf, hstr, hsz, hfuel => by
    have hfuel2 : 1 + max (1 + fuelNeed v) (fuelNeedEntries kvs) ≤ fuel := hfuel
    obtain ⟨f, rfl⟩ : ∃ f, fuel = f + 1 := ⟨fuel - 1, by omega⟩
    obtain ⟨g, rfl⟩ : ∃ g, f = g + 1 := ⟨f - 1, by omega⟩
    rw [writeValueMap] at hw
    cases hb : write_value env.hashes sl tl v with
    | none => rw [hb] at hw; cases hw
    | some b =>
      rw [hb] at hw
      cases hr : writeValueMap env.hashes sl tl kvs with
      | none => rw [hr] at hw; cases hw
      | some r =>
        rw [hr] at hw
        have hw2 : some (b ++ r) = some bs := hw
        simp only [Option.some.injEq] at hw2
        subst hw2
        rw [sliceEq_append] at hsl
        obtain ⟨hslB, hslR⟩ := hsl
        rw [write_value_length env.hashes sl tl v b hb] at hslR
        rw [mapAbsEntries] at hdrop
        have hget : keys.get? c = some (k, start) := by
          have h0 : (keys.drop c).get? 0 = some (k, start) := by
            rw [hdrop]; rfl
          rw [List.get?_eq_getElem?, List.getElem?_drop] at h0
          rw [List.get?_eq_getElem?]
          simpa using h0
        have hdrop' : keys.drop (c + 1) =
            mapAbsEntries (start + calculate_binary_size_of_value v) kvs := by
          have ht := congrArg List.tail hdrop
          simp only [List.tail_cons] at ht
          rw [← ht, List.tail_drop]
        have hany := deserialize_any_correct v g env sl tl start b hhl hrb hGS hGT hb hslB
          (fun u hu => hwf u (by rw [Value.subsMap]; exact List.mem_append_left _ hu))
          (fun s hs => hstr s (by rw [Value.subsMap]; exact List.mem_append_left _ hs))
          (fun u hu => hsz u (by rw [Value.subsMap]; exact List.mem_append_left _ hu))
          (by omega)
        have hrec := deserializeMapSteps_correct kvs (g + 1) env sl tl keys (c + 1)
          (start + calculate_binary_size_of_value v) r hhl hrb hGS hGT hr hslR hdrop'
          (by simp only [List.length_cons] at hlen; omega)
          (fun u hu => hwf u (by rw [Value.subsMap]; exact List.mem_append_right _ hu))
          (fun s hs => hstr s (by rw [Value.subsMap]; exact List.mem_append_right _ hs))
          (fun u hu => hsz u (by rw [Value.subsMap]; exact List.mem_append_right _ hu))
          (by omega)
        simp only [List.length_cons] at hlen ⊢
        have hc1 : ¬ (c ≥ keys.length) := by omega
        have hc2 : ¬ (c = c + 1) := by omega
        rw [deserializeMapSteps.eq_def]
        simp only [MapDe.next_key, if_neg hc1, hget, MapDe.next_value.eq_def, if_neg hc2,
          hany, DResult.bind_ok, DResult.pure_eq]
        simp only [hrec, DResult.bind_ok]
        rw [binSizeSumMap]
        rw [show start + (calculate_binary_size_of_value v + binSizeSumMap kvs) =
          start + calculate_binary_size_of_value v + binSizeSumMap kvs by omega]

end

/-! ## Header assembly: the full `to_vec` / `from_slice` round trip -/

theorem hashTableBytes_length (hashes : List Nat) :
    (hashTableBytes hashes).length = 8 * hashes.length := by
  induction hashes with
  | nil => rfl
  | cons h hs ih =>
    rw [hashTableBytes] at *
    simp only [List.flatMap_cons, List.length_append, u64le_length, ih, List.length_cons]
    omega

theorem readU64Seq_hashTableBytes : ∀ (hashes : List Nat) (l : List Nat) (p : Nat),
    sliceEq l p (hashTableBytes hashes) →
    (∀ h ∈ hashes, h < 18446744073709551616) →
    readU64Seq l p hashes.length = some hashes := by
  intro hashes
  induction hashes with
  | nil => intro l p hs hb; rfl
  | cons h hs ih =>
    intro l p hsl hb
    rw [hashTableBytes, List.flatMap_cons, sliceEq_append] at hsl
    obtain ⟨h1, h2⟩ := hsl
    rw [u64le_length] at h2
    have hr := readU64_of_sliceEq h1
    rw [Nat.mod_eq_of_lt (hb h (List.mem_cons_self _ _))] at hr
    rw [show (h :: hs).length = hs.length + 1 by simp]
    rw [readU64Seq]
    rw [hr, ih l (p + 8) h2 (fun x hx => hb x (List.mem_cons_of_mem _ hx))]
    rfl

theorem calcSize_pos (v : Value) : 2 ≤ calculate_binary_size_of_value v := by
  cases v <;> simp [calculate_binary_size_of_value] <;> omega

mutual

theorem calcSize_sub_le : ∀ (v u : Value), u ∈ v.subs →
    calculate_binary_size_of_value u ≤ calculate_binary_size_of_value v
  | .bool b, u, hu => by
    have h2 : u ∈ [Value.bool b] := hu
    rw [List.mem_singleton.mp h2]
  | .i8 x, u, hu => by
    have h2 : u ∈ [Value.i8 x] := hu
    rw [List.mem_singleton.mp h2]
  | .u8 x, u, hu => by
    have h2 : u ∈ [Value.u8 x] := hu
    rw [List.mem_singleton.mp h2]
  | .i16 x, u, hu => by
    have h2 : u ∈ [Value.i16 x] := hu
    rw [List.mem_singleton.mp h2]
  | .u16 x, u, hu => by
    have h2 : u ∈ [Value.u16 x] := hu
    rw [List.mem_singleton.mp h2]
  | .i32 x, u, hu => by
    have h2 : u ∈ [Value.i32 x] := hu
    rw [List.mem_singleton.mp h2]
  | .u32 x, u, hu => by
    have h2 : u ∈ [Value.u32 x] := hu
    rw [List.mem_singleton.mp h2]
  | .f32 x, u, hu => by
    have h2 : u ∈ [Value.f32 x] := hu
    rw [List.mem_singleton.mp h2]
  | .hash x, u, hu => by
    have h2 : u ∈ [Value.hash x] := hu
    rw [List.mem_singleton.mp h2]
  | .string x, u, hu => by
    have h2 : u ∈ [Value.string x] := hu
    rw [List.mem_singleton.mp h2]
  | .list xs, u, hu => by
    rw [Value.subs] at hu
    rcases List.mem_cons.mp hu with h | h
    · rw [h]
    · have := calcSizeList_sub_le xs u h
      rw [calculate_binary_size_of_value]
      omega
  | .map kvs, u, hu => by
    rw [Value.subs] at hu
    rcases List.mem_cons.mp hu with h | h
    · rw [h]
    · have := calcSizeMap_sub_le kvs u h
      rw [calculate_binary_size_of_value]
      omega

theorem calcSizeList_sub_le : ∀ (xs : List Value) (u : Value), u ∈ Value.subsList xs →
    calculate_binary_size_of_value u ≤ binSizeSumList xs
  | [], u, hu => by simp [Value.subsList] at hu
  | x :: xs, u, hu => by
    rw [Value.subsList] at hu
    rcases List.mem_append.mp hu with h | h
    · have := calcSize_sub_le x u h
      rw [binSizeSumList]
      omega
    · have := calcSizeList_sub_le xs u h
      rw [binSizeSumList]
      omega

theorem calcSizeMap_sub_le : ∀ (kvs : List (Nat × Value)) (u : Value),
    u ∈ Value.subsMap kvs →
    calculate_binary_size_of_value u ≤ binSizeSumMap kvs
  | [], u, hu => by simp [Value.subsMap] at hu
  | (k, v) :: kvs, u, hu => by
    rw [Value.subsMap] at hu
    rcases List.mem_append.mp hu with h | h
    · have := calcSize_sub_le v u h
      rw [binSizeSumMap]
      omega
    · have := calcSizeMap_sub_le kvs u h
      rw [binSizeSumMap]
      omega

end

mutual

theorem fuelNeed_le_size : ∀ v : Value,
    fuelNeed v + 1 ≤ calculate_binary_size_of_value v
  | .bool b => Nat.le_refl 2
  | .i8 x => Nat.le_refl 2
  | .u8 x => Nat.le_refl 2
  | .i16 x => by show (2:Nat) ≤ 3; omega
  | .u16 x => by show (2:Nat) ≤ 3; omega
  | .i32 x => by show (2:Nat) ≤ 5; omega
  | .u32 x => by show (2:Nat) ≤ 5; omega
  | .f32 x => by show (2:Nat) ≤ 5; omega
  | .hash x => by show (2:Nat) ≤ 5; omega
  | .string x => by show (2:Nat) ≤ 5; omega
  | .list xs => by
    have hs := fuelNeedSeq_le_size xs
    rw [fuelNeed, calculate_binary_size_of_value]
    omega
  | .map kvs => by
    have hs := fuelNeedEntries_le_size kvs
    rw [fuelNeed, calculate_binary_size_of_value]
    omega

theorem fuelNeedSeq_le_size : ∀ xs : List Value,
    fuelNeedSeq xs ≤ 1 + binSizeSumList xs
  | [] => by decide
  | x :: xs => by
    have h1 := fuelNeed_le_size x
    have h2 := fuelNeedSeq_le_size xs
    rw [fuelNeedSeq, binSizeSumList]
    omega

theorem fuelNeedEntries_le_size : ∀ kvs : List (Nat × Value),
    fuelNeedEntries kvs ≤ 1 + binSizeSumMap kvs
  | [] => by decide
  | (k, v) :: kvs => by
    have h1 := fuelNeed_le_size v
    have h2 := fuelNeedEntries_le_size kvs
    rw [fuelNeedEntries, binSizeSumMap]
    omega

end

theorem magicBytes_length : magicBytes.length = 8 := rfl

theorem GoodStrings_nil : GoodStrings [] [] := by
  intro e he
  simp at he

theorem GoodStructs_nil (data hl : List Nat) : GoodStructs data hl [] := by
  intro e he
  simp at he

theorem from_slice_to_vec {v : Value} {bs : List Nat}
    (hwf : Value.WF v)
    (hstr : ∀ s, Value.string s ∈ v.subs → stringOk s)
    (htv : to_vec v = some bs)
    (hlen : bs.length < 4294967296) :
    from_slice bs = .ok v := by
  rw [to_vec, write] at htv
  cases hp : visit_strings [] [] v with
  | mk D0 SL =>
  rw [hp] at htv
  simp only [] at htv
  cases hst : visit_structs (visit_hashes [] v) D0 [] v with
  | none =>
    rw [hst] at htv
    simp at htv
  | some dt =>
    rw [hst] at htv
    obtain ⟨D, TL⟩ := dt
    simp only [Option.bind_eq_bind, Option.some_bind] at htv
    cases hbody : write_value (visit_hashes [] v) SL TL v with
    | none =>
      rw [hbody] at htv
      simp at htv
    | some body =>
      rw [hbody] at htv
      have htv2 : some (magicBytes ++ u32le (8 * (visit_hashes [] v).length) ++
          u32le D.length ++ hashTableBytes (visit_hashes [] v) ++ D ++ body) = some bs := htv
      simp only [Option.some.injEq] at htv2
      have hbs := htv2.symm
      have hba : bs = magicBytes ++ (u32le (8 * (visit_hashes [] v).length) ++
          (u32le D.length ++ (hashTableBytes (visit_hashes [] v) ++ (D ++ body)))) := by
        rw [hbs]
        simp [List.append_assoc]
      have hsl : sliceEq bs 0 (magicBytes ++ (u32le (8 * (visit_hashes [] v).length) ++
          (u32le D.length ++ (hashTableBytes (visit_hashes [] v) ++ (D ++ body))))) := by
        rw [← hba]
        exact sliceEq_refl bs
      rw [sliceEq_append] at hsl
      obtain ⟨hsMagic, hsl⟩ := hsl
      rw [magicBytes_length, Nat.zero_add] at hsl
      rw [sliceEq_append] at hsl
      obtain ⟨hsA, hsl⟩ := hsl
      rw [u32le_length] at hsl
      rw [show (8 : Nat) + 4 = 12 by rfl] at hsl
      rw [sliceEq_append] at hsl
      obtain ⟨hsB, hsl⟩ := hsl
      rw [u32le_length] at hsl
      rw [show (12 : Nat) + 4 = 16 by rfl] at hsl
      rw [sliceEq_append] at hsl
      obtain ⟨hsT, hsl⟩ := hsl
      rw [hashTableBytes_length] at hsl
      rw [sliceEq_append] at hsl
      obtain ⟨hsD, hsBody⟩ := hsl
      have hblen : body.length = calculate_binary_size_of_value v :=
        write_value_length _ _ _ _ _ hbody
      have hlens : bs.length = 16 + 8 * (visit_hashes [] v).length + D.length
          + body.length := by
        rw [hbs]
        simp only [List.length_append, magicBytes_length, u32le_length,
          hashTableBytes_length]
      have hszv : calculate_binary_size_of_value v < 4294967296 := by
        have h2 := calcSize_pos v
        omega
      have hsz : ∀ u ∈ v.subs, calculate_binary_size_of_value u < 4294967296 := by
        intro u hu
        have := calcSize_sub_le v u hu
        omega
      obtain ⟨⟨Δ0, hΔ0⟩, -, hGTpres⟩ := visit_structs_spec v (visit_hashes [] v)
        D0 [] D TL hst (by omega) (by omega) (fun m hm => hsz _ hm)
      have hD0len : D0.length < 4294967296 := by
        have h2 := congrArg List.length hΔ0
        simp only [List.length_append] at h2
        omega
      obtain ⟨-, -, hGSpres, -⟩ := visit_strings_spec v [] [] D0 SL hp hD0len
      have hGS : GoodStrings D SL := by
        rw [hΔ0]
        exact GoodStrings_append (hGSpres GoodStrings_nil)
      have hGT : GoodStructs D (visit_hashes [] v) TL :=
        hGTpres (GoodStructs_nil _ _)
      have henv : deserialize_any (2 * bs.length + 8)
          ⟨bs, visit_hashes [] v, D, 8 + 8 * (visit_hashes [] v).length⟩
          (16 + 8 * (visit_hashes [] v).length + D.length) =
          .ok (v, 16 + 8 * (visit_hashes [] v).length + D.length
            + calculate_binary_size_of_value v) := by
        refine deserialize_any_correct v (2 * bs.length + 8)
          ⟨bs, visit_hashes [] v, D, 8 + 8 * (visit_hashes [] v).length⟩
          SL TL (16 + 8 * (visit_hashes [] v).length + D.length) body
          (by show (visit_hashes [] v).length ≤ 4294967296; omega)
          (by show D.length < 4294967296; omega) hGS hGT hbody ?_ hwf hstr hsz ?_
        · exact hsBody
        · have h1 := fuelNeed_le_size v
          omega
      have htake8 : bs.take 8 = magicBytes := by
        have h2 : (bs.drop 0).take magicBytes.length = magicBytes := hsMagic
        rw [List.drop_zero, magicBytes_length] at h2
        exact h2
      have hr8 : readU32 bs 8 = some (8 * (visit_hashes [] v).length) := by
        have hr := readU32_of_sliceEq hsA
        rw [Nat.mod_eq_of_lt (by omega)] at hr
        exact hr
      have hr12 : readU32 bs 12 = some D.length := by
        have hr := readU32_of_sliceEq hsB
        rw [Nat.mod_eq_of_lt (by omega)] at hr
        exact hr
      have hseq : readU64Seq bs 16 (visit_hashes [] v).length =
          some (visit_hashes [] v) :=
        readU64Seq_hashTableBytes _ bs 16 hsT (visit_hashes_lt hwf)
      rw [from_slice]
      rw [if_neg (by simp [htake8])]
      simp only [hr8]
      rw [if_neg (by simp [Nat.mul_mod_right])]
      simp only [hr12]
      rw [Nat.mul_div_cancel_left _ (by norm_num : (0:Nat) < 8)]
      simp only [hseq]
      rw [if_neg (by omega)]
      have hrr : (bs.drop (16 + 8 * (visit_hashes [] v).length)).take D.length = D := hsD
      simp only [hrr, henv]


/-! ## The claims -/

/-- C4: the binary size function: Bool/I8/U8 are 2 bytes, I16/U16 are 3,
I32/U32/F32/String/Hash are 5, a List of N elements is 5 + 4N plus the sum of
the element sizes, a Map is 9 (tag + count + header offset) plus the sum of
the value sizes; the header-planning pass (`get_struct_key`, used by
`visit_structs` to lay out map-header value offsets) and the final writing
pass (`listOffsetBytes`, the list element offsets) both step by exactly
`calculate_binary_size_of_value`. -/
theorem C4_size_function :
    (∀ b, calculate_binary_size_of_value (.bool b) = 2) ∧
    (∀ x, calculate_binary_size_of_value (.i8 x) = 2) ∧
    (∀ x, calculate_binary_size_of_value (.u8 x) = 2) ∧
    (∀ x, calculate_binary_size_of_value (.i16 x) = 3) ∧
    (∀ x, calculate_binary_size_of_value (.u16 x) = 3) ∧
    (∀ x, calculate_binary_size_of_value (.i32 x) = 5) ∧
    (∀ x, calculate_binary_size_of_value (.u32 x) = 5) ∧
    (∀ x, calculate_binary_size_of_value (.f32 x) = 5) ∧
    (∀ s, calculate_binary_size_of_value (.string s) = 5) ∧
    (∀ h, calculate_binary_size_of_value (.hash h) = 5) ∧
    (∀ xs, calculate_binary_size_of_value (.list xs) =
      5 + 4 * xs.length + (xs.map calculate_binary_size_of_value).sum) ∧
    (∀ m, calculate_binary_size_of_value (.map m) =
      9 + (m.map (fun kv => calculate_binary_size_of_value kv.2)).sum) ∧
    (∀ m, get_struct_key m =
      m.map (fun kv => (kv.1, calculate_binary_size_of_value kv.2))) ∧
    (∀ w x xs, listOffsetBytes w (x :: xs) =
      u32le w ++ listOffsetBytes (w + calculate_binary_size_of_value x) xs) := by
  refine ⟨fun b => rfl, fun x => rfl, fun x => rfl, fun x => rfl, fun x => rfl,
    fun x => rfl, fun x => rfl, fun x => rfl, fun s => rfl, fun h => rfl,
    ?_, ?_, fun m => rfl, fun w x xs => rfl⟩
  · intro xs
    rw [calculate_binary_size_of_value, binSizeSumList_eq_sum]
    omega
  · intro m
    rw [calculate_binary_size_of_value, binSizeSumMap_eq_sum]

/-- C7: requesting a map entry value with no key pending is a logical-usage
error on both sides: the decoder errors in `next_value_seed` when
`current_key == current`, and the encoder errors in
`SerializeMap::serialize_value` when no `serialize_key` preceded. -/
theorem C7_value_before_key :
    (∀ (fuel : Nat) (env : DecodeEnv) (m : MapDe),
      m.current_key = m.current →
      MapDe.next_value (fuel + 1) env m =
        .err (.custom ("logical error requesting value before key"))) ∧
    (∀ (s : MapSerializer) (value : Value),
      s.current_key = none →
      MapSerializer.serialize_value s value =
        .error (.custom ("attempting to serialize value with no key"))) := by
  constructor
  · intro fuel env m h
    rw [MapDe.next_value.eq_def]
    simp only [if_pos h]
  · intro s value h
    rw [MapSerializer.serialize_value, h]

/-- C7 (witness): both errors fire on a concrete state: a fresh `MapDe` whose
cursor has handed out no key, and a fresh `MapSerializer` with no pending
key. -/
theorem C7_value_before_key_witness :
    MapDe.next_value 5 ⟨[], [], [], 0⟩ ⟨[(1, 9)], 0, 0⟩ =
      .err (.custom ("logical error requesting value before key")) ∧
    MapSerializer.serialize_value ⟨[], none⟩ (.u8 1) =
      .error (.custom ("attempting to serialize value with no key")) :=
  ⟨C7_value_before_key.1 4 ⟨[], [], [], 0⟩ ⟨[(1, 9)], 0, 0⟩ rfl,
   C7_value_before_key.2 ⟨[], none⟩ (.u8 1) rfl⟩

/-- C9: document-header validation is unconditional termination, not a typed
error: any input whose first 8 bytes differ from `b"paracobn"` panics, and any
input with good magic whose hash-table length field is not a multiple of 8
panics. -/
theorem C9_header_panics :
    (∀ bytes : List Nat, bytes.take 8 ≠ magicBytes → from_slice bytes = .panic) ∧
    (∀ (bytes : List Nat) (h : Nat), bytes.take 8 = magicBytes →
      readU32 bytes 8 = some h → h % 8 ≠ 0 → from_slice bytes = .panic) := by
  constructor
  · intro bytes hmag
    rw [from_slice, if_pos hmag]
  · intro bytes h hmag hr hmod
    rw [from_slice, if_neg (by simp [hmag])]
    simp only [hr]
    rw [if_pos hmod]

/-- C9 (witness): a three-byte garbage input panics, and a good-magic input
whose hash-table length field reads 4 (not a multiple of 8) panics. -/
theorem C9_header_panics_witness :
    from_slice [1, 2, 3] = .panic ∧
    from_slice [112, 97, 114, 97, 99, 111, 98, 110, 4, 0, 0, 0] = .panic :=
  ⟨C9_header_panics.1 [1, 2, 3] (by decide),
   C9_header_panics.2 [112, 97, 114, 97, 99, 111, 98, 110, 4, 0, 0, 0] 4
     (by decide) (by decide) (by decide)⟩

/-- C10: at the serde boundary a `u64` always becomes (and a decoded `u64`
always re-enters the model as) a `Hash`, never a numeric value; an `i64`
becomes an `I32` exactly when it fits in the signed 32-bit range and otherwise
fails with the custom out-of-range error, on both the encode
(`IntoValueSerializer`) and decode (`ValueVisitor`) sides. -/
theorem C10_int64_boundary :
    (∀ n : Nat, IntoValueSerializer.serialize_u64 n = .ok (.hash n)) ∧
    (∀ n : Nat, ValueVisitor.visit_u64 n = .ok (.hash n)) ∧
    (∀ i : Int, -2147483648 ≤ i → i < 2147483648 →
      IntoValueSerializer.serialize_i64 i = .ok (.i32 i) ∧
      ValueVisitor.visit_i64 i = .ok (.i32 i)) ∧
    (∀ i : Int, i < -2147483648 ∨ 2147483648 ≤ i →
      IntoValueSerializer.serialize_i64 i =
        .error (.custom ("out of range integral type conversion attempted")) ∧
      ValueVisitor.visit_i64 i =
        .error (.custom ("out of range integral type conversion attempted"))) := by
  refine ⟨fun n => rfl, fun n => rfl, ?_, ?_⟩
  · intro i h1 h2
    constructor
    · rw [IntoValueSerializer.serialize_i64, if_pos ⟨h1, h2⟩]
    · rw [ValueVisitor.visit_i64, if_pos ⟨h1, h2⟩]
  · intro i h
    constructor
    · rw [IntoValueSerializer.serialize_i64, if_neg (by omega)]
    · rw [ValueVisitor.visit_i64, if_neg (by omega)]

/-- C10 (witness): concrete boundary values: `2^63 - 1` as `u64` is a `Hash`;
`5` as `i64` fits and becomes `I32 5`; `2^31` as `i64` is out of range on both
sides. -/
theorem C10_int64_boundary_witness :
    IntoValueSerializer.serialize_u64 9223372036854775807 =
      .ok (.hash 9223372036854775807) ∧
    IntoValueSerializer.serialize_i64 5 = .ok (.i32 5) ∧
    ValueVisitor.visit_i64 5 = .ok (.i32 5) ∧
    IntoValueSerializer.serialize_i64 2147483648 =
      .error (.custom ("out of range integral type conversion attempted")) ∧
    ValueVisitor.visit_i64 2147483648 =
      .error (.custom ("out of range integral type conversion attempted")) := by
  refine ⟨C10_int64_boundary.1 9223372036854775807, ?_⟩
  have h1 := C10_int64_boundary.2.2.1 5 (by omega) (by omega)
  have h2 := C10_int64_boundary.2.2.2 2147483648 (by omega)
  exact ⟨h1.1, h1.2, h2.1, h2.2⟩


/-- C6 (amended): bounds and encoding violations are typed errors: a `Hash`
index at or past the table length is `HashOutOfBounds` (no panic, no
wraparound of the resolved index); a string offset at or past the blob length
is `StringRefOutOfBounds`; a byte ≥ 0x80 before the terminating NUL is
`StringNotAscii` — but the reported position is `file_offset + offset + pos`,
which in a whole-document decode (`file_offset = 8 + hash_data_size`, blob
starting at stream position `16 + hash_data_size`) is the offending byte's
absolute stream position MINUS 8, not the exact byte position itself. -/
theorem C6_bounds_errors :
    (∀ (fuel : Nat) (env : DecodeEnv) (pos index : Nat),
      env.stream.get? pos = some 9 →
      readU32 env.stream (pos + 1) = some index →
      env.hashes.length ≤ index →
      deserialize_any (fuel + 1) env pos = .err (.hashOutOfBounds index)) ∧
    (∀ (env : DecodeEnv) (offset : Nat),
      env.refRaw.length ≤ offset →
      ParamFileReader.get_string env offset = .err (.stringRefOutOfBounds offset)) ∧
    (∀ (env : DecodeEnv) (offset len pos : Nat),
      offset < env.refRaw.length →
      (env.refRaw.drop offset).findIdx? (fun b => b == 0) = some len →
      ((env.refRaw.drop offset).take len).findIdx? (fun b => decide (128 ≤ b)) = some pos →
      ParamFileReader.get_string env offset =
        .err (.stringNotAscii (env.fileOffset + offset + pos))) := by
  refine ⟨?_, ?_, ?_⟩
  · intro fuel env pos index h9 hr hlen
    have hnone : env.hashes.get? index = none := by
      rw [List.get?_eq_getElem?, List.getElem?_eq_none_iff]
      exact hlen
    rw [deserialize_any.eq_def]
    simp only [h9, hr, hnone]
  · intro env offset h
    rw [ParamFileReader.get_string, if_pos (by omega)]
  · intro env offset len pos hlt hnul hbad
    rw [ParamFileReader.get_string, if_neg (by omega)]
    simp only [hnul, hbad]

/-- C6 (counterexample): in a full document the not-ASCII error does NOT
report the offending byte's position: the document below (empty hash table,
3-byte blob `"A", 0x80, NUL`, body = String at blob offset 0) fails with
`StringNotAscii 9`, while the 0x80 byte sits at stream position 17; the
reported value is the stream position minus 8. -/
theorem C6_position_counterexample :
    from_slice ([112, 97, 114, 97, 99, 111, 98, 110] ++ [0, 0, 0, 0] ++ [3, 0, 0, 0]
        ++ [65, 128, 0] ++ [10, 0, 0, 0, 0]) = .err (.stringNotAscii 9) ∧
    ([112, 97, 114, 97, 99, 111, 98, 110] ++ [0, 0, 0, 0] ++ [3, 0, 0, 0]
        ++ [65, 128, 0] ++ [10, 0, 0, 0, 0]).get? 17 = some 128 ∧
    (9 : Nat) ≠ 17 := by decide

/-- C6 (witness): concrete instances of all three error shapes: a `Hash` tag
with index 2 against a one-entry table, a string offset 5 against a 2-byte
blob, and a blob `"A", 0x80, NUL` read at offset 0 with `file_offset = 8`. -/
theorem C6_bounds_errors_witness :
    deserialize_any 3 ⟨[9, 2, 0, 0, 0], [7], [], 8⟩ 0 =
      .err (.hashOutOfBounds 2) ∧
    ParamFileReader.get_string ⟨[], [], [65, 0], 8⟩ 5 =
      .err (.stringRefOutOfBounds 5) ∧
    ParamFileReader.get_string ⟨[], [], [65, 128, 0], 8⟩ 0 =
      .err (.stringNotAscii 9) :=
  ⟨C6_bounds_errors.1 2 ⟨[9, 2, 0, 0, 0], [7], [], 8⟩ 0 2 (by decide) (by decide)
     (by decide),
   C6_bounds_errors.2.1 ⟨[], [], [65, 0], 8⟩ 5 (by decide),
   C6_bounds_errors.2.2 ⟨[], [], [65, 128, 0], 8⟩ 0 2 1 (by decide) (by decide)
     (by decide)⟩

/-- C8 (amended): `Value::merge` overwrites a numeric leaf whenever the
matching `as_*` conversion returns a value, and those conversions are
value-preserving range checks (`try_into`) in most arms — in particular the
claim's instances hold: I32 1000 into an I8 target is skipped, I32 5 into I8
overwrites — but NOT in all: `as_u16` on an `i8` source (and `as_u32` on
`i8`/`i16` sources) is a wrapping `as` cast, so a negative `i8` source
overwrites a `U16` target with its two's-complement bit pattern instead of
being skipped. -/
theorem C8_merge_narrowing :
    Value.merge (.i8 7) (.i32 1000) = .i8 7 ∧
    Value.merge (.i8 7) (.i32 5) = .i8 5 ∧
    (∀ (x : Int) (v : Value), Value.merge (.i8 x) v =
      (match v.as_i8 with | some y => .i8 y | none => .i8 x)) ∧
    (∀ (v : Value) (y : Int), v.nodeWF → v.as_i8 = some y → -128 ≤ y ∧ y < 128) ∧
    (∀ x : Int, Value.as_u16 (.i8 x) = some (x % 65536).toNat) ∧
    Value.as_u16 (.i8 (-1)) = some 65535 := by
  refine ⟨by decide, by decide, fun x v => rfl, ?_, fun x => rfl, by decide⟩
  intro v y hwf h
  cases v with
  | i8 w =>
    simp only [Value.as_i8, Option.some.injEq] at h
    subst h
    obtain ⟨h1, h2⟩ := hwf
    exact ⟨h1, h2⟩
  | u8 w =>
    simp only [Value.as_i8] at h
    by_cases hc : w < 128
    · rw [if_pos hc] at h
      simp only [Option.some.injEq] at h
      omega
    · rw [if_neg hc] at h
      cases h
  | i16 w =>
    simp only [Value.as_i8] at h
    by_cases hc : -128 ≤ w ∧ w < 128
    · rw [if_pos hc] at h
      simp only [Option.some.injEq] at h
      omega
    · rw [if_neg hc] at h
      cases h
  | u16 w =>
    simp only [Value.as_i8] at h
    by_cases hc : w < 128
    · rw [if_pos hc] at h
      simp only [Option.some.injEq] at h
      omega
    · rw [if_neg hc] at h
      cases h
  | i32 w =>
    simp only [Value.as_i8] at h
    by_cases hc : -128 ≤ w ∧ w < 128
    · rw [if_pos hc] at h
      simp only [Option.some.injEq] at h
      omega
    · rw [if_neg hc] at h
      cases h
  | u32 w =>
    simp only [Value.as_i8] at h
    by_cases hc : w < 128
    · rw [if_pos hc] at h
      simp only [Option.some.injEq] at h
      omega
    · rw [if_neg hc] at h
      cases h
  | bool b => cases h
  | f32 w => cases h
  | hash w => cases h
  | string s => cases h
  | list l => cases h
  | map m => cases h

/-- C8 (counterexample): merging an `I8` source of value `-1` into a `U16`
target does not skip (no value-preserving conversion exists: `-1` is not a
`u16` value) — it overwrites the target with the wrapped bit pattern
`65535`. -/
theorem C8_merge_counterexample :
    Value.merge (.u16 0) (.i8 (-1)) = .u16 65535 ∧
    ¬ ((0 : Int) ≤ -1) := by decide

/-- C8 (witness): the conversion-bound conjunct applied concretely: an
in-range `I32 5` source converts for an `i8` target and the resulting value
is in the `i8` range. -/
theorem C8_merge_narrowing_witness :
    Value.nodeWF (.i32 5) ∧ Value.as_i8 (.i32 5) = some 5 ∧
    (-128 ≤ (5 : Int) ∧ (5 : Int) < 128) :=
  ⟨by decide, by decide, C8_merge_narrowing.2.2.2.1 (.i32 5) 5 (by decide) (by decide)⟩


/-- The base the SPEC's words prescribe for list element offsets, modelled
from the spec sentence "base = (position of the count field)": the count is
read AT the base and the absolute offsets are `base + relative`.  This
definition follows the spec's words, not the code; it exists to be compared
with `list_element_offsets`, which the code bases one byte earlier, at the
type tag. -/
def list_element_offsets_specBase (stream : List Nat) (countFieldPos : Nat) :
    Option (Nat × List Nat) := do
  let count ← readU32 stream countFieldPos
  let rels ← readU32Seq stream (countFieldPos + 4) count
  pure (count, rels.map (fun r => countFieldPos + r))

/-- C2 (amended): the base of a List's or Map's relative offsets is the
stream position of the TYPE TAG — one byte BEFORE the count field, not the
count field's own position: the decoder reads the count at `base + 1`, the
offset table at `base + 5`, and resolves each element at `base + relative`;
a map header entry's value is resolved at `base + stored_offset` where `base`
is again the tag position the decoder passes in; and the encoder emits the
list offset table starting from `5 + 4N`, the distance from the tag byte to
the first element. -/
theorem C2_base_is_tag_position :
    (∀ (stream : List Nat) (tagPos count : Nat) (rels : List Nat),
      readU32 stream (tagPos + 1) = some count →
      readU32Seq stream (tagPos + 5) count = some rels →
      list_element_offsets stream tagPos =
        some (count, rels.map (fun r => tagPos + r))) ∧
    (∀ (env : DecodeEnv) (offset tagPos hashIndex dataOffset h : Nat),
      readU32 env.refRaw (offset + 0 * 8) = some hashIndex →
      readU32 env.refRaw (offset + 0 * 8 + 4) = some dataOffset →
      env.hashes.get? hashIndex = some h →
      getMapEntries env offset tagPos 0 1 = .ok [(h, tagPos + dataOffset)]) ∧
    (∀ (hl : List Nat) (sl : List (List Nat × Nat))
      (tl : List (List (Nat × Nat) × Nat)) (xs : List Value) (body : List Nat),
      writeValueList hl sl tl xs = some body →
      write_value hl sl tl (.list xs) =
        some ((11 :: u32le xs.length) ++ listOffsetBytes (5 + xs.length * 4) xs
          ++ body)) := by
  refine ⟨?_, ?_, ?_⟩
  · intro stream tagPos count rels hc hr
    rw [list_element_offsets]
    simp only [hc, hr, Option.bind_eq_bind, Option.some_bind, Option.pure_def]
  · intro env offset tagPos hashIndex dataOffset h h1 h2 h3
    rw [getMapEntries]
    simp only [h1, h2, h3]
    rw [getMapEntries]
    rfl
  · intro hl sl tl xs body hb
    rw [write_value, hb]
    rfl

/-- C2 (counterexample): the spec's base (the count field's position) points
one byte too late.  On the stream below — a one-element list whose element's
relative offset is 9 — the decoder resolves the element at `0 + 9 = 9`, where
the Bool element actually sits and decodes; a base at the count field
(position 1) would resolve it at 10, where decoding fails. -/
theorem C2_base_counterexample :
    list_element_offsets [11, 1, 0, 0, 0, 9, 0, 0, 0, 1, 1] 0 = some (1, [9]) ∧
    list_element_offsets_specBase [11, 1, 0, 0, 0, 9, 0, 0, 0, 1, 1] 1 =
      some (1, [10]) ∧
    deserialize_any 30 ⟨[11, 1, 0, 0, 0, 9, 0, 0, 0, 1, 1], [], [], 8⟩ 9 =
      .ok (.bool true, 11) ∧
    deserialize_any 30 ⟨[11, 1, 0, 0, 0, 9, 0, 0, 0, 1, 1], [], [], 8⟩ 10 =
      .err .ioError := by decide

/-- C2 (witness): the three amended conjuncts at concrete inputs: the header
of the counterexample stream, a single map-header record, and the encoder's
output for a one-element Bool list. -/
theorem C2_base_is_tag_position_witness :
    list_element_offsets [11, 1, 0, 0, 0, 9, 0, 0, 0, 1, 1] 0 =
      some (1, [9].map (fun r => 0 + r)) ∧
    getMapEntries ⟨[], [1], [0, 0, 0, 0, 9, 0, 0, 0], 8⟩ 0 20 0 1 =
      .ok [(1, 20 + 9)] ∧
    write_value [] [] [] (.list [.bool true]) =
      some ((11 :: u32le 1) ++ listOffsetBytes (5 + 4) [.bool true] ++ [1, 1]) := by
  refine ⟨C2_base_is_tag_position.1 [11, 1, 0, 0, 0, 9, 0, 0, 0, 1, 1] 0 1 [9]
      (by decide) (by decide),
    C2_base_is_tag_position.2.1 ⟨[], [1], [0, 0, 0, 0, 9, 0, 0, 0], 8⟩ 0 20 0 9 1
      (by decide) (by decide) (by decide), ?_⟩
  have h := C2_base_is_tag_position.2.2 [] [] [] [.bool true] [1, 1] (by decide)
  simpa using h

/-- C5: deduplication in the reference blob: re-serializing an already
registered string is a no-op on the blob and the lookup (so identical strings
share one blob entry, and `write_value` necessarily emits the same stored
offset for them); a map whose fingerprint (keys with their value sizes, the
`DefaultHasher` input) is already registered is pruned without touching the
blob, and two maps with equal fingerprints are written with identical 4-byte
header-offset fields; concretely, encoding a list of two equal strings emits
the content once (blob `"a", NUL`, both offsets 0), and a list of two
same-shape maps emits one 8-byte header (both inline offset fields 0). -/
theorem C5_deduplication :
    (∀ (data : List Nat) (lookup : List (List Nat × Nat)) (s : List Nat),
      (lookup.lookup s).isSome →
      visit_strings data lookup (.string s) = (data, lookup)) ∧
    (∀ (hl data : List Nat) (lookup : List (List (Nat × Nat) × Nat))
      (m : List (Nat × Value)),
      (lookup.lookup (get_struct_key m)).isSome →
      visit_structs hl data lookup (.map m) = some (data, lookup)) ∧
    (∀ (hl : List Nat) (sl : List (List Nat × Nat))
      (tl : List (List (Nat × Nat) × Nat)) (m1 m2 : List (Nat × Value))
      (bs1 bs2 : List Nat),
      get_struct_key m1 = get_struct_key m2 →
      write_value hl sl tl (.map m1) = some bs1 →
      write_value hl sl tl (.map m2) = some bs2 →
      (bs1.drop 5).take 4 = (bs2.drop 5).take 4) ∧
    to_vec (.list [.string [97], .string [97]]) =
      some ([112, 97, 114, 97, 99, 111, 98, 110] ++ u32le 0 ++ u32le 2 ++ [97, 0]
        ++ [11, 2, 0, 0, 0, 13, 0, 0, 0, 18, 0, 0, 0,
            10, 0, 0, 0, 0, 10, 0, 0, 0, 0]) ∧
    to_vec (.list [.map [(1, .u8 1)], .map [(1, .u8 2)]]) =
      some ([112, 97, 114, 97, 99, 111, 98, 110] ++ u32le 8 ++ u32le 8
        ++ u64le 1 ++ [0, 0, 0, 0, 9, 0, 0, 0]
        ++ [11, 2, 0, 0, 0, 13, 0, 0, 0, 24, 0, 0, 0,
            12, 1, 0, 0, 0, 0, 0, 0, 0, 3, 1,
            12, 1, 0, 0, 0, 0, 0, 0, 0, 3, 2]) := by
  refine ⟨?_, ?_, ?_, by decide, by decide⟩
  · intro data lookup s h
    rw [visit_strings, if_pos h]
  · intro hl data lookup m h
    rw [visit_structs]
    simp only [if_pos h]
  · intro hl sl tl m1 m2 bs1 bs2 hk h1 h2
    rw [write_value] at h1 h2
    rw [hk] at h1
    cases hoff : tl.lookup (get_struct_key m2) with
    | none =>
      rw [hoff] at h1
      cases h1
    | some off =>
      rw [hoff] at h1 h2
      cases hb1 : writeValueMap hl sl tl m1 with
      | none => rw [hb1] at h1; cases h1
      | some body1 =>
        rw [hb1] at h1
        cases hb2 : writeValueMap hl sl tl m2 with
        | none => rw [hb2] at h2; cases h2
        | some body2 =>
          rw [hb2] at h2
          have e1 : some ((12 :: u32le m1.length) ++ u32le off ++ body1) = some bs1 := h1
          have e2 : some ((12 :: u32le m2.length) ++ u32le off ++ body2) = some bs2 := h2
          simp only [Option.some.injEq] at e1 e2
          rw [← e1, ← e2]
          rw [List.append_assoc, List.append_assoc]
          rw [List.drop_left' (by simp [u32le_length]), List.drop_left' (by simp [u32le_length])]
          rw [List.take_left' (u32le_length off), List.take_left' (u32le_length off)]

/-- C5 (witness): the no-op and shared-offset conjuncts at concrete inputs: a
registered string `"a"`, a registered one-entry map fingerprint, and two maps
with the same key and value size written against the same tables. -/
theorem C5_deduplication_witness :
    visit_strings [97, 0] [([97], 0)] (.string [97]) = ([97, 0], [([97], 0)]) ∧
    visit_structs [1] [0, 0, 0, 0, 9, 0, 0, 0] [([(1, 2)], 0)] (.map [(1, .u8 1)]) =
      some ([0, 0, 0, 0, 9, 0, 0, 0], [([(1, 2)], 0)]) ∧
    (((12 :: u32le 1) ++ u32le 0 ++ [3, 1] : List Nat).drop 5).take 4 =
      (((12 :: u32le 1) ++ u32le 0 ++ [3, 2] : List Nat).drop 5).take 4 :=
  ⟨C5_deduplication.1 [97, 0] [([97], 0)] [97] (by decide),
   C5_deduplication.2.1 [1] [0, 0, 0, 0, 9, 0, 0, 0] [([(1, 2)], 0)] [(1, .u8 1)]
     (by decide),
   C5_deduplication.2.2.1 [1] [] [([(1, 2)], 0)] [(1, .u8 1)] [(1, .u8 2)]
     ((12 :: u32le 1) ++ u32le 0 ++ [3, 1]) ((12 :: u32le 1) ++ u32le 0 ++ [3, 2])
     (by decide) (by decide) (by decide)⟩


/-- The twelve bytes of the string `"0x0000000000"`: the `0x` + ten-hex-digit
shape `ValueVisitor::visit_str` reinterprets as a `Hash`. -/
def hexStr : List Nat := [48, 120, 48, 48, 48, 48, 48, 48, 48, 48, 48, 48]

/-- C1 (amended): the round trip holds for every well-formed tree whose
strings are nonempty-byte ASCII free of the `0x` + ten-hex-digit hash shape
(and whose encoding exists and fits in 32-bit sizes): decoding the encoding
yields the identical tree, map key insertion order included. -/
theorem C1_round_trip {v : Value} {bs : List Nat}
    (hwf : Value.WF v)
    (hstr : ∀ s, Value.string s ∈ v.subs → stringOk s)
    (henc : to_vec v = some bs)
    (hlen : bs.length < 4294967296) :
    from_slice bs = .ok v :=
  from_slice_to_vec hwf hstr henc hlen

/-- C1 (counterexample): the round trip does NOT hold for every supported
tree: the string `"0x0000000000"` is a perfectly ordinary `Value::String`
(not an unsupported primitive shape), but decoding its own encoding returns
`Hash 0`, because `ValueVisitor::visit_str` reinterprets hash-shaped
strings. -/
theorem C1_round_trip_counterexample :
    Value.WF (.string hexStr) ∧
    (to_vec (.string hexStr)).map from_slice = some (.ok (.hash 0)) ∧
    Value.hash 0 ≠ Value.string hexStr := by decide

/-- C1 (witness): a concrete round trip through the amended theorem: the
one-element list `[true]` encodes to the 27-byte document below and decodes
back to itself. -/
theorem C1_round_trip_witness :
    from_slice [112, 97, 114, 97, 99, 111, 98, 110, 0, 0, 0, 0, 0, 0, 0, 0,
      11, 1, 0, 0, 0, 9, 0, 0, 0, 1, 1] = .ok (.list [.bool true]) :=
  C1_round_trip (v := .list [.bool true]) (by decide)
    (by
      intro s hs
      simp [Value.subs, Value.subsList] at hs)
    (by decide) (by decide)


/-! ## Partial-consumption support (claim C3) -/

theorem binSizeSumList_append : ∀ (a b : List Value),
    binSizeSumList (a ++ b) = binSizeSumList a + binSizeSumList b := by
  intro a b
  induction a with
  | nil =>
    rw [List.nil_append, show binSizeSumList [] = 0 from rfl]
    omega
  | cons x xs ih =>
    rw [List.cons_append, binSizeSumList, binSizeSumList, ih]
    omega

theorem binSizeSumMap_append : ∀ (a b : List (Nat × Value)),
    binSizeSumMap (a ++ b) = binSizeSumMap a + binSizeSumMap b := by
  intro a b
  induction a with
  | nil =>
    rw [List.nil_append, show binSizeSumMap [] = 0 from rfl]
    omega
  | cons kv kvs ih =>
    obtain ⟨k, v⟩ := kv
    rw [List.cons_append, binSizeSumMap, binSizeSumMap, ih]
    omega

theorem listAbsOffsets_append : ∀ (a b : List Value) (start : Nat),
    listAbsOffsets start (a ++ b) =
      listAbsOffsets start a ++ listAbsOffsets (start + binSizeSumList a) b := by
  intro a
  induction a with
  | nil =>
    intro b start
    rw [List.nil_append, show binSizeSumList [] = 0 from rfl, Nat.add_zero]
    rfl
  | cons x xs ih =>
    intro b start
    rw [List.cons_append, listAbsOffsets, listAbsOffsets, ih, binSizeSumList]
    rw [show start + (calculate_binary_size_of_value x + binSizeSumList xs) =
      start + calculate_binary_size_of_value x + binSizeSumList xs by omega]
    rfl

theorem mapAbsEntries_append : ∀ (a b : List (Nat × Value)) (start : Nat),
    mapAbsEntries start (a ++ b) =
      mapAbsEntries start a ++ mapAbsEntries (start + binSizeSumMap a) b := by
  intro a
  induction a with
  | nil =>
    intro b start
    rw [List.nil_append, show binSizeSumMap [] = 0 from rfl, Nat.add_zero]
    rfl
  | cons kv kvs ih =>
    obtain ⟨k, v⟩ := kv
    intro b start
    rw [List.cons_append, mapAbsEntries, mapAbsEntries, ih, binSizeSumMap]
    rw [show start + (calculate_binary_size_of_value v + binSizeSumMap kvs) =
      start + calculate_binary_size_of_value v + binSizeSumMap kvs by omega]
    rfl

theorem listAbsOffsets_take {xs : List Value} {K start : Nat} (hK : K ≤ xs.length) :
    (listAbsOffsets start xs).take K = listAbsOffsets start (xs.take K) := by
  have h1 : listAbsOffsets start xs = listAbsOffsets start (xs.take K)
      ++ listAbsOffsets (start + binSizeSumList (xs.take K)) (xs.drop K) := by
    conv_lhs => rw [← List.take_append_drop K xs]
    rw [listAbsOffsets_append]
  rw [h1, List.take_left' (by rw [listAbsOffsets_length, List.length_take]; omega)]

theorem writeValueList_append : ∀ (hl : List Nat) (sl : List (List Nat × Nat))
    (tl : List (List (Nat × Nat) × Nat)) (a b : List Value) (bs : List Nat),
    writeValueList hl sl tl (a ++ b) = some bs →
    ∃ b1 b2, writeValueList hl sl tl a = some b1 ∧
      writeValueList hl sl tl b = some b2 ∧ bs = b1 ++ b2 := by
  intro hl sl tl a
  induction a with
  | nil =>
    intro b bs h
    exact ⟨[], bs, rfl, h, (List.nil_append bs).symm⟩
  | cons x xs ih =>
    intro b bs h
    rw [List.cons_append, writeValueList] at h
    cases hb : write_value hl sl tl x with
    | none => rw [hb] at h; cases h
    | some bx =>
      rw [hb] at h
      cases hr : writeValueList hl sl tl (xs ++ b) with
      | none => rw [hr] at h; cases h
      | some r =>
        rw [hr] at h
        have h2 : some (bx ++ r) = some bs := h
        simp only [Option.some.injEq] at h2
        obtain ⟨b1, b2, hw1, hw2, hbe⟩ := ih b r hr
        refine ⟨bx ++ b1, b2, ?_, hw2, ?_⟩
        · rw [writeValueList, hb, hw1]
          rfl
        · rw [← h2, hbe, List.append_assoc]

theorem writeValueMap_append : ∀ (hl : List Nat) (sl : List (List Nat × Nat))
    (tl : List (List (Nat × Nat) × Nat)) (a b : List (Nat × Value)) (bs : List Nat),
    writeValueMap hl sl tl (a ++ b) = some bs →
    ∃ b1 b2, writeValueMap hl sl tl a = some b1 ∧
      writeValueMap hl sl tl b = some b2 ∧ bs = b1 ++ b2 := by
  intro hl sl tl a
  induction a with
  | nil =>
    intro b bs h
    exact ⟨[], bs, rfl, h, (List.nil_append bs).symm⟩
  | cons kv kvs ih =>
    obtain ⟨k, v⟩ := kv
    intro b bs h
    rw [List.cons_append, writeValueMap] at h
    cases hb : write_value hl sl tl v with
    | none => rw [hb] at h; cases h
    | some bx =>
      rw [hb] at h
      cases hr : writeValueMap hl sl tl (kvs ++ b) with
      | none => rw [hr] at h; cases h
      | some r =>
        rw [hr] at h
        have h2 : some (bx ++ r) = some bs := h
        simp only [Option.some.injEq] at h2
        obtain ⟨b1, b2, hw1, hw2, hbe⟩ := ih b r hr
        refine ⟨bx ++ b1, b2, ?_, hw2, ?_⟩
        · rw [writeValueMap, hb, hw1]
          rfl
        · rw [← h2, hbe, List.append_assoc]

theorem writeValueList_singleton {hl : List Nat} {sl : List (List Nat × Nat)}
    {tl : List (List (Nat × Nat) × Nat)} {z : Value} {c : List Nat}
    (h : writeValueList hl sl tl [z] = some c) :
    write_value hl sl tl z = some c := by
  rw [writeValueList] at h
  cases hb : write_value hl sl tl z with
  | none => rw [hb] at h; cases h
  | some bz =>
    rw [hb] at h
    have h2 : some (bz ++ []) = some c := h
    simp only [List.append_nil, Option.some.injEq] at h2
    rw [h2]

theorem writeValueMap_singleton {hl : List Nat} {sl : List (List Nat × Nat)}
    {tl : List (List (Nat × Nat) × Nat)} {k : Nat} {z : Value} {c : List Nat}
    (h : writeValueMap hl sl tl [(k, z)] = some c) :
    write_value hl sl tl z = some c := by
  rw [writeValueMap] at h
  cases hb : write_value hl sl tl z with
  | none => rw [hb] at h; cases h
  | some bz =>
    rw [hb] at h
    have h2 : some (bz ++ []) = some c := h
    simp only [List.append_nil, Option.some.injEq] at h2
    rw [h2]

theorem fuelNeedSeq_pos : ∀ xs : List Value, 1 ≤ fuelNeedSeq xs := by
  intro xs
  cases xs with
  | nil => rw [fuelNeedSeq]
  | cons x xs => rw [fuelNeedSeq]; omega

theorem fuelNeedEntries_pos : ∀ kvs : List (Nat × Value), 1 ≤ fuelNeedEntries kvs := by
  intro kvs
  cases kvs with
  | nil => rw [fuelNeedEntries]
  | cons kv kvs =>
    obtain ⟨k, v⟩ := kv
    rw [fuelNeedEntries]
    omega

theorem fuelNeed_mem_seq : ∀ (xs : List Value) (x : Value), x ∈ xs →
    fuelNeed x < fuelNeedSeq xs := by
  intro xs
  induction xs with
  | nil => intro x hx; simp at hx
  | cons y ys ih =>
    intro x hx
    rw [fuelNeedSeq]
    rcases List.mem_cons.mp hx with h | h
    · subst h; omega
    · have := ih x h; omega

theorem fuelNeed_mem_entries : ∀ (kvs : List (Nat × Value)) (k : Nat) (v : Value),
    (k, v) ∈ kvs → fuelNeed v < fuelNeedEntries kvs := by
  intro kvs
  induction kvs with
  | nil => intro k v hx; simp at hx
  | cons kv kvs ih =>
    obtain ⟨k0, v0⟩ := kv
    intro k v hx
    rw [fuelNeedEntries]
    rcases List.mem_cons.mp hx with h | h
    · have h1 : v0 = v := congrArg Prod.snd h.symm
      subst h1
      omega
    · have := ih k v h; omega

theorem fuelNeedSeq_take : ∀ (xs : List Value) (K : Nat),
    fuelNeedSeq (xs.take K) ≤ fuelNeedSeq xs := by
  intro xs
  induction xs with
  | nil => intro K; rw [List.take_nil]
  | cons y ys ih =>
    intro K
    cases K with
    | zero =>
      rw [List.take_zero, show fuelNeedSeq [] = 1 from rfl]
      exact fuelNeedSeq_pos _
    | succ k =>
      rw [List.take_succ_cons, fuelNeedSeq, fuelNeedSeq]
      have := ih k
      omega

theorem fuelNeedEntries_take : ∀ (kvs : List (Nat × Value)) (K : Nat),
    fuelNeedEntries (kvs.take K) ≤ fuelNeedEntries kvs := by
  intro kvs
  induction kvs with
  | nil => intro K; rw [List.take_nil]
  | cons kv kvs ih =>
    obtain ⟨k0, v0⟩ := kv
    intro K
    cases K with
    | zero =>
      rw [List.take_zero, show fuelNeedEntries [] = 1 from rfl]
      exact fuelNeedEntries_pos _
    | succ k =>
      rw [List.take_succ_cons, fuelNeedEntries, fuelNeedEntries]
      have := ih k
      omega

theorem subsList_take_sub {xs : List Value} {K : Nat} {u : Value}
    (hu : u ∈ Value.subsList (xs.take K)) : u ∈ Value.subsList xs := by
  rw [mem_subsList_iff] at hu ⊢
  obtain ⟨x, hx, hux⟩ := hu
  exact ⟨x, List.mem_of_mem_take hx, hux⟩

theorem subsList_mem_sub {xs : List Value} {x : Value} {u : Value}
    (hx : x ∈ xs) (hu : u ∈ x.subs) : u ∈ Value.subsList xs := by
  rw [mem_subsList_iff]
  exact ⟨x, hx, hu⟩

theorem subsMap_take_sub {kvs : List (Nat × Value)} {K : Nat} {u : Value}
    (hu : u ∈ Value.subsMap (kvs.take K)) : u ∈ Value.subsMap kvs := by
  rw [mem_subsMap_iff] at hu ⊢
  obtain ⟨kv, hkv, hukv⟩ := hu
  exact ⟨kv, List.mem_of_mem_take hkv, hukv⟩

theorem subsMap_mem_sub {kvs : List (Nat × Value)} {kv : Nat × Value} {u : Value}
    (hkv : kv ∈ kvs) (hu : u ∈ kv.2.subs) : u ∈ Value.subsMap kvs := by
  rw [mem_subsMap_iff]
  exact ⟨kv, hkv, hu⟩


/-- The `MapAccess` loop stopped after `K` of the remaining entries: decodes
exactly the first `K` and leaves the cursor after them. -/
theorem deserializeMapSteps_partial : ∀ (K : Nat) (kvs : List (Nat × Value)) (fuel : Nat)
    (env : DecodeEnv) (sl : List (List Nat × Nat)) (tl : List (List (Nat × Nat) × Nat))
    (keys rest : List (Nat × Nat)) (c start : Nat) (bs : List Nat),
    env.hashes.length ≤ 4294967296 →
    env.refRaw.length < 4294967296 →
    GoodStrings env.refRaw sl →
    GoodStructs env.refRaw env.hashes tl →
    writeValueMap env.hashes sl tl kvs = some bs →
    sliceEq env.stream start bs →
    keys.drop c = mapAbsEntries start kvs ++ rest →
    c + kvs.length ≤ keys.length →
    (∀ u ∈ Value.subsMap kvs, u.nodeWF) →
    (∀ s, Value.string s ∈ Value.subsMap kvs → stringOk s) →
    (∀ u ∈ Value.subsMap kvs, calculate_binary_size_of_value u < 4294967296) →
    fuelNeedEntries kvs ≤ fuel →
    K ≤ kvs.length →
    deserializeMapSteps fuel env K ⟨keys, c, c⟩ start =
      .ok (kvs.take K, start + binSizeSumMap (kvs.take K), ⟨keys, c + K, c + K⟩) := by
  intro K
  induction K with
  | zero =>
    intro kvs fuel env sl tl keys rest c start bs hhl hrb hGS hGT hw hsl hdrop hlen
      hwf hstr hsz hfuel hK
    have hf1 : 1 ≤ fuel := le_trans (fuelNeedEntries_pos kvs) hfuel
    obtain ⟨f, rfl⟩ : ∃ f, fuel = f + 1 := ⟨fuel - 1, by omega⟩
    rfl
  | succ k ih =>
    intro kvs fuel env sl tl keys rest c start bs hhl hrb hGS hGT hw hsl hdrop hlen
      hwf hstr hsz hfuel hK
    cases kvs with
    | nil => simp at hK
    | cons kv kvs' =>
      obtain ⟨kk, v⟩ := kv
      have hfe : 1 + max (1 + fuelNeed v) (fuelNeedEntries kvs') ≤ fuel := hfuel
      obtain ⟨f, rfl⟩ : ∃ f, fuel = f + 1 := ⟨fuel - 1, by omega⟩
      obtain ⟨g, rfl⟩ : ∃ g, f = g + 1 := ⟨f - 1, by omega⟩
      rw [writeValueMap] at hw
      cases hb : write_value env.hashes sl tl v with
      | none => rw [hb] at hw; cases hw
      | some b =>
        rw [hb] at hw
        cases hr : writeValueMap env.hashes sl tl kvs' with
        | none => rw [hr] at hw; cases hw
        | some r =>
          rw [hr] at hw
          have hw2 : some (b ++ r) = some bs := hw
          simp only [Option.some.injEq] at hw2
          subst hw2
          rw [sliceEq_append] at hsl
          obtain ⟨hslB, hslR⟩ := hsl
          rw [write_value_length env.hashes sl tl v b hb] at hslR
          rw [mapAbsEntries, List.cons_append] at hdrop
          have hget : keys.get? c = some (kk, start) := by
            have h0 : (keys.drop c).get? 0 = some (kk, start) := by
              rw [hdrop]; rfl
            rw [List.get?_eq_getElem?, List.getElem?_drop] at h0
            rw [List.get?_eq_getElem?]
            simpa using h0
          have hdrop' : keys.drop (c + 1) =
              mapAbsEntries (start + calculate_binary_size_of_value v) kvs' ++ rest := by
            have ht := congrArg List.tail hdrop
            simp only [List.tail_cons] at ht
            rw [← ht, List.tail_drop]
          have hany := deserialize_any_correct v g env sl tl start b hhl hrb hGS hGT hb hslB
            (fun u hu => hwf u (by rw [Value.subsMap]; exact List.mem_append_left _ hu))
            (fun s hs => hstr s (by rw [Value.subsMap]; exact List.mem_append_left _ hs))
            (fun u hu => hsz u (by rw [Value.subsMap]; exact List.mem_append_left _ hu))
            (by omega)
          simp only [List.length_cons] at hlen hK
          have hrec := ih kvs' (g + 1) env sl tl keys rest (c + 1)
            (start + calculate_binary_size_of_value v) r hhl hrb hGS hGT hr hslR hdrop'
            (by omega)
            (fun u hu => hwf u (by rw [Value.subsMap]; exact List.mem_append_right _ hu))
            (fun s hs => hstr s (by rw [Value.subsMap]; exact List.mem_append_right _ hs))
            (fun u hu => hsz u (by rw [Value.subsMap]; exact List.mem_append_right _ hu))
            (by omega) (by omega)
          have hc1 : ¬ (c ≥ keys.length) := by omega
          have hc2 : ¬ (c = c + 1) := by omega
          rw [deserializeMapSteps.eq_def]
          simp only [MapDe.next_key, if_neg hc1, hget, MapDe.next_value.eq_def, if_neg hc2,
            hany, DResult.bind_ok, DResult.pure_eq]
          simp only [hrec, DResult.bind_ok]
          rw [List.take_succ_cons, binSizeSumMap]
          rw [show start + (calculate_binary_size_of_value v + binSizeSumMap (kvs'.take k)) =
            start + calculate_binary_size_of_value v + binSizeSumMap (kvs'.take k) by omega]
          rw [show c + (k + 1) = c + 1 + k by omega]


/-- The `SeqAccess` catch-up: stopping after `K` of `N` elements still parses
and discards the final element, leaving the cursor after all `N`.  (Helper for
claim C3.) -/
theorem seqBody_partial_correct : ∀ (xs : List Value) (K fuel : Nat) (env : DecodeEnv)
    (sl : List (List Nat × Nat)) (tl : List (List (Nat × Nat) × Nat))
    (start : Nat) (bs : List Nat),
    env.hashes.length ≤ 4294967296 →
    env.refRaw.length < 4294967296 →
    GoodStrings env.refRaw sl →
    GoodStructs env.refRaw env.hashes tl →
    writeValueList env.hashes sl tl xs = some bs →
    sliceEq env.stream start bs →
    (∀ u ∈ Value.subsList xs, u.nodeWF) →
    (∀ s, Value.string s ∈ Value.subsList xs → stringOk s) →
    (∀ u ∈ Value.subsList xs, calculate_binary_size_of_value u < 4294967296) →
    fuelNeedSeq xs < fuel →
    K < xs.length →
    deserializeSeqBody fuel env (listAbsOffsets start xs) K start =
      .ok (xs.take K, start + binSizeSumList xs) := by
  intro xs K fuel env sl tl start bs hhl hrb hGS hGT hw hsl hwf hstr hsz hfuel hK
  obtain ⟨f, rfl⟩ : ∃ f, fuel = f + 1 := ⟨fuel - 1, by omega⟩
  have hxne : xs ≠ [] := by
    intro he
    rw [he] at hK
    simp at hK
  -- the first K elements
  obtain ⟨b1, b2, hw1, hw2, hbe⟩ := writeValueList_append env.hashes sl tl
    (xs.take K) (xs.drop K) bs (by rw [List.take_append_drop]; exact hw)
  have hsl' := hsl
  rw [hbe, sliceEq_append] at hsl'
  obtain ⟨hsl1, -⟩ := hsl'
  have htake : (listAbsOffsets start xs).take K = listAbsOffsets start (xs.take K) :=
    listAbsOffsets_take (by omega)
  have hrun := deserializeListSteps_correct (xs.take K) f env sl tl start b1
    hhl hrb hGS hGT hw1 hsl1
    (fun u hu => hwf u (subsList_take_sub hu))
    (fun s hs => hstr s (subsList_take_sub hs))
    (fun u hu => hsz u (subsList_take_sub hu))
    (by have := fuelNeedSeq_take xs K; omega)
  -- the last element
  obtain ⟨c1, c2, hwd, hwz, hce⟩ := writeValueList_append env.hashes sl tl
    xs.dropLast [xs.getLast hxne] bs
    (by rw [List.dropLast_append_getLast hxne]; exact hw)
  have hwz' := writeValueList_singleton hwz
  have hslz := hsl
  rw [hce, sliceEq_append] at hslz
  obtain ⟨-, hslz2⟩ := hslz
  rw [writeValueList_length env.hashes sl tl xs.dropLast c1 hwd] at hslz2
  have hzmem : xs.getLast hxne ∈ xs := List.getLast_mem hxne
  have hz := deserialize_any_correct (xs.getLast hxne) f env sl tl
    (start + binSizeSumList xs.dropLast) c2 hhl hrb hGS hGT hwz' hslz2
    (fun u hu => hwf u (subsList_mem_sub hzmem hu))
    (fun s hs => hstr s (subsList_mem_sub hzmem hs))
    (fun u hu => hsz u (subsList_mem_sub hzmem hu))
    (by have := fuelNeed_mem_seq xs _ hzmem; omega)
  have hlast : (listAbsOffsets start xs).getLast? =
      some (start + binSizeSumList xs.dropLast) := by
    conv_lhs => rw [← List.dropLast_append_getLast hxne, listAbsOffsets_append]
    rw [show listAbsOffsets (start + binSizeSumList xs.dropLast) [xs.getLast hxne] =
      [start + binSizeSumList xs.dropLast] from rfl]
    exact List.getLast?_concat _
  have hcond : (listAbsOffsets start (xs.take K)).length <
      (listAbsOffsets start xs).length := by
    rw [listAbsOffsets_length, listAbsOffsets_length, List.length_take]
    omega
  have hsum : binSizeSumList xs =
      binSizeSumList xs.dropLast + calculate_binary_size_of_value (xs.getLast hxne) := by
    conv_lhs => rw [← List.dropLast_append_getLast hxne]
    rw [binSizeSumList_append]
    rw [show binSizeSumList [xs.getLast hxne] =
      calculate_binary_size_of_value (xs.getLast hxne) + 0 from rfl]
    omega
  rw [deserializeSeqBody.eq_def]
  simp only [htake, hrun, DResult.bind_ok]
  rw [if_pos hcond]
  simp only [hlast, hz, DResult.bind_ok, DResult.pure_eq]
  rw [show start + binSizeSumList xs.dropLast +
    calculate_binary_size_of_value (xs.getLast hxne) = start + binSizeSumList xs by omega]

theorem mapBody_partial_correct : ∀ (kvs : List (Nat × Value)) (K fuel : Nat) (env : DecodeEnv)
    (sl : List (List Nat × Nat)) (tl : List (List (Nat × Nat) × Nat))
    (start : Nat) (bs : List Nat),
    env.hashes.length ≤ 4294967296 →
    env.refRaw.length < 4294967296 →
    GoodStrings env.refRaw sl →
    GoodStructs env.refRaw env.hashes tl →
    writeValueMap env.hashes sl tl kvs = some bs →
    sliceEq env.stream start bs →
    (∀ u ∈ Value.subsMap kvs, u.nodeWF) →
    (∀ s, Value.string s ∈ Value.subsMap kvs → stringOk s) →
    (∀ u ∈ Value.subsMap kvs, calculate_binary_size_of_value u < 4294967296) →
    fuelNeedEntries kvs < fuel →
    K < kvs.length →
    deserializeMapBody fuel env (mapAbsEntries start kvs) kvs.length K start =
      .ok (kvs.take K, start + binSizeSumMap kvs) := by
  intro kvs K fuel env sl tl start bs hhl hrb hGS hGT hw hsl hwf hstr hsz hfuel hK
  obtain ⟨f, rfl⟩ : ∃ f, fuel = f + 1 := ⟨fuel - 1, by omega⟩
  have hne : kvs ≠ [] := by
    intro he
    rw [he] at hK
    simp at hK
  have hrun := deserializeMapSteps_partial K kvs f env sl tl
    (mapAbsEntries start kvs) [] 0 start bs hhl hrb hGS hGT hw hsl
    (by rw [List.drop_zero, List.append_nil])
    (by rw [mapAbsEntries_length]; omega)
    hwf hstr hsz (by omega) (by omega)
  -- the last entry
  obtain ⟨c1, c2, hwd, hwz, hce⟩ := writeValueMap_append env.hashes sl tl
    kvs.dropLast [kvs.getLast hne] bs
    (by rw [List.dropLast_append_getLast hne]; exact hw)
  have hwz' := writeValueMap_singleton (k := (kvs.getLast hne).1)
    (z := (kvs.getLast hne).2) hwz
  have hslz := hsl
  rw [hce, sliceEq_append] at hslz
  obtain ⟨-, hslz2⟩ := hslz
  rw [writeValueMap_length env.hashes sl tl kvs.dropLast c1 hwd] at hslz2
  have hzmem : kvs.getLast hne ∈ kvs := List.getLast_mem hne
  have hz := deserialize_any_correct (kvs.getLast hne).2 f env sl tl
    (start + binSizeSumMap kvs.dropLast) c2 hhl hrb hGS hGT hwz' hslz2
    (fun u hu => hwf u (subsMap_mem_sub hzmem hu))
    (fun s hs => hstr s (subsMap_mem_sub hzmem hs))
    (fun u hu => hsz u (subsMap_mem_sub hzmem hu))
    (by have := fuelNeed_mem_entries kvs (kvs.getLast hne).1 (kvs.getLast hne).2 hzmem
        omega)
  have hlast : (mapAbsEntries start kvs).getLast? =
      some ((kvs.getLast hne).1, start + binSizeSumMap kvs.dropLast) := by
    conv_lhs => rw [← List.dropLast_append_getLast hne, mapAbsEntries_append]
    rw [show mapAbsEntries (start + binSizeSumMap kvs.dropLast) [kvs.getLast hne] =
      [((kvs.getLast hne).1, start + binSizeSumMap kvs.dropLast)] from rfl]
    exact List.getLast?_concat _
  have hsum : binSizeSumMap kvs = binSizeSumMap kvs.dropLast +
      calculate_binary_size_of_value (kvs.getLast hne).2 := by
    conv_lhs => rw [← List.dropLast_append_getLast hne]
    rw [binSizeSumMap_append]
    rw [show binSizeSumMap [kvs.getLast hne] =
      calculate_binary_size_of_value (kvs.getLast hne).2 + 0 from rfl]
    omega
  rw [deserializeMapBody.eq_def]
  simp only [hrun, DResult.bind_ok]
  rw [if_pos (by omega : 0 + K < kvs.length)]
  simp only [hlast, hz, DResult.bind_ok, DResult.pure_eq]
  rw [show start + binSizeSumMap kvs.dropLast +
    calculate_binary_size_of_value (kvs.getLast hne).2 = start + binSizeSumMap kvs by omega]


/-- C3: when a consumer stops after only `K < N` of a stored List's elements
(or a Map's entries), the decoder still advances the stream cursor to the
position immediately after the LAST declared element, by seeking to its
offset and parsing and discarding it — so the final position equals the one a
full consumption would reach (`start` plus the total size of all `N`
elements), and a sibling value decoded at that position sees the same bytes
either way. -/
theorem C3_partial_consumption :
    (∀ (xs : List Value) (K fuel : Nat) (env : DecodeEnv)
      (sl : List (List Nat × Nat)) (tl : List (List (Nat × Nat) × Nat))
      (start : Nat) (bs : List Nat),
      env.hashes.length ≤ 4294967296 →
      env.refRaw.length < 4294967296 →
      GoodStrings env.refRaw sl →
      GoodStructs env.refRaw env.hashes tl →
      writeValueList env.hashes sl tl xs = some bs →
      sliceEq env.stream start bs →
      (∀ u ∈ Value.subsList xs, u.nodeWF) →
      (∀ s, Value.string s ∈ Value.subsList xs → stringOk s) →
      (∀ u ∈ Value.subsList xs, calculate_binary_size_of_value u < 4294967296) →
      fuelNeedSeq xs < fuel →
      K < xs.length →
      deserializeSeqBody fuel env (listAbsOffsets start xs) K start =
        .ok (xs.take K, start + binSizeSumList xs)) ∧
    (∀ (kvs : List (Nat × Value)) (K fuel : Nat) (env : DecodeEnv)
      (sl : List (List Nat × Nat)) (tl : List (List (Nat × Nat) × Nat))
      (start : Nat) (bs : List Nat),
      env.hashes.length ≤ 4294967296 →
      env.refRaw.length < 4294967296 →
      GoodStrings env.refRaw sl →
      GoodStructs env.refRaw env.hashes tl →
      writeValueMap env.hashes sl tl kvs = some bs →
      sliceEq env.stream start bs →
      (∀ u ∈ Value.subsMap kvs, u.nodeWF) →
      (∀ s, Value.string s ∈ Value.subsMap kvs → stringOk s) →
      (∀ u ∈ Value.subsMap kvs, calculate_binary_size_of_value u < 4294967296) →
      fuelNeedEntries kvs < fuel →
      K < kvs.length →
      deserializeMapBody fuel env (mapAbsEntries start kvs) kvs.length K start =
        .ok (kvs.take K, start + binSizeSumMap kvs)) :=
  ⟨seqBody_partial_correct, mapBody_partial_correct⟩

/-- C3 (witness): concrete partial consumptions: one of two Bool list
elements (cursor ends at 17, after both), and one of two `(key, U8)` map
entries (cursor ends at 13, after both values). -/
theorem C3_partial_consumption_witness :
    deserializeSeqBody 10 ⟨[11, 2, 0, 0, 0, 13, 0, 0, 0, 15, 0, 0, 0, 1, 1, 1, 0],
        [], [], 8⟩ (listAbsOffsets 13 [.bool true, .bool false]) 1 13 =
      .ok ([.bool true], 17) ∧
    deserializeMapBody 10 ⟨[12, 2, 0, 0, 0, 0, 0, 0, 0, 3, 5, 3, 6], [], [], 8⟩
        (mapAbsEntries 9 [(1, .u8 5), (2, .u8 6)]) 2 1 9 =
      .ok ([(1, .u8 5)], 13) := by
  constructor
  · exact C3_partial_consumption.1 [.bool true, .bool false] 1 10
      ⟨[11, 2, 0, 0, 0, 13, 0, 0, 0, 15, 0, 0, 0, 1, 1, 1, 0], [], [], 8⟩ [] [] 13
      [1, 1, 1, 0] (by decide) (by decide)
      (by intro e he; simp at he) (by intro e he; simp at he)
      (by decide) rfl (by decide)
      (by intro s hs; simp [Value.subsList, Value.subs] at hs)
      (by decide) (by decide) (by decide)
  · exact C3_partial_consumption.2 [(1, .u8 5), (2, .u8 6)] 1 10
      ⟨[12, 2, 0, 0, 0, 0, 0, 0, 0, 3, 5, 3, 6], [], [], 8⟩ [] [] 9
      [3, 5, 3, 6] (by decide) (by decide)
      (by intro e he; simp at he) (by intro e he; simp at he)
      (by decide) rfl (by decide)
      (by intro s hs; simp [Value.subsMap, Value.subs] at hs)
      (by decide) (by decide) (by decide)

end SerdePrc
